import Mathlib

/-!
# Verification of the ecmarkdown tokenizer (src/tokenizer.ts)

Shallow embedding of the tokenizer in `src/src/tokenizer.ts`.  Strings are
modelled as `List Char`; the mutable `Tokenizer` object is modelled by explicit
state passing: the scanner fields (`str`, `pos`, `line`, `column`, `_newline`,
`_eof`, `_lookahead`) form a `Scan` record, and the `queue` field lives in the
`Tokenizer` record built on top of it.  `enqueue` is modelled by returning the
emitted tokens (the enqueued token followed by the flushed `_lookahead`
buffer), which the wrapper appends to `queue`; this is the standard
state-passing rendering of the original's `this.queue.push` calls and keeps
the observable queue identical.  The one `raise` call inside `matchToken`
(the "Unexpected token" branch) is modelled by setting an `err` flag, since a
thrown exception aborts the scan without emitting anything.

The JavaScript regular expressions at the top of the source file are embedded
as explicit matching functions with the exact backtracking semantics of the
originals (greedy quantifiers tried longest-first, ordered alternation);
comments at each definition record which regexp it implements.
-/

set_option maxRecDepth 10000

namespace Emd


/-- `function isWhitespace(chr) { return chr === ' ' || chr === '\t'; }` -/
def isWhitespace (c : Char) : Bool :=
  c == ' ' || c == '\t'

/-- `function isFormat(chr)`: the six characters `* _ \x60 < | ~`
(the backtick is written `'\x60'`). -/
def isFormat (c : Char) : Bool :=
  c == '*' || c == '_' || c == '\x60' || c == '<' || c == '|' || c == '~'

/-- `function isChars(chr) { return !isFormat(chr) && chr !== '\n' && chr !== ' ' && chr !== '\t'; }` -/
def isChars (c : Char) : Bool :=
  !isFormat c && c != '\n' && c != ' ' && c != '\t'

/-- JavaScript `\w` character class: `[A-Za-z0-9_]`. -/
def wordChar (c : Char) : Bool :=
  c.isAlpha || c.isDigit || c == '_'

/-- JavaScript `\s` character class (ECMAScript WhiteSpace and LineTerminator):
space, tab, LF, VT, FF, CR, NBSP, Ogham space mark, the U+2000..U+200A range,
LS, PS, NNBSP, MMSP, ideographic space and the BOM. -/
def jsSpace (c : Char) : Bool :=
  c == ' ' || c == '\t' || c == '\n' || c == '\x0b' || c == '\x0c' || c == '\r' ||
  c == '\u00A0' || c == '\u1680' || (0x2000 ≤ c.val.toNat && c.val.toNat ≤ 0x200A) ||
  c == '\u2028' || c == '\u2029' || c == '\u202F' || c == '\u205F' ||
  c == '\u3000' || c == '\uFEFF'

/-- Characters allowed by the unquoted-attribute-value alternative
`[^><"'=\x60]+` of `tagRegexp`. -/
def unqChar (c : Char) : Bool :=
  !(c == '>' || c == '<' || c == '"' || c == '\'' || c == '=' || c == '\x60')

/-- Length of the longest prefix of `l` all of whose characters satisfy `p`
(the number of characters a greedy character-class loop consumes). -/
def countWhile (p : Char → Bool) (l : List Char) : Nat :=
  (l.takeWhile p).length

/-! ## The regular expressions

`tagRegexp = /^<[\/!]?(\w[\w-]*)(\s+[\w]+(\s*=\s*("[^"]*"|'[^']*'|[^><"'=\x60]+))?)*\s*>/`
is embedded by `matchTag` below; `commentRegexp = /^<!--[\w\W]*?-->/` by
`matchComment`; `idRegexp = /^\[id="([\w-]+)"] /` by `matchId`;
`digitRegexp = /\d/` (applied to single characters) by `Char.isDigit`.
-/

/-- The quoted alternative `"[^"]*"`: number of characters consumed, or `none`.
`[^"]*` is greedy but cannot pass the closing quote, so the match is the text
up to the first `"`, which must exist. -/
def dquoteVal : List Char → Option Nat
  | '"' :: rest =>
    let j := countWhile (fun c => c != '"') rest
    if j < rest.length then some (j + 2) else none
  | _ => none

/-- The quoted alternative `'[^']*'`. -/
def squoteVal : List Char → Option Nat
  | '\'' :: rest =>
    let j := countWhile (fun c => c != '\'') rest
    if j < rest.length then some (j + 2) else none
  | _ => none

/-- Candidate lengths for the alternation `("[^"]*"|'[^']*'|[^><"'=\x60]+)` at
one position, in the order a backtracking matcher tries them: each quoted
alternative is deterministic; the unquoted `[^...]+` is greedy, so its
lengths are tried from the longest run down to 1. -/
def valueAlts (s : List Char) : List Nat :=
  (match dquoteVal s with | some n => [n] | none => []) ++
  (match squoteVal s with | some n => [n] | none => []) ++
  (let u := countWhile unqChar s
   (List.range u).reverse.map (· + 1))

/-- Candidate consumed lengths for the optional value part `\s*=\s*(V)` of one
attribute, in backtracking order.  The `\s*` before `=` is deterministic
(backing off leaves a space where `=` is required); the `\s*` after `=` is
greedy, so its lengths `k` are tried from the maximal run `m` down to 0, and
for each `k` the value alternatives are tried in order. -/
def eqValueCands (s : List Char) : List Nat :=
  let e := countWhile jsSpace s
  if (s.drop e).head? = some '=' then
    let s3 := s.drop (e + 1)
    let m := countWhile jsSpace s3
    ((List.range (m + 1)).reverse).flatMap
      (fun k => (valueAlts (s3.drop k)).map (fun v => e + 1 + k + v))
  else []

/-- Candidate consumed lengths for one attribute iteration
`\s+[\w]+(\s*=\s*(V))?`, in backtracking order: `\s+` and `[\w]+` are
deterministic (their character classes are disjoint from every continuation),
the optional value group is tried with a value first (greedy `?`), then
without. -/
def oneAttr (s : List Char) : List Nat :=
  let w := countWhile jsSpace s
  if w = 0 then [] else
  let a := countWhile wordChar (s.drop w)
  if a = 0 then [] else
  (eqValueCands (s.drop (w + a))).map (fun v => w + a + v) ++ [w + a]

/-- The closing part `\s*>`: deterministic (backing off the greedy `\s*`
leaves a space where `>` is required). -/
def closeOnly (s : List Char) : Option Nat :=
  let w := countWhile jsSpace s
  if (s.drop w).head? = some '>' then some (w + 1) else none

/-- The suffix `(\s+[\w]+(\s*=\s*(V))?)*\s*>` of `tagRegexp` after the tag
name: returns the consumed length and the capture of the *last* iteration of
the attribute group (JS `match[2]`), trying a further attribute iteration
before the closing `\s*>` (greedy `*`) and backtracking through the candidate
lengths of each iteration.  Every candidate consumes at least one character,
so fuel `s.length + 1` is always sufficient. -/
def attrsClose : Nat → List Char → Option (Nat × Option (List Char))
  | 0, _ => none
  | fuel + 1, s =>
    match (oneAttr s).findSome? (fun c =>
      (attrsClose fuel (s.drop c)).map
        (fun pr => (c + pr.1, some (pr.2.getD (s.take c))))) with
    | some r => some r
    | none => (closeOnly s).map (fun n => (n, none))

/-- Result of a successful `tagRegexp` match: `full` is `match[0]`, `tagName`
is `match[1]`, `attr2` is `match[2]` (`none` when the attribute group iterated
zero times, mirroring JS `undefined`). -/
structure TagMatch where
  full : List Char
  tagName : List Char
  attr2 : Option (List Char)
deriving DecidableEq, Repr

/-- Length consumed by `[\/!]?` (deterministic: the following `\w` excludes
`/` and `!`). -/
def preLen (s1 : List Char) : Bool :=
  s1.head? = some '/' || s1.head? = some '!'

/-- Characters of the tag-name tail `[\w-]*`. -/
def tagNameChar (d : Char) : Bool :=
  wordChar d || d == '-'

/-- `tagRegexp` anchored at the start of `s`.  `[\/!]?` is deterministic, as
is the greedy tag name `\w[\w-]*` (every continuation starts with `\s` or
`>`). -/
def matchTag (s : List Char) : Option TagMatch :=
  match s with
  | '<' :: s1 =>
    match s1.drop (cond (preLen s1) 1 0) with
    | c :: rest =>
      if wordChar c then
        match attrsClose (s.length + 1) (rest.drop (countWhile tagNameChar rest)) with
        | some (k, a2) =>
          some ⟨s.take (1 + cond (preLen s1) 1 0 + 1 + countWhile tagNameChar rest + k),
            c :: rest.take (countWhile tagNameChar rest), a2⟩
        | none => none
      else none
    | [] => none
  | _ => none

/-- Index of the first occurrence of `-->` in `l`, if any. -/
def firstArrow : List Char → Option Nat
  | [] => none
  | c :: rest =>
    if c = '-' ∧ rest.take 2 = ['-', '>'] then some 0
    else (firstArrow rest).map (· + 1)

/-- `commentRegexp = /^<!--[\w\W]*?-->/` anchored at the start of `s`:
`[\w\W]*?` is lazy, so the comment ends at the first `-->` after the opener.
Returns the consumed length. -/
def matchComment (s : List Char) : Option Nat :=
  match s with
  | '<' :: '!' :: '-' :: '-' :: rest => (firstArrow rest).map (fun j => j + 7)
  | _ => none

/-- The `[\w-]` character class of `idRegexp`. -/
def idChar (c : Char) : Bool :=
  wordChar c || c == '-'

/-- `idRegexp = /^\[id="([\w-]+)"] /` anchored at the start of `s`: returns
the consumed length and the capture `match[1]`.  `[\w-]+` is greedy and its
class excludes `"`, so the match is deterministic. -/
def matchId (s : List Char) : Option (Nat × List Char) :=
  match s with
  | '[' :: 'i' :: 'd' :: '=' :: '"' :: rest =>
    if countWhile idChar rest = 0 then none
    else
      match rest.drop (countWhile idChar rest) with
      | '"' :: ']' :: ' ' :: _ =>
        some (5 + countWhile idChar rest + 3, rest.take (countWhile idChar rest))
      | _ => none
  | _ => none

/-- `const opaqueTags = new Set(['emu-grammar', 'emu-production', 'pre',
'code', 'script', 'style'])`.  (Named `oTags` in this embedding.) -/
def oTags : List (List Char) :=
  [("emu-grammar").toList, ("emu-production").toList, ("pre").toList,
   ("code").toList, ("script").toList, ("style").toList]



/-! ## Tokens and scanner state -/

/-- The `name` discriminant of the token union.  The source's `'opaqueTag'`
variant is spelled `oTag` here. -/
inductive TokenName where
  | text | whitespace | ol | ul | star | underscore | tick | pipe | tilde
  | linebreak | parabreak | tag | comment | oTag | EOF
deriving DecidableEq, Repr

/-- `{ offset, line, column }` as produced by `getLocation()`. -/
structure Position where
  offset : Nat
  line : Nat
  column : Nat
deriving DecidableEq, Repr

/-- `{ start, end }`; the `end` field is spelled `stop` (`end` is reserved). -/
structure Location where
  start : Position
  stop : Position
deriving DecidableEq, Repr

/-- A located token.  The source's EOF token has no `contents`; it is
modelled with `contents = []`. -/
structure Token where
  name : TokenName
  contents : List Char
  location : Location
deriving DecidableEq, Repr

/-- The out-of-band `id` token produced only by `tryScanId`, carrying the
decoded `value` instead of raw contents. -/
structure IdToken where
  value : List Char
  location : Location
deriving DecidableEq, Repr

/-- The scanning fields of the `Tokenizer` object: `str`, `pos`, `line`,
`column`, `_newline` (here `nl`), `_eof` (here eofF), `_lookahead`
(here `lookahead`), plus `err`, which models a pending `raise` from
`matchToken` (an exception thrown out of the scan).  The `queue` field is kept
separately in `Tokenizer` below; the unused `previous` field is omitted. -/
structure Scan where
  str : List Char
  pos : Nat
  line : Nat
  column : Nat
  nl : Bool
  eofF : Bool
  lookahead : List Token
  err : Bool
deriving DecidableEq, Repr

/-- The portion of the input not yet consumed (`str.slice(pos)`). -/
def Scan.rest (sc : Scan) : List Char :=
  sc.str.drop sc.pos

/-- `getLocation()`. -/
def getLocation (sc : Scan) : Position :=
  ⟨sc.pos, sc.line, sc.column⟩

/-- `locate(tok, startPos)`: updates `line`/`column` according to the token
kind, then attaches `{ start: startPos, end: this.getLocation() }`. -/
def locate (sc : Scan) (name : TokenName) (contents : List Char)
    (startPos : Position) : Token × Scan :=
  let sc' :=
    if name = .linebreak then { sc with column := 1, line := sc.line + 1 }
    else if name = .parabreak then
      { sc with column := 1, line := sc.line + contents.length }
    else { sc with column := sc.column + (sc.pos - startPos.offset) }
  (⟨name, contents, ⟨startPos, getLocation sc'⟩⟩, sc')

/-- `enqueue(tok, pos)`: locate the token, emit it, then flush and clear the
lookahead buffer after it.  The emitted list is appended to the queue by
`Tokenizer.matchTokenT`. -/
def enqueue (sc : Scan) (name : TokenName) (contents : List Char)
    (startPos : Position) : Scan × List Token :=
  let (tok, sc') := locate sc name contents startPos
  ({ sc' with lookahead := [] }, tok :: sc'.lookahead)

/-- `enqueueLookahead(tok, pos)`: locate the token and push it onto the
lookahead buffer. -/
def enqueueLookahead (sc : Scan) (name : TokenName) (contents : List Char)
    (startPos : Position) : Scan :=
  let (tok, sc') := locate sc name contents startPos
  { sc' with lookahead := sc'.lookahead ++ [tok] }

/-- `scanWhitespace()`: consume `[ \t]*` and return it. -/
def scanWhitespace (sc : Scan) : List Char × Scan :=
  let ws := sc.rest.takeWhile isWhitespace
  (ws, { sc with pos := sc.pos + ws.length })

/-- `scanDigits()`: consume `\d*` and return it. -/
def scanDigits (sc : Scan) : List Char × Scan :=
  let ds := sc.rest.takeWhile Char.isDigit
  (ds, { sc with pos := sc.pos + ds.length })

/-- `scanEscape()`: consume the backslash; at end of input return `\`;
otherwise consume the next character `chr` and return `chr` alone when it is
a format character or a backslash, `\chr` otherwise.  (Only called with
`str[pos] = '\'`, so `pos+1 ≤ length` and `get? (pos+1) = none` coincides
with the source's `pos === length` check.) -/
def scanEscape (sc : Scan) : List Char × Scan :=
  let sc1 := { sc with pos := sc.pos + 1 }
  match sc1.str[sc1.pos]? with
  | none => (['\\'], sc1)
  | some chr =>
    let sc2 := { sc1 with pos := sc1.pos + 1 }
    if isFormat chr || chr == '\\' then ([chr], sc2) else (['\\', chr], sc2)

/-- The lookahead guard inside `tryScanTag`: true when `pos + 1` is a valid
index and the character there is none of `/`, `!`, `\w` (so a stray `<` in
prose is not taken for markup). -/
def tagGuardBlocks (sc : Scan) : Bool :=
  match sc.str[sc.pos + 1]? with
  | some c => decide (sc.pos + 1 < sc.str.length) && c != '/' && c != '!' && !wordChar c
  | none => false

/-- `tryScanTag()`: the `<` check and the lookahead guard, then the anchored
`tagRegexp` match, consuming it on success. -/
def tryScanTag (sc : Scan) : Option TagMatch × Scan :=
  if sc.str[sc.pos]? ≠ some '<' then (none, sc)
  else
    if tagGuardBlocks sc then (none, sc)
    else
      match matchTag sc.rest with
      | none => (none, sc)
      | some m => (some m, { sc with pos := sc.pos + m.full.length })

/-- `tryScanComment()`: anchored `commentRegexp` match, consuming it on
success and returning the matched text. -/
def tryScanComment (sc : Scan) : Option (List Char) × Scan :=
  match matchComment sc.rest with
  | none => (none, sc)
  | some n => (some (sc.rest.take n), { sc with pos := sc.pos + n })

/-- `locate` for the out-of-band id token: its name is `'id'`, so the
generic (`else`) branch of `locate` applies. -/
def locateId (sc : Scan) (value : List Char) (startPos : Position) :
    IdToken × Scan :=
  let sc' := { sc with column := sc.column + (sc.pos - startPos.offset) }
  (⟨value, ⟨startPos, getLocation sc'⟩⟩, sc')

/-- `tryScanId()`: anchored `idRegexp` match; on success consume it and
return the located id token, on failure return `null` leaving the state
untouched. -/
def tryScanId (sc : Scan) : Option IdToken × Scan :=
  match matchId sc.rest with
  | none => (none, sc)
  | some (n, value) =>
    let start := getLocation sc
    let sc1 := { sc with pos := sc.pos + n }
    let (tok, sc2) := locateId sc1 value start
    (some tok, sc2)

/-- One iteration step of the `scanToEndTag(endTag)` loop: repeatedly try to
match a tag; a matched *closing* tag with the right name ends the loop (with
the position already past it), any other match is skipped whole, and a
non-match advances one character.  Fuel bounds the iteration count; every
iteration advances `pos`, so `str.length - pos` fuel always suffices. -/
def scanToEndTagAux (endTag : List Char) : Nat → Scan → Scan
  | 0, sc => sc
  | fuel + 1, sc =>
    if sc.pos < sc.str.length then
      match tryScanTag sc with
      | (some m, sc') =>
        if m.tagName = endTag ∧ m.full[1]? = some '/' then sc'
        else scanToEndTagAux endTag fuel sc'
      | (none, sc') => scanToEndTagAux endTag fuel { sc' with pos := sc'.pos + 1 }
    else sc

/-- `scanToEndTag(endTag)`: run the loop and return the consumed slice
`str.slice(start, pos)` (which includes the matched closing tag). -/
def scanToEndTag (endTag : List Char) (sc : Scan) : List Char × Scan :=
  let sc' := scanToEndTagAux endTag (sc.str.length - sc.pos) sc
  (sc.rest.take (sc'.pos - sc.pos), sc')

/-- One loop of `scanChars()`, with fuel (each iteration that does not stop
consumes at least one character, so `str.length - pos + 1` fuel suffices).
Characters accepted by `isChars` and escapes extend the run; a `<` starting a
tag or comment queues it as a lookahead token and stops the run; any other
`<` is an ordinary character; everything else stops the run. -/
def scanCharsAux : Nat → Scan → List Char × Scan
  | 0, sc => ([], sc)
  | fuel + 1, sc =>
    match sc.str[sc.pos]? with
    | none => ([], sc)
    | some chr =>
      let start := getLocation sc
      if chr == '\\' then
        let (e, sc1) := scanEscape sc
        let (out, sc2) := scanCharsAux fuel sc1
        (e ++ out, sc2)
      else if isChars chr then
        let (out, sc2) := scanCharsAux fuel { sc with pos := sc.pos + 1 }
        (chr :: out, sc2)
      else if chr == '<' then
        match tryScanTag sc with
        | (some m, sc1) =>
          if oTags.contains m.tagName ∧ m.attr2 ≠ some ['/'] then
            let (more, sc2) := scanToEndTag m.tagName sc1
            ([], enqueueLookahead sc2 .oTag (m.full ++ more) start)
          else
            ([], enqueueLookahead sc1 .tag m.full start)
        | (none, sc1) =>
          match tryScanComment sc1 with
          | (some cmt, sc2) => ([], enqueueLookahead sc2 .comment cmt start)
          | (none, sc2) =>
            let (out, sc3) := scanCharsAux fuel { sc2 with pos := sc2.pos + 1 }
            (chr :: out, sc3)
      else ([], sc)

/-- `scanChars()`. -/
def scanChars (sc : Scan) : List Char × Scan :=
  scanCharsAux (sc.str.length - sc.pos + 1) sc



/-- The generic per-character dispatch of `matchToken` (the `switch`
statement and the branches after it).  The `none` character case models the
JS behaviour of indexing past the end (`undefined` is neither a listed case
nor whitespace, and `isChars(undefined)` is true, so it falls into the text
branch); it is unreachable from well-formed states because every caller
guarantees `pos < str.length` here.  The final `else` is the source's
`this.raise(...)` and sets `err`. -/
def genericDispatch (sc : Scan) : Scan × List Token :=
  let start := getLocation sc
  match sc.str[sc.pos]? with
  | some '*' => enqueue { sc with pos := sc.pos + 1 } .star ['*'] start
  | some '_' => enqueue { sc with pos := sc.pos + 1 } .underscore ['_'] start
  | some '\x60' => enqueue { sc with pos := sc.pos + 1 } .tick ['\x60'] start
  | some '|' => enqueue { sc with pos := sc.pos + 1 } .pipe ['|'] start
  | some '~' => enqueue { sc with pos := sc.pos + 1 } .tilde ['~'] start
  | some '\n' =>
    let sc1 := { sc with nl := true }
    let n := countWhile (fun c => c == '\n') sc1.rest
    let sc2 := { sc1 with pos := sc1.pos + n }
    if n = 1 then enqueue sc2 .linebreak ['\n'] start
    else enqueue sc2 .parabreak (sc1.rest.take n) start
  | chr =>
    if (chr.map isWhitespace).getD false then
      let (ws, sc1) := scanWhitespace sc
      enqueue sc1 .whitespace ws start
    else if (chr.map isChars).getD true then
      let (out, sc1) := scanChars sc
      enqueue sc1 .text out start
    else if chr = some '<' then
      if sc.str[sc.pos + 1]? = some '!' ∧ sc.str[sc.pos + 2]? = some '-' ∧
          sc.str[sc.pos + 3]? = some '-' then
        match tryScanComment sc with
        | (some cmt, sc1) => enqueue sc1 .comment cmt start
        | (none, sc1) =>
          let (out, sc2) := scanChars sc1
          enqueue sc2 .text out start
      else
        match tryScanTag sc with
        | (some m, sc1) =>
          if oTags.contains m.tagName ∧ m.attr2 ≠ some ['/'] then
            let (more, sc2) := scanToEndTag m.tagName sc1
            enqueue sc2 .oTag (m.full ++ more) start
          else enqueue sc1 .tag m.full start
        | (none, sc1) =>
          let (out, sc2) := scanChars sc1
          enqueue sc2 .text out start
    else ({ sc with err := true }, [])

/-- The line-start branch of `matchToken()` (the body of `if (this._newline)`,
entered with the flag already cleared): scan and hold leading whitespace,
then recognize an ordered list marker (digits followed by dot-space), an
unordered marker (`* `), a tag/comment, or flush the held whitespace, falling
through to the generic dispatch exactly where the source does. -/
def newlineBranch (sc1 : Scan) : Scan × List Token :=
  let start := getLocation sc1
  let (ws, sc2) := scanWhitespace sc1
  if sc2.str.length ≤ sc2.pos then
    if ws ≠ [] then enqueue sc2 .whitespace ws start
    else genericDispatch sc2
  else if (sc2.str[sc2.pos]?.map Char.isDigit).getD false then
    let (digits, sc3) := scanDigits sc2
    if sc3.str[sc3.pos]? = some '.' ∧ sc3.str[sc3.pos + 1]? = some ' ' then
      enqueue { sc3 with pos := sc3.pos + 2 } .ol (ws ++ digits ++ ['.', ' ']) start
    else
      let (sc4, e1) :=
        if ws ≠ [] then enqueue sc3 .whitespace ws start else (sc3, [])
      let (out, sc5) := scanChars sc4
      let (sc6, e2) := enqueue sc5 .text (digits ++ out) start
      (sc6, e1 ++ e2)
  else if sc2.str[sc2.pos]? = some '*' ∧ sc2.str[sc2.pos + 1]? = some ' ' then
    enqueue { sc2 with pos := sc2.pos + 2 } .ul (ws ++ ['*', ' ']) start
  else if sc2.str[sc2.pos]? = some '<' then
    match tryScanTag sc2 with
    | (some m, sc3) =>
      if oTags.contains m.tagName ∧ m.attr2 ≠ some ['/'] then
        let (more, sc4) := scanToEndTag m.tagName sc3
        enqueue sc4 .oTag (ws ++ m.full ++ more) start
      else
        let (sc4, e1) :=
          if ws ≠ [] then enqueue sc3 .whitespace ws start else (sc3, [])
        let (sc5, e2) := enqueue sc4 .tag m.full start
        (sc5, e1 ++ e2)
    | (none, sc3) =>
      match tryScanComment sc3 with
      | (some cmt, sc4) => enqueue sc4 .comment (ws ++ cmt) start
      | (none, sc4) => genericDispatch sc4
  else if ws ≠ [] then enqueue sc2 .whitespace ws start
  else genericDispatch sc2

/-- `matchToken()`.  The source wraps the body in `while (true)`, but every
path through the body returns, so the loop runs exactly once and the body is
modelled as a straight-line function.  At end of input it sets `_eof` and
emits the EOF token; when the `_newline` flag is set it clears it and runs
the line-start branch; otherwise the generic dispatch runs. -/
def matchToken (sc : Scan) : Scan × List Token :=
  if sc.pos = sc.str.length then
    let sc0 := { sc with eofF := true }
    enqueue sc0 .EOF [] (getLocation sc0)
  else if sc.nl then newlineBranch { sc with nl := false }
  else genericDispatch sc

/-! ## The Tokenizer object: queue, peek, next -/

/-- The `Tokenizer` object: the scanner fields plus the token `queue`. -/
structure Tokenizer where
  scan : Scan
  queue : List Token
deriving DecidableEq, Repr

/-- `new Tokenizer(str)`. -/
def initTokenizer (str : List Char) : Tokenizer :=
  ⟨⟨str, 0, 1, 1, true, false, [], false⟩, []⟩

/-- One `this.matchToken()` call made by `peek`: the emitted tokens land at
the back of the queue. -/
def matchTokenT (t : Tokenizer) : Tokenizer :=
  let (sc, ts) := matchToken t.scan
  ⟨sc, t.queue ++ ts⟩

/-- The `while (!this._eof && this.queue.length < dist) { this.matchToken(); }`
loop of `peek`, with fuel (each iteration either enqueues a token or reaches
end of input, so `str.length + dist + 2` fuel always suffices). -/
def fill : Nat → Nat → Tokenizer → Tokenizer
  | 0, _, t => t
  | fuel + 1, dist, t =>
    if t.scan.eofF = false ∧ t.queue.length < dist then
      fill fuel dist (matchTokenT t)
    else t

/-- Placeholder token used as the default of `List.getD`, standing for the
JS `undefined` produced by reading `queue[queue.length - 1]` of an empty
queue or `queue[-1]`; both are unreachable from well-formed states with
`dist ≥ 1`. -/
def defaultToken : Token :=
  ⟨.EOF, [], ⟨⟨0, 1, 1⟩, ⟨0, 1, 1⟩⟩⟩

/-- `peek(dist)`: fill the queue, then read `queue[dist - 1]`, or the last
queue element (the EOF token) when the input was exhausted first. -/
def peek (t : Tokenizer) (dist : Nat) : Token × Tokenizer :=
  let t' := fill (t.scan.str.length + dist + 2) dist t
  if t'.queue.length < dist then
    (t'.queue.getD (t'.queue.length - 1) defaultToken, t')
  else (t'.queue.getD (dist - 1) defaultToken, t')

/-- `next()`: `peek(1)`, then dequeue unless the token is EOF (the EOF token
is left in the queue and re-served forever). -/
def next (t : Tokenizer) : Token × Tokenizer :=
  let (tok, t') := peek t 1
  if tok.name = .EOF then (tok, t') else (tok, { t' with queue := t'.queue.drop 1 })

/-- `expect(name)`: peek one token; raise (modelled as `true`) iff its name
differs. -/
def expectRaises (t : Tokenizer) (name : TokenName) : Bool :=
  (peek t 1).1.name != name

/-- `n` consecutive `next()` calls, collecting the returned tokens. -/
def nextN : Nat → Tokenizer → List Token × Tokenizer
  | 0, t => ([], t)
  | n + 1, t =>
    let (tok, t') := next t
    let (toks, t'') := nextN n t'
    (tok :: toks, t'')

/-- The whole token sequence of an input: `str.length + 1` calls to `next()`
always reach EOF (each non-EOF token consumes at least one character), and
the EOF tokens are dropped. -/
def nextTokens (str : List Char) : List Token :=
  ((nextN (str.length + 1) (initTokenizer str)).1).filter (fun tok => tok.name ≠ .EOF)

/-- Well-formed scanner states reachable by the tokenizer. -/
def ScanWf (sc : Scan) : Prop :=
  sc.pos ≤ sc.str.length ∧ sc.lookahead = [] ∧ sc.err = false ∧
  (sc.eofF = true → sc.pos = sc.str.length)

instance (sc : Scan) : Decidable (ScanWf sc) := by
  unfold ScanWf; infer_instance

/-- The tokens still to be emitted by successive `matchToken` calls from
state `sc`, with fuel: each call either advances the position or reaches
end of input, so `str.length - pos + 1` calls always suffice. -/
def futureAux : Nat → Scan → List Token
  | 0, _ => []
  | fuel + 1, sc =>
    if sc.eofF = true then []
    else (matchToken sc).2 ++ futureAux fuel (matchToken sc).1

/-- The saturated token stream of a scanner state. -/
def future (sc : Scan) : List Token :=
  futureAux (sc.str.length - sc.pos + 1) sc

/-- The observable token stream of a tokenizer: the queued tokens followed
by everything the scanner will still produce. -/
def strm (t : Tokenizer) : List Token :=
  t.queue ++ future t.scan

/-- The queue/scanner invariant maintained by `peek` and `next`: the scanner
is well-formed; before end of input the queue holds only non-EOF tokens;
after end of input the queue ends with the EOF token. -/
def TWf (t : Tokenizer) : Prop :=
  ScanWf t.scan ∧
  (t.scan.eofF = false → ∀ tok ∈ t.queue, tok.name ≠ .EOF) ∧
  (t.scan.eofF = true → ∃ pre e, t.queue = pre ++ [e] ∧
    (∀ tok ∈ pre, tok.name ≠ .EOF) ∧ e.name = .EOF)

/-- Exact location accounting for a token run: starting at offset `a`, each
token starts where the previous one stopped, spans exactly its contents,
and the run ends at offset `b`. -/
def ChainFrom : Nat → List Token → Nat → Prop
  | a, [], b => a = b
  | a, tok :: ts, b =>
    tok.location.start.offset = a ∧
    tok.location.stop.offset = a + tok.contents.length ∧
    ChainFrom (a + tok.contents.length) ts b

instance instDecidableChainFrom :
    (a : Nat) → (l : List Token) → (b : Nat) → Decidable (ChainFrom a l b)
  | a, [], b => inferInstanceAs (Decidable (a = b))
  | a, tok :: ts, b =>
    have : Decidable (ChainFrom (a + tok.contents.length) ts b) :=
      instDecidableChainFrom _ ts _
    inferInstanceAs (Decidable (_ ∧ _ ∧ _))

/-- Interleavable tokenizer operations: a peek at some distance, or a
consuming next. -/
inductive TOp where
  | peekOp : Nat → TOp
  | nextOp : TOp
deriving DecidableEq, Repr

def isNextOp : TOp → Bool
  | .nextOp => true
  | .peekOp _ => false

/-- Run a sequence of operations, collecting the tokens returned by the
`next` calls (peeked values are looked at but not consumed). -/
def applyOps : List TOp → Tokenizer → List Token × Tokenizer
  | [], t => ([], t)
  | .peekOp k :: ops, t => applyOps ops (peek t k).2
  | .nextOp :: ops, t =>
    let (tok, t2) := next t
    let (toks, t3) := applyOps ops t2
    (tok :: toks, t3)

/-- The `(name, contents)` projection of a token, for statements that do not
concern locations. -/
def nameContents (tok : Token) : TokenName × List Char :=
  (tok.name, tok.contents)



/-! ## Utility lemmas -/

theorem countWhile_le (p : Char → Bool) (l : List Char) :
    countWhile p l ≤ l.length := by
  induction l with
  | nil => simp [countWhile]
  | cons c cs ih =>
    by_cases h : p c
    · simpa [countWhile, List.takeWhile_cons, h] using
        Nat.succ_le_succ (by simpa [countWhile] using ih)
    · simp [countWhile, List.takeWhile_cons, h]

theorem countWhile_cons_pos {p : Char → Bool} {c : Char} (cs : List Char)
    (h : p c = true) : countWhile p (c :: cs) = countWhile p cs + 1 := by
  simp [countWhile, List.takeWhile_cons, h]

theorem countWhile_cons_neg {p : Char → Bool} {c : Char} (cs : List Char)
    (h : p c = false) : countWhile p (c :: cs) = 0 := by
  simp [countWhile, List.takeWhile_cons, h]

theorem takeWhile_eq_take (p : Char → Bool) (l : List Char) :
    l.takeWhile p = l.take (countWhile p l) := by
  induction l with
  | nil => simp
  | cons c cs ih =>
    cases h : p c with
    | true =>
      rw [countWhile_cons_pos cs h, List.takeWhile_cons, h]
      simp [List.take_succ_cons, ih]
    | false =>
      rw [countWhile_cons_neg cs h, List.takeWhile_cons, h]
      simp

theorem dropWhile_eq_drop (p : Char → Bool) (l : List Char) :
    l.dropWhile p = l.drop (countWhile p l) := by
  induction l with
  | nil => simp
  | cons c cs ih =>
    cases h : p c with
    | true =>
      rw [countWhile_cons_pos cs h, List.dropWhile_cons]
      simp [h, ih]
    | false =>
      rw [countWhile_cons_neg cs h, List.dropWhile_cons]
      simp [h]

theorem countWhile_pos (p : Char → Bool) {c : Char} {l : List Char}
    (h : p c = true) : 0 < countWhile p (c :: l) := by
  simp [countWhile, List.takeWhile_cons, h]

theorem countWhile_head (p : Char → Bool) {l : List Char}
    (h : 0 < countWhile p l) : ∃ c cs, l = c :: cs ∧ p c = true := by
  cases l with
  | nil => simp [countWhile] at h
  | cons c cs =>
    refine ⟨c, cs, rfl, ?_⟩
    by_contra hc
    have hf : p c = false := by
      cases hpc : p c with
      | false => rfl
      | true => exact absurd hpc hc
    simp [countWhile, List.takeWhile_cons, hf] at h

theorem findSome?_eq_some {α β : Type} (f : α → Option β) :
    ∀ {l : List α} {r : β}, l.findSome? f = some r → ∃ c ∈ l, f c = some r := by
  intro l
  induction l with
  | nil => intro r h; simp [List.findSome?] at h
  | cons a as ih =>
    intro r h
    rw [List.findSome?] at h
    cases hf : f a with
    | some b => rw [hf] at h; exact ⟨a, by simp, by simp [hf, ← h]⟩
    | none =>
      rw [hf] at h
      obtain ⟨c, hc, hr⟩ := ih h
      exact ⟨c, by simp [hc], hr⟩



/-! ## Bounds for the regexp matchers -/

theorem dquoteVal_bounds {s : List Char} {n : Nat} (h : dquoteVal s = some n) :
    1 ≤ n ∧ n ≤ s.length := by
  match s with
  | [] => simp [dquoteVal] at h
  | c :: rest =>
    by_cases hc : c = '"'
    · subst hc
      simp only [dquoteVal] at h
      split at h
      · rename_i hlt
        cases h
        constructor
        · omega
        · simpa using Nat.succ_le_succ (Nat.succ_le_of_lt hlt)
      · cases h
    · rw [show dquoteVal (c :: rest) = none from by
        cases c; simp_all [dquoteVal]] at h
      cases h

theorem squoteVal_bounds {s : List Char} {n : Nat} (h : squoteVal s = some n) :
    1 ≤ n ∧ n ≤ s.length := by
  match s with
  | [] => simp [squoteVal] at h
  | c :: rest =>
    by_cases hc : c = '\''
    · subst hc
      simp only [squoteVal] at h
      split at h
      · rename_i hlt
        cases h
        constructor
        · omega
        · simpa using Nat.succ_le_succ (Nat.succ_le_of_lt hlt)
      · cases h
    · rw [show squoteVal (c :: rest) = none from by
        cases c; simp_all [squoteVal]] at h
      cases h

theorem valueAlts_bounds {s : List Char} {v : Nat} (h : v ∈ valueAlts s) :
    1 ≤ v ∧ v ≤ s.length := by
  simp only [valueAlts, List.mem_append] at h
  rcases h with (h | h) | h
  · cases hd : dquoteVal s with
    | none => simp [hd] at h
    | some n =>
      simp [hd] at h
      exact h ▸ dquoteVal_bounds hd
  · cases hs : squoteVal s with
    | none => simp [hs] at h
    | some n =>
      simp [hs] at h
      exact h ▸ squoteVal_bounds hs
  · simp only [List.mem_map, List.mem_reverse, List.mem_range] at h
    obtain ⟨i, hi, rfl⟩ := h
    have := countWhile_le unqChar s
    omega

theorem eqValueCands_bounds {s : List Char} {v : Nat} (h : v ∈ eqValueCands s) :
    1 ≤ v ∧ v ≤ s.length := by
  simp only [eqValueCands] at h
  split at h
  · rename_i heq
    have he : countWhile jsSpace s < s.length := by
      by_contra hge
      rw [List.drop_eq_nil_of_le (by omega)] at heq
      simp at heq
    simp only [List.mem_flatMap, List.mem_reverse, List.mem_range,
      List.mem_map] at h
    obtain ⟨k, hk, v', hv', rfl⟩ := h
    have hb := valueAlts_bounds hv'
    have hlen : ((s.drop (countWhile jsSpace s + 1)).drop k).length =
        s.length - (countWhile jsSpace s + 1) - k := by
      simp
      omega
    rw [hlen] at hb
    omega
  · simp at h

theorem oneAttr_bounds {s : List Char} {c : Nat} (h : c ∈ oneAttr s) :
    1 ≤ c ∧ c ≤ s.length := by
  simp only [oneAttr] at h
  split at h
  · simp at h
  · split at h
    · simp at h
    · rename_i hw ha
      have hwle := countWhile_le jsSpace s
      have hale := countWhile_le wordChar (s.drop (countWhile jsSpace s))
      rw [List.length_drop] at hale
      simp only [List.mem_append, List.mem_map, List.mem_singleton] at h
      rcases h with ⟨v, hv, rfl⟩ | rfl
      · have hb := eqValueCands_bounds hv
        rw [List.length_drop] at hb
        omega
      · omega

theorem closeOnly_bounds {s : List Char} {n : Nat} (h : closeOnly s = some n) :
    1 ≤ n ∧ n ≤ s.length := by
  simp only [closeOnly] at h
  split at h
  · rename_i heq
    cases h
    have : countWhile jsSpace s < s.length := by
      by_contra hge
      rw [List.drop_eq_nil_of_le (by omega)] at heq
      simp at heq
    omega
  · cases h

theorem attrsClose_le {fuel : Nat} :
    ∀ {s : List Char} {k : Nat} {a2 : Option (List Char)},
      attrsClose fuel s = some (k, a2) → k ≤ s.length := by
  induction fuel with
  | zero => intro s k a2 h; simp [attrsClose] at h
  | succ fuel ih =>
    intro s k a2 h
    rw [attrsClose] at h
    split at h
    · rename_i r hf
      cases h
      obtain ⟨c, hc, hr⟩ := findSome?_eq_some _ hf
      cases hac : attrsClose fuel (s.drop c) with
      | none => rw [hac] at hr; cases hr
      | some pr =>
        rw [hac] at hr
        simp only [Option.map_some'] at hr
        cases hr
        have h1 := oneAttr_bounds hc
        have h2 := ih hac
        rw [List.length_drop] at h2
        omega
    · rename_i hf
      cases hco : closeOnly s with
      | none => rw [hco] at h; cases h
      | some n =>
        rw [hco] at h
        simp only [Option.map_some'] at h
        cases h
        exact (closeOnly_bounds hco).2

theorem oneAttr_head {s : List Char} {c : Nat} (h : c ∈ oneAttr s) :
    ∃ d ds, s = d :: ds ∧ jsSpace d = true ∧ 1 ≤ c := by
  have hb := oneAttr_bounds h
  simp only [oneAttr] at h
  split at h
  · simp at h
  · rename_i hw
    obtain ⟨d, ds, hs, hd⟩ := countWhile_head jsSpace (Nat.pos_of_ne_zero hw)
    exact ⟨d, ds, hs, hd, hb.1⟩

theorem attrsClose_attr2 {fuel : Nat} :
    ∀ {s : List Char} {k : Nat} {l : List Char},
      attrsClose fuel s = some (k, some l) →
      ∃ d ds, l = d :: ds ∧ jsSpace d = true := by
  induction fuel with
  | zero => intro s k l h; simp [attrsClose] at h
  | succ fuel ih =>
    intro s k l h
    rw [attrsClose] at h
    split at h
    · rename_i r hf
      cases h
      obtain ⟨c, hc, hr⟩ := findSome?_eq_some _ hf
      cases hac : attrsClose fuel (s.drop c) with
      | none => rw [hac] at hr; cases hr
      | some pr =>
        obtain ⟨k1, a21⟩ := pr
        rw [hac] at hr
        simp only [Option.map_some'] at hr
        cases hr
        cases a21 with
        | some l' =>
          have := ih hac
          simpa using this
        | none =>
          obtain ⟨d, ds, hs, hd, hc1⟩ := oneAttr_head hc
          subst hs
          cases c with
          | zero => exact absurd hc1 (by omega)
          | succ c' =>
            exact ⟨d, ds.take c', by simp [List.take_succ_cons], hd⟩
    · rename_i hf
      cases hco : closeOnly s with
      | none => rw [hco] at h; cases h
      | some n => rw [hco] at h; simp at h

theorem matchTag_spec {s : List Char} {m : TagMatch} (h : matchTag s = some m) :
    0 < m.full.length ∧ m.full.length ≤ s.length ∧ m.full = s.take m.full.length ∧
    ∃ s1, s = '<' :: s1 := by
  unfold matchTag at h
  split at h
  · rename_i s1
    split at h
    · rename_i c rest hdrop
      split at h
      · rename_i hwc
        split at h
        · rename_i k a2 hac
          have hprele : cond (preLen s1) 1 0 ≤ 1 := by
            cases preLen s1 <;> simp
          have hs1len : s1.length = cond (preLen s1) 1 0 + 1 + rest.length := by
            have hlen := congrArg List.length hdrop
            rw [List.length_drop] at hlen
            simp only [List.length_cons] at hlen
            by_cases hple : cond (preLen s1) 1 0 ≤ s1.length
            · omega
            · rw [List.drop_eq_nil_of_le (by omega)] at hdrop
              cases hdrop
          have hnm := countWhile_le tagNameChar rest
          have hk := attrsClose_le hac
          rw [List.length_drop] at hk
          cases h
          have htake : (1 + cond (preLen s1) 1 0 + 1 +
              countWhile tagNameChar rest + k) ≤ ('<' :: s1).length := by
            simp only [List.length_cons]
            omega
          refine ⟨?_, ?_, ?_, s1, rfl⟩
          · simp only [List.length_take, List.length_cons]
            omega
          · simp only [List.length_take]
            omega
          · simp only [List.length_take]
            congr 1
            simp only [List.length_cons]
            omega
        · cases h
      · cases h
    · cases h
  · cases h

theorem matchTag_attr2 {s : List Char} {m : TagMatch} (h : matchTag s = some m) :
    ∀ l, m.attr2 = some l → ∃ d ds, l = d :: ds ∧ jsSpace d = true := by
  intro l hl
  unfold matchTag at h
  split at h
  · rename_i s1
    split at h
    · rename_i c rest hdrop
      split at h
      · rename_i hwc
        split at h
        · rename_i k a2 hac
          cases h
          simp only at hl
          subst hl
          exact attrsClose_attr2 hac
        · cases h
      · cases h
    · cases h
  · cases h


theorem firstArrow_le {l : List Char} {j : Nat} (h : firstArrow l = some j) :
    j + 3 ≤ l.length := by
  induction l generalizing j with
  | nil => simp [firstArrow] at h
  | cons c rest ih =>
    rw [firstArrow] at h
    split at h
    · rename_i harrow
      cases h
      have := congrArg List.length harrow.2
      simp only [List.length_take, List.length_cons, List.length_nil] at this
      simp only [List.length_cons]
      omega
    · cases hf : firstArrow rest with
      | none => rw [hf] at h; cases h
      | some j' =>
        rw [hf] at h
        simp only [Option.map_some'] at h
        cases h
        have := ih hf
        simp only [List.length_cons]
        omega

theorem matchComment_bounds {s : List Char} {n : Nat} (h : matchComment s = some n) :
    7 ≤ n ∧ n ≤ s.length := by
  unfold matchComment at h
  split at h
  · rename_i rest
    cases hf : firstArrow rest with
    | none => rw [hf] at h; cases h
    | some j =>
      rw [hf] at h
      simp only [Option.map_some'] at h
      cases h
      have := firstArrow_le hf
      simp only [List.length_cons]
      omega
  · cases h

theorem matchId_bounds {s : List Char} {n : Nat} {v : List Char}
    (h : matchId s = some (n, v)) : 1 ≤ n ∧ n ≤ s.length := by
  unfold matchId at h
  split at h
  · rename_i rest
    split at h
    · cases h
    · rename_i hn0
      split at h
      · rename_i t ht
        cases h
        have hcw := countWhile_le idChar rest
        have hdl := congrArg List.length ht
        rw [List.length_drop] at hdl
        simp only [List.length_cons] at hdl
        simp only [List.length_cons]
        omega
      · cases h
  · cases h


/-! ## Frame and progress lemmas for the scanning functions -/

/-- Well-formedness of scanner states: the position is in range, the
lookahead buffer is empty between `matchToken` calls, no raise is pending,
and the EOF flag implies the position is at the end. -/
theorem rest_length (sc : Scan) : sc.rest.length = sc.str.length - sc.pos := by
  simp [Scan.rest]

theorem tryScanTag_eq_none {sc sc' : Scan} (h : tryScanTag sc = (none, sc')) :
    sc' = sc := by
  unfold tryScanTag at h
  split at h
  · cases h; rfl
  · split at h
    · cases h; rfl
    · split at h
      · cases h; rfl
      · cases h

theorem tryScanTag_eq_some {sc sc' : Scan} {m : TagMatch}
    (h : tryScanTag sc = (some m, sc')) :
    sc' = { sc with pos := sc.pos + m.full.length } ∧
    matchTag sc.rest = some m ∧ 0 < m.full.length ∧
    sc.pos + m.full.length ≤ sc.str.length ∧
    m.full = sc.rest.take m.full.length := by
  unfold tryScanTag at h
  split at h
  · cases h
  · split at h
    · cases h
    · split at h
      · cases h
      · rename_i hlt hguard m' hmt
        cases h
        obtain ⟨hpos, hle, htake, s1, hs1⟩ := matchTag_spec hmt
        refine ⟨rfl, hmt, hpos, ?_, htake⟩
        rw [rest_length] at hle
        have hps : sc.pos < sc.str.length := by
          have : sc.rest ≠ [] := by rw [hs1]; simp
          rw [Scan.rest] at this
          by_contra hge
          rw [List.drop_eq_nil_of_le (by omega)] at this
          exact this rfl
        omega

theorem tryScanComment_eq_none {sc sc' : Scan}
    (h : tryScanComment sc = (none, sc')) : sc' = sc := by
  unfold tryScanComment at h
  split at h
  · cases h; rfl
  · cases h

theorem tryScanComment_eq_some {sc sc' : Scan} {cmt : List Char}
    (h : tryScanComment sc = (some cmt, sc')) :
    ∃ n, sc' = { sc with pos := sc.pos + n } ∧ matchComment sc.rest = some n ∧
      7 ≤ n ∧ sc.pos + n ≤ sc.str.length ∧ cmt = sc.rest.take n := by
  unfold tryScanComment at h
  split at h
  · cases h
  · rename_i n hmc
    cases h
    obtain ⟨h7, hle⟩ := matchComment_bounds hmc
    rw [rest_length] at hle
    have hps : sc.pos < sc.str.length := by
      by_contra hge
      have : sc.rest = [] := by rw [Scan.rest, List.drop_eq_nil_of_le (by omega)]
      rw [this] at hmc
      simp [matchComment] at hmc
    exact ⟨n, rfl, hmc, h7, by omega, rfl⟩

theorem scanToEndTagAux_spec (endTag : List Char) :
    ∀ (fuel : Nat) (sc : Scan),
      (scanToEndTagAux endTag fuel sc).str = sc.str ∧
      (scanToEndTagAux endTag fuel sc).line = sc.line ∧
      (scanToEndTagAux endTag fuel sc).column = sc.column ∧
      (scanToEndTagAux endTag fuel sc).nl = sc.nl ∧
      (scanToEndTagAux endTag fuel sc).eofF = sc.eofF ∧
      (scanToEndTagAux endTag fuel sc).lookahead = sc.lookahead ∧
      (scanToEndTagAux endTag fuel sc).err = sc.err ∧
      sc.pos ≤ (scanToEndTagAux endTag fuel sc).pos ∧
      (sc.pos ≤ sc.str.length → (scanToEndTagAux endTag fuel sc).pos ≤ sc.str.length) := by
  intro fuel
  induction fuel with
  | zero => intro sc; simp [scanToEndTagAux]
  | succ fuel ih =>
    intro sc
    rw [scanToEndTagAux]
    split
    · rename_i hlt
      rcases htt : tryScanTag sc with ⟨m?, sc1⟩
      cases m? with
      | some m =>
        obtain ⟨hsc1, hmt, hm0, hmle, hmtake⟩ := tryScanTag_eq_some htt
        dsimp only
        split
        · subst hsc1; simp; omega
        · have := ih sc1
          subst hsc1
          simp only at this ⊢
          obtain ⟨h1, h2, h3, h4, h5, h6, h7, h8, h9⟩ := this
          refine ⟨h1, h2, h3, h4, h5, h6, h7, by omega, ?_⟩
          intro hp
          exact h9 (by simpa using hmle)
      | none =>
        have hsc1 : sc1 = sc := tryScanTag_eq_none htt
        dsimp only
        rw [hsc1]
        have := ih { sc with pos := sc.pos + 1 }
        obtain ⟨h1, h2, h3, h4, h5, h6, h7, h8, h9⟩ := this
        refine ⟨h1, h2, h3, h4, h5, h6, h7, by simp at h8 ⊢; omega, ?_⟩
        intro hp
        exact h9 (by simpa using hlt)
    · simp

theorem scanToEndTag_spec (endTag : List Char) (sc : Scan) :
    (scanToEndTag endTag sc).2.str = sc.str ∧
    (scanToEndTag endTag sc).2.line = sc.line ∧
    (scanToEndTag endTag sc).2.column = sc.column ∧
    (scanToEndTag endTag sc).2.nl = sc.nl ∧
    (scanToEndTag endTag sc).2.eofF = sc.eofF ∧
    (scanToEndTag endTag sc).2.lookahead = sc.lookahead ∧
    (scanToEndTag endTag sc).2.err = sc.err ∧
    sc.pos ≤ (scanToEndTag endTag sc).2.pos ∧
    (sc.pos ≤ sc.str.length → (scanToEndTag endTag sc).2.pos ≤ sc.str.length) := by
  unfold scanToEndTag
  exact scanToEndTagAux_spec endTag (sc.str.length - sc.pos) sc


theorem scanEscape_spec (sc : Scan) (hpos : sc.pos < sc.str.length) :
    (scanEscape sc).2.str = sc.str ∧ (scanEscape sc).2.line = sc.line ∧
    (scanEscape sc).2.column = sc.column ∧ (scanEscape sc).2.nl = sc.nl ∧
    (scanEscape sc).2.eofF = sc.eofF ∧ (scanEscape sc).2.lookahead = sc.lookahead ∧
    (scanEscape sc).2.err = sc.err ∧
    sc.pos + 1 ≤ (scanEscape sc).2.pos ∧ (scanEscape sc).2.pos ≤ sc.str.length ∧
    1 ≤ (scanEscape sc).1.length ∧
    (scanEscape sc).1.length ≤ (scanEscape sc).2.pos - sc.pos := by
  unfold scanEscape
  cases hg : sc.str[sc.pos + 1]? with
  | none =>
    have hle : sc.str.length ≤ sc.pos + 1 := by
      by_contra hlt
      rw [List.getElem?_eq_none_iff] at hg
      omega
    simp only [hg]
    refine ⟨by trivial, by trivial, by trivial, by trivial, by trivial, by trivial,
      by trivial, by omega, by omega, by simp only [List.length_cons, List.length_nil]; omega,
      by simp only [List.length_cons, List.length_nil]; omega⟩
  | some chr =>
    have hlt : sc.pos + 1 < sc.str.length := by
      by_contra hge
      rw [show sc.str[sc.pos + 1]? = none from List.getElem?_eq_none_iff.mpr (by omega)] at hg
      cases hg
    simp only [hg]
    split <;> dsimp only <;>
      refine ⟨by trivial, by trivial, by trivial, by trivial, by trivial, by trivial,
        by trivial, by omega, by omega, by simp only [List.length_cons, List.length_nil]; omega,
        by simp only [List.length_cons, List.length_nil]; omega⟩

theorem enqueueLookahead_spec (sc : Scan) (name : TokenName) (contents : List Char)
    (p : Position) (hn1 : name ≠ .linebreak) (hn2 : name ≠ .parabreak) :
    (enqueueLookahead sc name contents p).str = sc.str ∧
    (enqueueLookahead sc name contents p).pos = sc.pos ∧
    (enqueueLookahead sc name contents p).line = sc.line ∧
    (enqueueLookahead sc name contents p).nl = sc.nl ∧
    (enqueueLookahead sc name contents p).eofF = sc.eofF ∧
    (enqueueLookahead sc name contents p).err = sc.err ∧
    ∃ tok, (enqueueLookahead sc name contents p).lookahead = sc.lookahead ++ [tok] ∧
      tok.name = name := by
  unfold enqueueLookahead locate
  simp only [if_neg hn1, if_neg hn2]
  refine ⟨by trivial, by trivial, by trivial, by trivial, by trivial, by trivial,
    _, rfl, rfl⟩

theorem scanCharsAux_spec :
    ∀ (fuel : Nat) (sc : Scan),
      (scanCharsAux fuel sc).2.str = sc.str ∧
      (scanCharsAux fuel sc).2.line = sc.line ∧
      (scanCharsAux fuel sc).2.nl = sc.nl ∧
      (scanCharsAux fuel sc).2.eofF = sc.eofF ∧
      (scanCharsAux fuel sc).2.err = sc.err ∧
      sc.pos ≤ (scanCharsAux fuel sc).2.pos ∧
      (scanCharsAux fuel sc).2.pos ≤ max sc.pos sc.str.length ∧
      ∃ δ, (scanCharsAux fuel sc).2.lookahead = sc.lookahead ++ δ ∧ δ.length ≤ 1 ∧
        (∀ tok ∈ δ, tok.name = .tag ∨ tok.name = .comment ∨ tok.name = .oTag) ∧
        (scanCharsAux fuel sc).1.length + δ.length ≤ (scanCharsAux fuel sc).2.pos - sc.pos := by
  intro fuel
  induction fuel with
  | zero =>
    intro sc
    simp only [scanCharsAux]
    refine ⟨by trivial, by trivial, by trivial, by trivial, by trivial, by omega,
      by omega, [], by simp, by simp, by simp, by simp⟩
  | succ fuel ih =>
    intro sc
    rw [scanCharsAux]
    cases hg : sc.str[sc.pos]? with
    | none =>
      dsimp only
      refine ⟨by trivial, by trivial, by trivial, by trivial, by trivial, by omega,
        by omega, [], by simp, by simp, by simp, by simp⟩
    | some chr =>
      have hpos : sc.pos < sc.str.length := by
        by_contra hge
        rw [show sc.str[sc.pos]? = none from List.getElem?_eq_none_iff.mpr (by omega)] at hg
        cases hg
      dsimp only
      split
      · -- backslash: escape then recurse
        rcases hesc : scanEscape sc with ⟨e, sc1⟩
        rcases hrec : scanCharsAux fuel sc1 with ⟨out, sc2⟩
        have he := scanEscape_spec sc hpos
        rw [hesc] at he
        dsimp only at he
        obtain ⟨e1, e2, e3, e4, e5, e6, e7, e8, e9, e10, e11⟩ := he
        have hr := ih sc1
        rw [hrec] at hr
        dsimp only at hr
        obtain ⟨r1, r2, r3, r4, r5, r6, r7, δ, rδ, rδ1, rδn, rδlen⟩ := hr
        dsimp only
        refine ⟨by rw [r1, e1], by rw [r2, e2], by rw [r3, e4], by rw [r4, e5],
          by rw [r5, e7], by omega, by rw [e1] at r7; omega, δ, by rw [rδ, e6], rδ1, rδn, ?_⟩
        simp only [List.length_append]
        omega
      · split
        · -- isChars: consume one and recurse
          rcases hrec : scanCharsAux fuel { sc with pos := sc.pos + 1 } with ⟨out, sc2⟩
          have hr := ih { sc with pos := sc.pos + 1 }
          rw [hrec] at hr
          dsimp only at hr
          obtain ⟨r1, r2, r3, r4, r5, r6, r7, δ, rδ, rδ1, rδn, rδlen⟩ := hr
          dsimp only
          refine ⟨r1, r2, r3, r4, r5, by omega, by omega, δ, rδ, rδ1, rδn, ?_⟩
          simp only [List.length_cons]
          omega
        · split
          · -- the '<' cases
            rcases htt : tryScanTag sc with ⟨m?, sc1⟩
            cases m? with
            | some m =>
              obtain ⟨hsc1, hmt, hm0, hmle, hmtake⟩ := tryScanTag_eq_some htt
              dsimp only
              split
              · -- opaque capture
                rcases hse : scanToEndTag m.tagName sc1 with ⟨more, sc2⟩
                have hs := scanToEndTag_spec m.tagName sc1
                rw [hse] at hs
                dsimp only at hs
                obtain ⟨s1, s2, s3, s4, s5, s6, s7, s8, s9⟩ := hs
                dsimp only
                have he := enqueueLookahead_spec sc2 .oTag (m.full ++ more)
                  (getLocation sc) (by simp) (by simp)
                obtain ⟨q1, q2, q3, q4, q5, q6, tok, hqla, hqname⟩ := he
                subst hsc1
                simp only at s1 s2 s3 s4 s5 s6 s7 s8 s9
                refine ⟨by rw [q1, s1], by rw [q3, s2], by rw [q4, s4], by rw [q5, s5],
                  by rw [q6, s7], by rw [q2]; omega, ?_, [tok], by rw [hqla, s6], by simp,
                  by simp [hqname], by simp; rw [q2]; omega⟩
                rw [q2]
                have := s9 (by simpa using hmle)
                omega
              · -- plain tag lookahead
                dsimp only
                have he := enqueueLookahead_spec sc1 .tag m.full
                  (getLocation sc) (by simp) (by simp)
                obtain ⟨q1, q2, q3, q4, q5, q6, tok, hqla, hqname⟩ := he
                subst hsc1
                simp only at q1 q2 q3 q4 q5 q6 hqla
                refine ⟨q1, q3, q4, q5, q6, by rw [q2]; omega, by rw [q2]; omega,
                  [tok], hqla, by simp, by simp [hqname], by simp; rw [q2]; omega⟩
            | none =>
              have hsc1 : sc1 = sc := tryScanTag_eq_none htt
              subst hsc1
              dsimp only
              rcases htc : tryScanComment sc1 with ⟨c?, sc2⟩
              cases c? with
              | some cmt =>
                obtain ⟨n, hsc2, hmc, h7, hle, hcmt⟩ := tryScanComment_eq_some htc
                dsimp only
                have he := enqueueLookahead_spec sc2 .comment cmt
                  (getLocation sc1) (by simp) (by simp)
                obtain ⟨q1, q2, q3, q4, q5, q6, tok, hqla, hqname⟩ := he
                subst hsc2
                simp only at q1 q2 q3 q4 q5 q6 hqla
                refine ⟨q1, q3, q4, q5, q6, by rw [q2]; omega, by rw [q2]; omega,
                  [tok], hqla, by simp, by simp [hqname], by simp; rw [q2]; omega⟩
              | none =>
                have hsc2 : sc2 = sc1 := tryScanComment_eq_none htc
                subst hsc2
                dsimp only
                rcases hrec : scanCharsAux fuel { sc2 with pos := sc2.pos + 1 } with ⟨out, sc3⟩
                have hr := ih { sc2 with pos := sc2.pos + 1 }
                rw [hrec] at hr
                dsimp only at hr
                obtain ⟨r1, r2, r3, r4, r5, r6, r7, δ, rδ, rδ1, rδn, rδlen⟩ := hr
                dsimp only
                refine ⟨r1, r2, r3, r4, r5, by omega, by omega, δ, rδ, rδ1, rδn, ?_⟩
                simp only [List.length_cons]
                omega
          · -- anything else stops the run
            dsimp only
            refine ⟨by trivial, by trivial, by trivial, by trivial, by trivial, by omega,
              by omega, [], by simp, by simp, by simp, by simp⟩


theorem locate_spec (sc : Scan) (name : TokenName) (contents : List Char)
    (p : Position) :
    (locate sc name contents p).2.str = sc.str ∧
    (locate sc name contents p).2.pos = sc.pos ∧
    (locate sc name contents p).2.nl = sc.nl ∧
    (locate sc name contents p).2.eofF = sc.eofF ∧
    (locate sc name contents p).2.lookahead = sc.lookahead ∧
    (locate sc name contents p).2.err = sc.err ∧
    (locate sc name contents p).1.name = name ∧
    (locate sc name contents p).1.contents = contents := by
  unfold locate
  split
  · exact ⟨rfl, rfl, rfl, rfl, rfl, rfl, rfl, rfl⟩
  · split
    · exact ⟨rfl, rfl, rfl, rfl, rfl, rfl, rfl, rfl⟩
    · exact ⟨rfl, rfl, rfl, rfl, rfl, rfl, rfl, rfl⟩

theorem enqueue_spec (sc : Scan) (name : TokenName) (contents : List Char)
    (p : Position) :
    (enqueue sc name contents p).1.str = sc.str ∧
    (enqueue sc name contents p).1.pos = sc.pos ∧
    (enqueue sc name contents p).1.nl = sc.nl ∧
    (enqueue sc name contents p).1.eofF = sc.eofF ∧
    (enqueue sc name contents p).1.err = sc.err ∧
    (enqueue sc name contents p).1.lookahead = [] ∧
    ∃ tok, (enqueue sc name contents p).2 = tok :: sc.lookahead ∧
      tok.name = name ∧ tok.contents = contents := by
  have hl := locate_spec sc name contents p
  obtain ⟨l1, l2, l3, l4, l5, l6, l7, l8⟩ := hl
  unfold enqueue
  rcases hloc : locate sc name contents p with ⟨tok, sc'⟩
  rw [hloc] at l1 l2 l3 l4 l5 l6 l7 l8
  dsimp only at l1 l2 l3 l4 l5 l6 l7 l8 ⊢
  exact ⟨l1, l2, l3, l4, l6, rfl, tok, by rw [l5], l7, l8⟩

theorem char_classified (c : Char) (h1 : isWhitespace c = false)
    (h2 : isChars c = false) (h3 : ¬c = '<') :
    c = '*' ∨ c = '_' ∨ c = '\x60' ∨ c = '|' ∨ c = '~' ∨ c = '\n' := by
  simp only [isChars, isFormat, isWhitespace, Bool.and_eq_false_iff,
    Bool.not_eq_false', Bool.or_eq_true, Bool.or_eq_false_iff,
    beq_iff_eq, beq_eq_false_iff_ne, ne_eq, bne_eq_false_iff_eq] at h1 h2
  tauto

theorem matchTag_none_of_comment_opener {s : List Char}
    (h1 : s[1]? = some '!') (h2 : s[2]? = some '-') : matchTag s = none := by
  match s with
  | [] => simp at h1
  | [c0] => simp at h1
  | [c0, c1] => simp at h2
  | c0 :: c1 :: c2 :: t =>
    simp only [List.getElem?_cons_succ, List.getElem?_cons_zero,
      Option.some.injEq] at h1 h2
    subst h1; subst h2
    by_cases hc0 : c0 = '<'
    · subst hc0
      simp [matchTag, preLen, wordChar]
    · rw [show matchTag (c0 :: '!' :: '-' :: t) = none from by
        cases c0; simp_all [matchTag]]


theorem scanCharsAux_fst_cons (fuel : Nat) {sc : Scan} {chr : Char}
    (hg : sc.str[sc.pos]? = some chr)
    (hc : chr = '\\' ∨ isChars chr = true ∨
      (chr = '<' ∧ (tryScanTag sc).1 = none ∧ (tryScanComment sc).1 = none)) :
    1 ≤ (scanCharsAux (fuel + 1) sc).1.length := by
  have hpos : sc.pos < sc.str.length := by
    by_contra hge
    rw [show sc.str[sc.pos]? = none from List.getElem?_eq_none_iff.mpr (by omega)] at hg
    cases hg
  rw [scanCharsAux, hg]
  dsimp only
  by_cases hbs : (chr == '\\') = true
  · rw [if_pos hbs]
    rcases hesc : scanEscape sc with ⟨e, sc1⟩
    have he := scanEscape_spec sc hpos
    rw [hesc] at he
    dsimp only at he
    rcases hrec : scanCharsAux fuel sc1 with ⟨out, sc2⟩
    dsimp only
    simp only [List.length_append]
    omega
  · rw [if_neg hbs]
    by_cases hic : isChars chr = true
    · rw [if_pos hic]
      rcases hrec : scanCharsAux fuel { sc with pos := sc.pos + 1 } with ⟨out, sc2⟩
      dsimp only
      simp
    · rw [if_neg hic]
      rcases hc with hc | hc | ⟨hlt, htag, hcmt⟩
      · exact absurd (by simp [hc]) hbs
      · exact absurd hc hic
      · rw [if_pos (by simp [hlt])]
        rcases htt : tryScanTag sc with ⟨m?, sc1⟩
        have hm : m? = none := by
          have := congrArg Prod.fst htt
          simp only at this
          rw [← this, htag]
        subst hm
        have hsc1 : sc1 = sc := tryScanTag_eq_none htt
        subst hsc1
        dsimp only
        rcases htc : tryScanComment sc1 with ⟨c?, sc2⟩
        have hcn : c? = none := by
          have := congrArg Prod.fst htc
          simp only at this
          rw [← this, hcmt]
        subst hcn
        have hsc2 : sc2 = sc1 := tryScanComment_eq_none htc
        dsimp only
        rcases hrec : scanCharsAux fuel { sc2 with pos := sc2.pos + 1 } with ⟨out, sc3⟩
        dsimp only
        simp

/-- Packaged conclusion of one `enqueue` call at the end of a `matchToken`
branch, relative to the branch entry state `sc`. -/
theorem enqueue_step {sc0 sc : Scan} (hstr : sc0.str = sc.str)
    (herr : sc0.err = false) (heof : sc0.eofF = sc.eofF)
    (hadv : sc.pos < sc0.pos) (hle : sc0.pos ≤ sc.str.length)
    (hcnt : sc0.lookahead.length + 1 ≤ sc0.pos - sc.pos)
    (hnames : ∀ tok ∈ sc0.lookahead, tok.name ≠ .EOF)
    (name : TokenName) (hn : name ≠ .EOF) (contents : List Char) (p : Position) :
    (enqueue sc0 name contents p).1.str = sc.str ∧
    (enqueue sc0 name contents p).1.lookahead = [] ∧
    (enqueue sc0 name contents p).1.err = false ∧
    (enqueue sc0 name contents p).1.eofF = sc.eofF ∧
    sc.pos < (enqueue sc0 name contents p).1.pos ∧
    (enqueue sc0 name contents p).1.pos ≤ sc.str.length ∧
    (enqueue sc0 name contents p).2 ≠ [] ∧
    (enqueue sc0 name contents p).2.length ≤ (enqueue sc0 name contents p).1.pos - sc.pos ∧
    (∀ tok ∈ (enqueue sc0 name contents p).2, tok.name ≠ .EOF) := by
  obtain ⟨q1, q2, q3, q4, q5, q6, tok, hts, hname, hcont⟩ :=
    enqueue_spec sc0 name contents p
  refine ⟨by rw [q1, hstr], q6, by rw [q5, herr], by rw [q4, heof],
    by rw [q2]; omega, by rw [q2]; omega, by simp [hts], ?_, ?_⟩
  · rw [hts, q2]
    simp only [List.length_cons]
    omega
  · intro t ht
    rw [hts] at ht
    rcases List.mem_cons.mp ht with rfl | hmem
    · rw [hname]; exact hn
    · exact hnames t hmem

theorem genericDispatch_spec (sc : Scan) (hla : sc.lookahead = [])
    (herr : sc.err = false) (hpos : sc.pos < sc.str.length) :
    (genericDispatch sc).1.str = sc.str ∧
    (genericDispatch sc).1.lookahead = [] ∧
    (genericDispatch sc).1.err = false ∧
    (genericDispatch sc).1.eofF = sc.eofF ∧
    sc.pos < (genericDispatch sc).1.pos ∧
    (genericDispatch sc).1.pos ≤ sc.str.length ∧
    (genericDispatch sc).2 ≠ [] ∧
    (genericDispatch sc).2.length ≤ (genericDispatch sc).1.pos - sc.pos ∧
    (∀ tok ∈ (genericDispatch sc).2, tok.name ≠ .EOF) := by
  unfold genericDispatch
  dsimp only
  split
  case _ hg =>
    refine enqueue_step ?_ ?_ ?_ ?_ ?_ ?_ ?_ .star (by simp) ['*'] (getLocation sc) <;>
      simp [hla, herr] <;> omega
  case _ hg =>
    refine enqueue_step ?_ ?_ ?_ ?_ ?_ ?_ ?_ .underscore (by simp) ['_'] (getLocation sc) <;>
      simp [hla, herr] <;> omega
  case _ hg =>
    refine enqueue_step ?_ ?_ ?_ ?_ ?_ ?_ ?_ .tick (by simp) ['\x60'] (getLocation sc) <;>
      simp [hla, herr] <;> omega
  case _ hg =>
    refine enqueue_step ?_ ?_ ?_ ?_ ?_ ?_ ?_ .pipe (by simp) ['|'] (getLocation sc) <;>
      simp [hla, herr] <;> omega
  case _ hg =>
    refine enqueue_step ?_ ?_ ?_ ?_ ?_ ?_ ?_ .tilde (by simp) ['~'] (getLocation sc) <;>
      simp [hla, herr] <;> omega
  case _ hg =>
    -- the newline branch
    have hdrop : sc.str.drop sc.pos = '\n' :: sc.str.drop (sc.pos + 1) := by
      rw [List.drop_eq_getElem_cons hpos]
      congr 1
      have h2 := List.getElem?_eq_getElem hpos
      rw [hg] at h2
      exact (Option.some.injEq _ _ ▸ h2).symm
    have hn1 : 1 ≤ countWhile (fun c => c == '\n') (sc.str.drop sc.pos) := by
      rw [hdrop]
      exact countWhile_pos _ (by simp)
    have hnle : countWhile (fun c => c == '\n') (sc.str.drop sc.pos) ≤
        sc.str.length - sc.pos := by
      have h2 := countWhile_le (fun c => c == '\n') (sc.str.drop sc.pos)
      rw [List.length_drop] at h2
      exact h2
    split
    · refine enqueue_step ?_ ?_ ?_ ?_ ?_ ?_ ?_ .linebreak (by simp) ['\n']
        (getLocation sc) <;> simp [hla, herr, Scan.rest] <;> omega
    · refine enqueue_step ?_ ?_ ?_ ?_ ?_ ?_ ?_ .parabreak (by simp) _
        (getLocation sc) <;> simp [hla, herr, Scan.rest] <;> omega
  case _ chr hne1 hne2 hne3 hne4 hne5 hne6 =>
    split
    · -- whitespace run
      rename_i hws
      have hw1 : 1 ≤ countWhile isWhitespace sc.rest := by
        cases hgc : sc.str[sc.pos]? with
        | none =>
          rw [List.getElem?_eq_none_iff] at hgc
          omega
        | some c =>
          have hdrop : sc.rest = c :: sc.str.drop (sc.pos + 1) := by
            show sc.str.drop sc.pos = _
            rw [List.drop_eq_getElem_cons hpos]
            congr 1
            have h2 := List.getElem?_eq_getElem hpos
            rw [hgc] at h2
            exact (Option.some.injEq _ _ ▸ h2).symm
          rw [hgc] at hws
          simp only [Option.map_some', Option.getD_some] at hws
          rw [hdrop]
          exact countWhile_pos _ hws
      have hwle : countWhile isWhitespace sc.rest ≤ sc.str.length - sc.pos := by
        have h2 := countWhile_le isWhitespace sc.rest
        rw [rest_length] at h2
        exact h2
      rcases hsw : scanWhitespace sc with ⟨ws, sc1⟩
      have hsc1 : sc1 = { sc with pos := sc.pos + countWhile isWhitespace sc.rest } := by
        have := congrArg Prod.snd hsw
        simp only [scanWhitespace] at this
        exact this.symm
      subst hsc1
      refine enqueue_step ?_ ?_ ?_ ?_ ?_ ?_ ?_ .whitespace (by simp) ws
        (getLocation sc) <;> simp [hla, herr] <;> omega
    · split
      · -- text run via scanChars
        rename_i hws hic
        rcases hsc : scanChars sc with ⟨out, sc1⟩
        have hspec := scanCharsAux_spec (sc.str.length - sc.pos + 1) sc
        have hout : 1 ≤ out.length := by
          cases hgc : sc.str[sc.pos]? with
          | none =>
            rw [List.getElem?_eq_none_iff] at hgc
            omega
          | some c =>
            rw [hgc] at hic
            simp only [Option.map_some', Option.getD_some] at hic
            have h2 := scanCharsAux_fst_cons (sc.str.length - sc.pos) hgc
              (Or.inr (Or.inl hic))
            rw [show scanCharsAux (sc.str.length - sc.pos + 1) sc = (out, sc1) from hsc] at h2
            exact h2
        rw [show scanCharsAux (sc.str.length - sc.pos + 1) sc = (out, sc1) from hsc] at hspec
        dsimp only at hspec
        obtain ⟨r1, r2, r3, r4, r5, r6, r7, δ, rδ, rδ1, rδn, rδlen⟩ := hspec
        rw [hla] at rδ
        simp only [List.nil_append] at rδ
        refine enqueue_step r1 (by rw [r5, herr]) r4 (by omega) (by omega) ?_ ?_
          .text (by simp) out (getLocation sc)
        · rw [rδ]
          omega
        · rw [rδ]
          intro t ht
          rcases rδn t ht with h | h | h <;> simp [h]
      · split
        · -- a '<' at this position
          rename_i hws hic hlt
          split
          · -- comment-opener prefix present
            rename_i hpre
            rcases htc : tryScanComment sc with ⟨c?, sc1⟩
            cases c? with
            | some cmt =>
              obtain ⟨n, hsc1, hmc, h7, hle, hcmt⟩ := tryScanComment_eq_some htc
              subst hsc1
              dsimp only
              refine enqueue_step ?_ ?_ ?_ ?_ ?_ ?_ ?_ .comment (by simp) cmt
                (getLocation sc) <;> simp [hla, herr] <;> omega
            | none =>
              have hsc1 : sc1 = sc := tryScanComment_eq_none htc
              subst hsc1
              dsimp only
              -- fall back to a text run starting at the '<'
              rcases hsc : scanChars sc1 with ⟨out, sc2⟩
              have hspec := scanCharsAux_spec (sc1.str.length - sc1.pos + 1) sc1
              have htagn : (tryScanTag sc1).1 = none := by
                rcases htt : tryScanTag sc1 with ⟨m?, sc3⟩
                cases m? with
                | none => rfl
                | some m =>
                  obtain ⟨_, hmt, _, _, _⟩ := tryScanTag_eq_some htt
                  rw [matchTag_none_of_comment_opener
                    (by rw [Scan.rest, List.getElem?_drop]; exact hpre.1)
                    (by rw [Scan.rest, List.getElem?_drop]; exact hpre.2.1)] at hmt
                  cases hmt
              have hout : 1 ≤ out.length := by
                have h2 := scanCharsAux_fst_cons (sc1.str.length - sc1.pos) hlt
                  (Or.inr (Or.inr ⟨rfl, htagn, by
                    have := congrArg Prod.fst htc
                    simp only at this
                    rw [this]⟩))
                rw [show scanCharsAux (sc1.str.length - sc1.pos + 1) sc1 = (out, sc2) from hsc] at h2
                exact h2
              rw [show scanCharsAux (sc1.str.length - sc1.pos + 1) sc1 = (out, sc2) from hsc] at hspec
              dsimp only at hspec
              obtain ⟨r1, r2, r3, r4, r5, r6, r7, δ, rδ, rδ1, rδn, rδlen⟩ := hspec
              rw [hla] at rδ
              simp only [List.nil_append] at rδ
              refine enqueue_step r1 (by rw [r5, herr]) r4 (by omega) (by omega) ?_ ?_
                .text (by simp) out (getLocation sc1)
              · rw [rδ]
                omega
              · rw [rδ]
                intro t ht
                rcases rδn t ht with h | h | h <;> simp [h]
          · -- no comment prefix: try a tag
            rename_i hpre
            rcases htt : tryScanTag sc with ⟨m?, sc1⟩
            cases m? with
            | some m =>
              obtain ⟨hsc1, hmt, hm0, hmle, hmtake⟩ := tryScanTag_eq_some htt
              dsimp only
              split
              · -- opaque capture
                rcases hse : scanToEndTag m.tagName sc1 with ⟨more, sc2⟩
                have hs := scanToEndTag_spec m.tagName sc1
                rw [hse] at hs
                dsimp only at hs
                obtain ⟨s1, s2, s3, s4, s5, s6, s7, s8, s9⟩ := hs
                subst hsc1
                simp only at s1 s2 s3 s4 s5 s6 s7 s8 s9
                refine enqueue_step s1 (by rw [s7, herr]) s5 (by omega)
                  ?_ ?_ ?_ .oTag (by simp) (m.full ++ more) (getLocation sc)
                · exact s9 (by omega)
                · rw [s6, hla]
                  simp only [List.length_nil]
                  omega
                · rw [s6, hla]
                  simp
              · -- ordinary tag
                subst hsc1
                refine enqueue_step ?_ ?_ ?_ ?_ ?_ ?_ ?_ .tag (by simp) m.full
                  (getLocation sc) <;> simp [hla, herr] <;> omega
            | none =>
              have hsc1 : sc1 = sc := tryScanTag_eq_none htt
              subst hsc1
              dsimp only
              rcases hsc : scanChars sc1 with ⟨out, sc2⟩
              have hspec := scanCharsAux_spec (sc1.str.length - sc1.pos + 1) sc1
              have hcmtn : (tryScanComment sc1).1 = none := by
                rcases htc : tryScanComment sc1 with ⟨c?, sc3⟩
                cases c? with
                | none => rfl
                | some cmt =>
                  obtain ⟨n, _, hmc, _, _, _⟩ := tryScanComment_eq_some htc
                  unfold matchComment at hmc
                  split at hmc
                  · rename_i rest2 heq2
                    exfalso
                    apply hpre
                    have h1 : sc1.rest[1]? = some '!' := by rw [heq2]; simp
                    have h2 : sc1.rest[2]? = some '-' := by rw [heq2]; simp
                    have h3 : sc1.rest[3]? = some '-' := by rw [heq2]; simp
                    rw [Scan.rest, List.getElem?_drop] at h1 h2 h3
                    exact ⟨h1, h2, h3⟩
                  · cases hmc
              have hout : 1 ≤ out.length := by
                have h2 := scanCharsAux_fst_cons (sc1.str.length - sc1.pos) hlt
                  (Or.inr (Or.inr ⟨rfl, by
                    have := congrArg Prod.fst htt
                    simp only at this
                    rw [this], hcmtn⟩))
                rw [show scanCharsAux (sc1.str.length - sc1.pos + 1) sc1 = (out, sc2) from hsc] at h2
                exact h2
              rw [show scanCharsAux (sc1.str.length - sc1.pos + 1) sc1 = (out, sc2) from hsc] at hspec
              dsimp only at hspec
              obtain ⟨r1, r2, r3, r4, r5, r6, r7, δ, rδ, rδ1, rδn, rδlen⟩ := hspec
              rw [hla] at rδ
              simp only [List.nil_append] at rδ
              refine enqueue_step r1 (by rw [r5, herr]) r4 (by omega) (by omega) ?_ ?_
                .text (by simp) out (getLocation sc1)
              · rw [rδ]
                omega
              · rw [rδ]
                intro t ht
                rcases rδn t ht with h | h | h <;> simp [h]
        · -- unreachable: every character is classified
          rename_i hws hic hlt
          exfalso
          cases hgc : sc.str[sc.pos]? with
          | none =>
            rw [hgc] at hic
            simp at hic
          | some c =>
            rw [hgc] at hws hic hlt
            simp only [Option.map_some', Option.getD_some] at hws hic
            have hcl := char_classified c (by
              cases h : isWhitespace c
              · rfl
              · exact absurd h hws) (by
              cases h : isChars c
              · rfl
              · exact absurd h hic) (by
              intro hceq
              exact hlt (by rw [hceq]))
            rcases hcl with h | h | h | h | h | h <;> subst h
            · exact hne1 hgc
            · exact hne2 hgc
            · exact hne3 hgc
            · exact hne4 hgc
            · exact hne5 hgc
            · exact hne6 hgc


theorem scanWhitespace_eq (sc : Scan) :
    scanWhitespace sc = (sc.rest.takeWhile isWhitespace,
      { sc with pos := sc.pos + countWhile isWhitespace sc.rest }) := rfl

theorem scanDigits_eq (sc : Scan) :
    scanDigits sc = (sc.rest.takeWhile Char.isDigit,
      { sc with pos := sc.pos + countWhile Char.isDigit sc.rest }) := rfl

theorem rest_set_pos (sc : Scan) (p : Nat) :
    ({ sc with pos := p } : Scan).rest = sc.str.drop p := rfl

theorem newlineBranch_spec (sc1 : Scan) (hla : sc1.lookahead = [])
    (herr : sc1.err = false) (hpos : sc1.pos < sc1.str.length) :
    (newlineBranch sc1).1.str = sc1.str ∧
    (newlineBranch sc1).1.lookahead = [] ∧
    (newlineBranch sc1).1.err = false ∧
    (newlineBranch sc1).1.eofF = sc1.eofF ∧
    sc1.pos < (newlineBranch sc1).1.pos ∧
    (newlineBranch sc1).1.pos ≤ sc1.str.length ∧
    (newlineBranch sc1).2 ≠ [] ∧
    (newlineBranch sc1).2.length ≤ (newlineBranch sc1).1.pos - sc1.pos ∧
    (∀ tok ∈ (newlineBranch sc1).2, tok.name ≠ .EOF) := by
  unfold newlineBranch
  rw [scanWhitespace_eq]
  dsimp only
  have hwle : countWhile isWhitespace sc1.rest ≤ sc1.str.length - sc1.pos := by
    have h2 := countWhile_le isWhitespace sc1.rest
    rw [rest_length] at h2
    exact h2
  split
  case _ hroom =>
    -- reached end of input while scanning the leading whitespace
    split
    case _ hwsne =>
      have hw1 : 1 ≤ countWhile isWhitespace sc1.rest := by
        have hne : sc1.rest.takeWhile isWhitespace ≠ [] := hwsne
        rw [countWhile]
        cases hq : sc1.rest.takeWhile isWhitespace with
        | nil => exact absurd hq hne
        | cons a as => simp
      refine enqueue_step ?_ ?_ ?_ ?_ ?_ ?_ ?_ .whitespace (by simp) _ _ <;>
        dsimp only <;>
          first
          | rfl
          | exact herr
          | (simp only [hla, List.length_nil]; omega)
          | (rw [hla]; simp)
          | omega
    case _ hwsne =>
      exfalso
      have hws0 : sc1.rest.takeWhile isWhitespace = [] := by
        by_contra hne
        exact hwsne hne
      have hw0 : countWhile isWhitespace sc1.rest = 0 := by
        rw [countWhile, hws0]
        rfl
      omega
  case _ hroom =>
    split
    case _ hdig =>
      -- a digit after the held whitespace
      rw [scanDigits_eq]
      dsimp only
      simp only [rest_set_pos]
      have hd1 : 1 ≤ countWhile Char.isDigit
          (sc1.str.drop (sc1.pos + countWhile isWhitespace sc1.rest)) := by
        cases hgc : sc1.str[sc1.pos + countWhile isWhitespace sc1.rest]? with
        | none =>
          rw [hgc] at hdig
          simp at hdig
        | some c =>
          rw [hgc] at hdig
          simp only [Option.map_some', Option.getD_some] at hdig
          have hlt2 : sc1.pos + countWhile isWhitespace sc1.rest < sc1.str.length := by
            by_contra hge
            rw [List.getElem?_eq_none_iff.mpr (by omega)] at hgc
            cases hgc
          have hdrop : sc1.str.drop (sc1.pos + countWhile isWhitespace sc1.rest) =
              c :: sc1.str.drop (sc1.pos + countWhile isWhitespace sc1.rest + 1) := by
            rw [List.drop_eq_getElem_cons hlt2]
            congr 1
            have h2 := List.getElem?_eq_getElem hlt2
            rw [hgc] at h2
            exact (Option.some.injEq _ _ ▸ h2).symm
          rw [hdrop]
          exact countWhile_pos _ hdig
      have hdle : countWhile Char.isDigit
          (sc1.str.drop (sc1.pos + countWhile isWhitespace sc1.rest)) ≤
          sc1.str.length - (sc1.pos + countWhile isWhitespace sc1.rest) := by
        have h2 := countWhile_le Char.isDigit
          (sc1.str.drop (sc1.pos + countWhile isWhitespace sc1.rest))
        rw [List.length_drop] at h2
        exact h2
      split
      case _ hdot =>
        -- an ordered list marker
        have hsp : sc1.pos + countWhile isWhitespace sc1.rest +
            countWhile Char.isDigit
              (sc1.str.drop (sc1.pos + countWhile isWhitespace sc1.rest)) +
            1 < sc1.str.length := by
          have h2 := hdot.2
          by_contra hge
          rw [List.getElem?_eq_none_iff.mpr (by omega)] at h2
          cases h2
        refine enqueue_step ?_ ?_ ?_ ?_ ?_ ?_ ?_ .ol (by simp) _ _ <;>
          dsimp only <;>
            first
            | rfl
            | exact herr
            | (simp only [hla, List.length_nil]; omega)
            | (rw [hla]; simp)
            | omega
      case _ hdot =>
        -- digits not followed by dot-space: whitespace token (if held), then text
        split
        case _ hwsne =>
          have hw1 : 1 ≤ countWhile isWhitespace sc1.rest := by
            have hne : sc1.rest.takeWhile isWhitespace ≠ [] := hwsne
            rw [countWhile]
            cases hq : sc1.rest.takeWhile isWhitespace with
            | nil => exact absurd hq hne
            | cons a as => simp
          obtain ⟨q1, q2, q3, q4, q5, q6, tok1, hts1, hname1, hcont1⟩ :=
            enqueue_spec { sc1 with pos := (sc1.pos + countWhile isWhitespace sc1.rest +
                countWhile Char.isDigit
                  (sc1.str.drop (sc1.pos + countWhile isWhitespace sc1.rest))) }
              .whitespace (sc1.rest.takeWhile isWhitespace) (getLocation sc1)
          rcases hq1 : enqueue { sc1 with pos := (sc1.pos + countWhile isWhitespace sc1.rest +
                countWhile Char.isDigit
                  (sc1.str.drop (sc1.pos + countWhile isWhitespace sc1.rest))) }
              .whitespace (sc1.rest.takeWhile isWhitespace) (getLocation sc1) with ⟨sc4, e1⟩
          rw [hq1] at q1 q2 q3 q4 q5 q6 hts1
          dsimp only at q1 q2 q3 q4 q5 q6 hts1
          rcases hcs : scanChars sc4 with ⟨out, sc5⟩
          have hspec := scanCharsAux_spec (sc4.str.length - sc4.pos + 1) sc4
          rw [show scanCharsAux (sc4.str.length - sc4.pos + 1) sc4 = (out, sc5) from hcs] at hspec
          dsimp only at hspec
          obtain ⟨r1, r2, r3, r4, r5, r6, r7, δ, rδ, rδ1, rδn, rδlen⟩ := hspec
          rw [q6] at rδ
          simp only [List.nil_append] at rδ
          obtain ⟨p1, p2, p3, p4, p5, p6, tok2, hts2, hname2, hcont2⟩ :=
            enqueue_spec sc5 .text
              ((sc1.str.drop (sc1.pos + countWhile isWhitespace sc1.rest)).takeWhile Char.isDigit
                ++ out) (getLocation sc1)
          have hr7 : sc5.pos ≤ sc1.str.length := by
            rw [q1, q2] at r7
            omega
          have hr6 : sc4.pos ≤ sc5.pos := r6
          rw [q2] at hr6
          dsimp only
          refine ⟨by rw [p1, r1, q1], p6, by rw [p5, r5, q5, herr],
            by rw [p4, r4, q4], by rw [p2]; omega, by rw [p2]; omega,
            by simp [hts1], ?_, ?_⟩
          · rw [hts1, hts2, rδ, hla, p2]
            simp only [List.length_append, List.length_cons, List.length_nil]
            omega
          · intro t ht
            simp only [List.mem_append] at ht
            rcases ht with ht | ht
            · rw [hts1, hla] at ht
              simp at ht
              subst ht
              simp [hname1]
            · rw [hts2, rδ] at ht
              rcases List.mem_cons.mp ht with rfl | hmem
              · simp [hname2]
              · rcases rδn t hmem with h | h | h <;> simp [h]
        case _ hwsne =>
          rcases hcs : scanChars { sc1 with
              pos := (sc1.pos + countWhile isWhitespace sc1.rest +
                countWhile Char.isDigit
                  (sc1.str.drop (sc1.pos + countWhile isWhitespace sc1.rest))) }
            with ⟨out, sc5⟩
          have hspec := scanCharsAux_spec
            (({ sc1 with pos := (sc1.pos + countWhile isWhitespace sc1.rest +
                countWhile Char.isDigit
                  (sc1.str.drop (sc1.pos + countWhile isWhitespace sc1.rest))) } : Scan).str.length -
              ({ sc1 with pos := (sc1.pos + countWhile isWhitespace sc1.rest +
                countWhile Char.isDigit
                  (sc1.str.drop (sc1.pos + countWhile isWhitespace sc1.rest))) } : Scan).pos + 1)
            { sc1 with pos := (sc1.pos + countWhile isWhitespace sc1.rest +
              countWhile Char.isDigit
                (sc1.str.drop (sc1.pos + countWhile isWhitespace sc1.rest))) }
          have hcs2 : scanCharsAux
              (({ sc1 with pos := (sc1.pos + countWhile isWhitespace sc1.rest +
                  countWhile Char.isDigit
                    (sc1.str.drop (sc1.pos + countWhile isWhitespace sc1.rest))) } : Scan).str.length -
                ({ sc1 with pos := (sc1.pos + countWhile isWhitespace sc1.rest +
                  countWhile Char.isDigit
                    (sc1.str.drop (sc1.pos + countWhile isWhitespace sc1.rest))) } : Scan).pos + 1)
              { sc1 with pos := (sc1.pos + countWhile isWhitespace sc1.rest +
                countWhile Char.isDigit
                  (sc1.str.drop (sc1.pos + countWhile isWhitespace sc1.rest))) } = (out, sc5) := hcs
          rw [hcs2] at hspec
          dsimp only at hspec
          obtain ⟨r1, r2, r3, r4, r5, r6, r7, δ, rδ, rδ1, rδn, rδlen⟩ := hspec
          rw [hla] at rδ
          simp only [List.nil_append] at rδ
          obtain ⟨p1, p2, p3, p4, p5, p6, tok2, hts2, hname2, hcont2⟩ :=
            enqueue_spec sc5 .text
              ((sc1.str.drop (sc1.pos + countWhile isWhitespace sc1.rest)).takeWhile Char.isDigit
                ++ out) (getLocation sc1)
          dsimp only
          refine ⟨by rw [p1, r1], p6, by rw [p5, r5, herr], by rw [p4, r4],
            by rw [p2]; omega, by rw [p2]; omega, by simp [hts2], ?_, ?_⟩
          · rw [hts2, rδ, p2]
            simp only [List.nil_append, List.length_cons]
            omega
          · intro t ht
            simp only [List.nil_append] at ht
            rw [hts2, rδ] at ht
            rcases List.mem_cons.mp ht with rfl | hmem
            · simp [hname2]
            · rcases rδn t hmem with h | h | h <;> simp [h]
    case _ hdig =>
      split
      case _ hstar =>
        -- an unordered list marker
        have hsp : sc1.pos + countWhile isWhitespace sc1.rest + 1 < sc1.str.length := by
          have h2 := hstar.2
          by_contra hge
          rw [List.getElem?_eq_none_iff.mpr (by omega)] at h2
          cases h2
        refine enqueue_step ?_ ?_ ?_ ?_ ?_ ?_ ?_ .ul (by simp) _ _ <;>
          dsimp only <;>
            first
            | rfl
            | exact herr
            | (simp only [hla, List.length_nil]; omega)
            | (rw [hla]; simp)
            | omega
      case _ hstar =>
        split
        case _ hltch =>
          -- a '<' after the held whitespace
          rcases htt : tryScanTag { sc1 with pos := sc1.pos + countWhile isWhitespace sc1.rest }
            with ⟨m?, sc3⟩
          cases m? with
          | some m =>
            obtain ⟨hsc3, hmt, hm0, hmle, hmtake⟩ := tryScanTag_eq_some htt
            dsimp only at hsc3 hmle
            dsimp only
            split
            case _ hop =>
              -- opaque capture including the held whitespace
              rcases hse : scanToEndTag m.tagName sc3 with ⟨more, sc4⟩
              have hs := scanToEndTag_spec m.tagName sc3
              rw [hse] at hs
              dsimp only at hs
              obtain ⟨s1, s2, s3, s4, s5, s6, s7, s8, s9⟩ := hs
              subst hsc3
              dsimp only at s1 s2 s3 s4 s5 s6 s7 s8 s9
              refine enqueue_step s1 (by rw [s7, herr]) s5 (by omega) ?_ ?_ ?_
                .oTag (by simp) _ _
              · exact s9 (by omega)
              · rw [s6, hla]
                simp only [List.length_nil]
                omega
              · rw [s6, hla]
                simp
            case _ hop =>
              -- whitespace token (if held), then the tag token
              subst hsc3
              split
              case _ hwsne =>
                have hw1 : 1 ≤ countWhile isWhitespace sc1.rest := by
                  have hne : sc1.rest.takeWhile isWhitespace ≠ [] := hwsne
                  rw [countWhile]
                  cases hq : sc1.rest.takeWhile isWhitespace with
                  | nil => exact absurd hq hne
                  | cons a as => simp
                obtain ⟨q1, q2, q3, q4, q5, q6, tok1, hts1, hname1, hcont1⟩ :=
                  enqueue_spec { sc1 with
                      pos := sc1.pos + countWhile isWhitespace sc1.rest + m.full.length }
                    .whitespace (sc1.rest.takeWhile isWhitespace) (getLocation sc1)
                rcases hq1 : enqueue { sc1 with
                      pos := sc1.pos + countWhile isWhitespace sc1.rest + m.full.length }
                    .whitespace (sc1.rest.takeWhile isWhitespace) (getLocation sc1)
                  with ⟨sc4, e1⟩
                rw [hq1] at q1 q2 q3 q4 q5 q6 hts1
                dsimp only at q1 q2 q3 q4 q5 q6 hts1
                obtain ⟨p1, p2, p3, p4, p5, p6, tok2, hts2, hname2, hcont2⟩ :=
                  enqueue_spec sc4 .tag m.full (getLocation sc1)
                dsimp only
                refine ⟨by rw [p1, q1], p6, by rw [p5, q5, herr], by rw [p4, q4],
                  by rw [p2, q2]; omega, by rw [p2, q2]; omega, by simp [hts1], ?_, ?_⟩
                · rw [hts1, hts2, q6, hla, p2, q2]
                  simp only [List.length_append, List.length_cons, List.length_nil]
                  omega
                · intro t ht
                  simp only [List.mem_append] at ht
                  rcases ht with ht | ht
                  · rw [hts1, hla] at ht
                    simp at ht
                    subst ht
                    simp [hname1]
                  · rw [hts2, q6] at ht
                    simp at ht
                    subst ht
                    simp [hname2]
              case _ hwsne =>
                obtain ⟨p1, p2, p3, p4, p5, p6, tok2, hts2, hname2, hcont2⟩ :=
                  enqueue_spec { sc1 with
                      pos := sc1.pos + countWhile isWhitespace sc1.rest + m.full.length }
                    .tag m.full (getLocation sc1)
                dsimp only
                refine ⟨by rw [p1], p6, by rw [p5, herr], by rw [p4],
                  by rw [p2]; dsimp only; omega, by rw [p2]; dsimp only; omega,
                  by simp [hts2], ?_, ?_⟩
                · rw [hts2, p2]
                  dsimp only
                  rw [hla]
                  simp only [List.nil_append, List.length_cons, List.length_nil]
                  omega
                · intro t ht
                  rw [hts2] at ht
                  dsimp only at ht
                  rw [hla] at ht
                  simp at ht
                  subst ht
                  simp [hname2]
          | none =>
            have hsc3 : sc3 = _ := tryScanTag_eq_none htt
            subst hsc3
            dsimp only
            rcases htc : tryScanComment { sc1 with
                pos := sc1.pos + countWhile isWhitespace sc1.rest } with ⟨c?, sc4⟩
            cases c? with
            | some cmt =>
              obtain ⟨n, hsc4, hmc, h7, hnle, hcmt⟩ := tryScanComment_eq_some htc
              dsimp only at hsc4 hnle
              subst hsc4
              dsimp only
              refine enqueue_step ?_ ?_ ?_ ?_ ?_ ?_ ?_ .comment (by simp) _ _ <;>
                dsimp only <;>
                  first
                  | rfl
                  | exact herr
                  | (simp only [hla, List.length_nil]; omega)
                  | (rw [hla]; simp)
                  | omega
            | none =>
              have hsc4 : sc4 = _ := tryScanComment_eq_none htc
              subst hsc4
              dsimp only
              have hg := genericDispatch_spec { sc1 with
                  pos := sc1.pos + countWhile isWhitespace sc1.rest }
                hla herr (by dsimp only; omega)
              dsimp only at hg
              obtain ⟨g1, g2, g3, g4, g5, g6, g7, g8, g9⟩ := hg
              exact ⟨g1, g2, g3, g4, by omega, g6, g7, by omega, g9⟩
        case _ hltch =>
          split
          case _ hwsne =>
            have hw1 : 1 ≤ countWhile isWhitespace sc1.rest := by
              have hne : sc1.rest.takeWhile isWhitespace ≠ [] := hwsne
              rw [countWhile]
              cases hq : sc1.rest.takeWhile isWhitespace with
              | nil => exact absurd hq hne
              | cons a as => simp
            refine enqueue_step ?_ ?_ ?_ ?_ ?_ ?_ ?_ .whitespace (by simp) _ _ <;>
              dsimp only <;>
                first
                | rfl
                | exact herr
                | (simp only [hla, List.length_nil]; omega)
                | (rw [hla]; simp)
                | omega
          case _ hwsne =>
            have hw0 : countWhile isWhitespace sc1.rest = 0 := by
              have hws0 : sc1.rest.takeWhile isWhitespace = [] := by
                by_contra hne
                exact hwsne hne
              rw [countWhile, hws0]
              rfl
            have hg := genericDispatch_spec { sc1 with
                pos := sc1.pos + countWhile isWhitespace sc1.rest }
              hla herr (by dsimp only; omega)
            dsimp only at hg
            obtain ⟨g1, g2, g3, g4, g5, g6, g7, g8, g9⟩ := hg
            exact ⟨g1, g2, g3, g4, by omega, g6, g7, by omega, g9⟩

/-- The single-step contract of `matchToken` on well-formed states: fields
are preserved or re-established, the position never moves backwards or past
the end, and the emitted tokens are as the EOF/non-EOF split requires: at
the end exactly one EOF token without moving, otherwise at least one
non-EOF token and at most one token per consumed character. -/
theorem matchToken_step (sc : Scan) (hwf : ScanWf sc) :
    (matchToken sc).1.str = sc.str ∧
    (matchToken sc).1.lookahead = [] ∧
    (matchToken sc).1.err = false ∧
    sc.pos ≤ (matchToken sc).1.pos ∧
    (matchToken sc).1.pos ≤ sc.str.length ∧
    (if sc.pos = sc.str.length then
      (matchToken sc).1.eofF = true ∧ (matchToken sc).1.pos = sc.pos ∧
      ∃ tok, (matchToken sc).2 = [tok] ∧ tok.name = .EOF
     else
      (matchToken sc).1.eofF = false ∧ sc.pos < (matchToken sc).1.pos ∧
      (matchToken sc).2 ≠ [] ∧ (∀ tok ∈ (matchToken sc).2, tok.name ≠ .EOF) ∧
      (matchToken sc).2.length ≤ (matchToken sc).1.pos - sc.pos) := by
  obtain ⟨hple, hla, herr, heof⟩ := hwf
  unfold matchToken
  split
  case _ hend =>
    obtain ⟨q1, q2, q3, q4, q5, q6, tok, hts, hname, hcont⟩ :=
      enqueue_spec { sc with eofF := true } .EOF [] (getLocation { sc with eofF := true })
    exact ⟨q1, q6, by rw [q5, herr], by rw [q2], by rw [q2]; dsimp only; omega,
      by rw [q4], by rw [q2], tok, by rw [hts, hla], hname⟩
  case _ hend =>
    have hpos : sc.pos < sc.str.length := by omega
    have heoff : sc.eofF = false := by
      cases he : sc.eofF
      · rfl
      · exact absurd (heof he) hend
    split
    case _ hnl =>
      have hg := newlineBranch_spec { sc with nl := false } hla herr hpos
      dsimp only at hg
      obtain ⟨g1, g2, g3, g4, g5, g6, g7, g8, g9⟩ := hg
      exact ⟨g1, g2, g3, by omega, g6, by rw [g4]; exact heoff, g5, g7, g9, g8⟩
    case _ hnl =>
      have hg := genericDispatch_spec sc hla herr hpos
      obtain ⟨g1, g2, g3, g4, g5, g6, g7, g8, g9⟩ := hg
      exact ⟨g1, g2, g3, by omega, g6, by rw [g4]; exact heoff, g5, g7, g9, g8⟩


/-! ## The token stream seen through the queue -/

/-- `matchToken` preserves scanner well-formedness. -/
theorem matchToken_wf (sc : Scan) (hwf : ScanWf sc) : ScanWf (matchToken sc).1 := by
  have h := matchToken_step sc hwf
  obtain ⟨h1, h2, h3, h4, h5, h6⟩ := h
  by_cases hend : sc.pos = sc.str.length
  · rw [if_pos hend] at h6
    obtain ⟨e1, e2, e3⟩ := h6
    exact ⟨by rw [h1]; exact h5, h2, h3, fun _ => by rw [h1]; omega⟩
  · rw [if_neg hend] at h6
    obtain ⟨e1, e2, e3⟩ := h6
    exact ⟨by rw [h1]; exact h5, h2, h3, fun hh => by rw [e1] at hh; cases hh⟩

theorem futureAux_eofF (fuel : Nat) (sc : Scan) (h : sc.eofF = true) :
    futureAux fuel sc = [] := by
  cases fuel with
  | zero => rfl
  | succ fuel => rw [futureAux, if_pos h]

theorem futureAux_succ (fuel : Nat) (sc : Scan) (he : sc.eofF = false) :
    futureAux (fuel + 1) sc = (matchToken sc).2 ++ futureAux fuel (matchToken sc).1 := by
  rw [futureAux, if_neg (by simp [he])]

theorem futureAux_end (sc : Scan) (fuel : Nat) (hwf : ScanWf sc)
    (hend : sc.pos = sc.str.length) (hfuel : 1 ≤ fuel) :
    futureAux fuel sc = future sc := by
  have hz : sc.str.length - sc.pos = 0 := by omega
  unfold future
  rw [hz]
  cases he : sc.eofF with
  | true =>
    rw [futureAux_eofF fuel sc he, futureAux_eofF (0 + 1) sc he]
  | false =>
    obtain ⟨f, rfl⟩ : ∃ f, fuel = f + 1 := ⟨fuel - 1, by omega⟩
    have hstep := matchToken_step sc hwf
    obtain ⟨h1, h2, h3, h4, h5, h6⟩ := hstep
    rw [if_pos hend] at h6
    obtain ⟨e1, e2, e3⟩ := h6
    rw [futureAux_succ f sc he, futureAux_succ 0 sc he,
      futureAux_eofF f (matchToken sc).1 e1, futureAux_eofF 0 (matchToken sc).1 e1]

theorem futureAux_sat : ∀ (n : Nat) (sc : Scan) (fuel : Nat), ScanWf sc →
    sc.str.length - sc.pos ≤ n → sc.str.length - sc.pos + 1 ≤ fuel →
    futureAux fuel sc = future sc := by
  intro n
  induction n with
  | zero =>
    intro sc fuel hwf hn hfuel
    exact futureAux_end sc fuel hwf (by have := hwf.1; omega) (by omega)
  | succ n ih =>
    intro sc fuel hwf hn hfuel
    by_cases hend : sc.pos = sc.str.length
    · exact futureAux_end sc fuel hwf hend (by omega)
    · have hple := hwf.1
      cases he : sc.eofF with
      | true =>
        rw [futureAux_eofF fuel sc he,
          show future sc = [] from futureAux_eofF _ sc he]
      | false =>
        obtain ⟨f, rfl⟩ : ∃ f, fuel = f + 1 := ⟨fuel - 1, by omega⟩
        have hstep := matchToken_step sc hwf
        obtain ⟨h1, h2, h3, h4, h5, h6⟩ := hstep
        rw [if_neg hend] at h6
        obtain ⟨e1, e2, e3, e4, e5⟩ := h6
        have hwf' := matchToken_wf sc hwf
        have hr1 : (matchToken sc).1.str.length - (matchToken sc).1.pos ≤ n := by
          rw [h1]; omega
        calc futureAux (f + 1) sc
            = (matchToken sc).2 ++ futureAux f (matchToken sc).1 :=
              futureAux_succ f sc he
          _ = (matchToken sc).2 ++ future (matchToken sc).1 := by
              rw [ih (matchToken sc).1 f hwf' hr1 (by rw [h1]; omega)]
          _ = (matchToken sc).2 ++
              futureAux (sc.str.length - sc.pos) (matchToken sc).1 := by
              rw [ih (matchToken sc).1 (sc.str.length - sc.pos) hwf' hr1
                (by rw [h1]; omega)]
          _ = futureAux (sc.str.length - sc.pos + 1) sc :=
              (futureAux_succ (sc.str.length - sc.pos) sc he).symm
          _ = future sc := rfl

/-- One productive step of the stream. -/
theorem future_unfold (sc : Scan) (hwf : ScanWf sc) (he : sc.eofF = false) :
    future sc = (matchToken sc).2 ++ future (matchToken sc).1 := by
  have hfu : future sc =
      (matchToken sc).2 ++ futureAux (sc.str.length - sc.pos) (matchToken sc).1 :=
    futureAux_succ (sc.str.length - sc.pos) sc he
  by_cases hend : sc.pos = sc.str.length
  · have hstep := matchToken_step sc hwf
    obtain ⟨h1, h2, h3, h4, h5, h6⟩ := hstep
    rw [if_pos hend] at h6
    obtain ⟨e1, e2, e3⟩ := h6
    rw [hfu, futureAux_eofF _ _ e1,
      show future (matchToken sc).1 = [] from futureAux_eofF _ _ e1]
  · have hple := hwf.1
    have hstep := matchToken_step sc hwf
    obtain ⟨h1, h2, h3, h4, h5, h6⟩ := hstep
    rw [if_neg hend] at h6
    obtain ⟨e1, e2, e3, e4, e5⟩ := h6
    have hwf' := matchToken_wf sc hwf
    rw [hfu, futureAux_sat (sc.str.length - sc.pos) (matchToken sc).1
      (sc.str.length - sc.pos) hwf' (by rw [h1]; omega) (by rw [h1]; omega)]

/-- Shape of the stream from a live state: some non-EOF tokens, then a
single EOF token, at most one non-EOF token per remaining character. -/
theorem future_shape : ∀ (n : Nat) (sc : Scan), ScanWf sc → sc.eofF = false →
    sc.str.length - sc.pos ≤ n →
    ∃ pre e, future sc = pre ++ [e] ∧ (∀ tok ∈ pre, tok.name ≠ .EOF) ∧
      e.name = .EOF ∧ pre.length ≤ sc.str.length - sc.pos := by
  intro n
  induction n with
  | zero =>
    intro sc hwf he hn
    have hend : sc.pos = sc.str.length := by have := hwf.1; omega
    have hstep := matchToken_step sc hwf
    obtain ⟨h1, h2, h3, h4, h5, h6⟩ := hstep
    rw [if_pos hend] at h6
    obtain ⟨e1, e2, tok, e3, e4⟩ := h6
    refine ⟨[], tok, ?_, by simp, e4, by simp⟩
    rw [future_unfold sc hwf he, e3,
      show future (matchToken sc).1 = [] from futureAux_eofF _ _ e1]
    simp
  | succ n ih =>
    intro sc hwf he hn
    by_cases hend : sc.pos = sc.str.length
    · have hstep := matchToken_step sc hwf
      obtain ⟨h1, h2, h3, h4, h5, h6⟩ := hstep
      rw [if_pos hend] at h6
      obtain ⟨e1, e2, tok, e3, e4⟩ := h6
      refine ⟨[], tok, ?_, by simp, e4, by simp⟩
      rw [future_unfold sc hwf he, e3,
        show future (matchToken sc).1 = [] from futureAux_eofF _ _ e1]
      simp
    · have hple := hwf.1
      have hstep := matchToken_step sc hwf
      obtain ⟨h1, h2, h3, h4, h5, h6⟩ := hstep
      rw [if_neg hend] at h6
      obtain ⟨e1, e2, e3, e4, e5⟩ := h6
      have hwf' := matchToken_wf sc hwf
      obtain ⟨pre, e, q1, q2, q3, q4⟩ := ih (matchToken sc).1 hwf' e1 (by rw [h1]; omega)
      refine ⟨(matchToken sc).2 ++ pre, e, ?_, ?_, q3, ?_⟩
      · rw [future_unfold sc hwf he, q1, List.append_assoc]
      · intro tok htok
        rcases List.mem_append.mp htok with hmem | hmem
        · exact e4 tok hmem
        · exact q2 tok hmem
      · rw [List.length_append]
        rw [h1] at q4
        omega


theorem headD_append {α : Type} (l m : List α) (d : α) (h : l ≠ []) :
    (l ++ m).headD d = l.headD d := by
  cases l with
  | nil => exact absurd rfl h
  | cons a as => rfl

theorem tail_append_of_ne {α : Type} (l m : List α) (h : l ≠ []) :
    (l ++ m).tail = l.tail ++ m := by
  cases l with
  | nil => exact absurd rfl h
  | cons a as => rfl

/-- Under the invariant the observable stream is a run of non-EOF tokens
closed by one EOF token. -/
theorem strm_shape (t : Tokenizer) (hwf : TWf t) :
    ∃ pre e, strm t = pre ++ [e] ∧ (∀ tok ∈ pre, tok.name ≠ .EOF) ∧
      e.name = .EOF := by
  obtain ⟨hsc, hq1, hq2⟩ := hwf
  cases he : t.scan.eofF with
  | true =>
    obtain ⟨pre, e, q1, q2, q3⟩ := hq2 he
    refine ⟨pre, e, ?_, q2, q3⟩
    rw [strm, show future t.scan = [] from futureAux_eofF _ _ he, q1]
    simp
  | false =>
    obtain ⟨pre, e, q1, q2, q3, q4⟩ :=
      future_shape (t.scan.str.length - t.scan.pos) t.scan hsc he (by omega)
    refine ⟨t.queue ++ pre, e, ?_, ?_, q3⟩
    · rw [strm, q1, List.append_assoc]
    · intro tok htok
      rcases List.mem_append.mp htok with hm | hm
      · exact hq1 he tok hm
      · exact q2 tok hm

theorem strm_ne (t : Tokenizer) (hwf : TWf t) : strm t ≠ [] := by
  obtain ⟨pre, e, q1, _, _⟩ := strm_shape t hwf
  rw [q1]
  simp

theorem matchTokenT_eq (t : Tokenizer) :
    matchTokenT t = ⟨(matchToken t.scan).1, t.queue ++ (matchToken t.scan).2⟩ := by
  unfold matchTokenT
  rcases matchToken t.scan with ⟨sc, ts⟩
  rfl

/-- One `matchToken` call made by the `peek` loop: the stream is unchanged,
the invariant is preserved, and the queue grows by at least one token. -/
theorem matchTokenT_spec (t : Tokenizer) (hwf : TWf t)
    (he : t.scan.eofF = false) :
    strm (matchTokenT t) = strm t ∧ TWf (matchTokenT t) ∧
    (matchTokenT t).scan.str = t.scan.str ∧
    t.queue.length + 1 ≤ (matchTokenT t).queue.length := by
  obtain ⟨hsc, hq1, hq2⟩ := hwf
  have hstep := matchToken_step t.scan hsc
  obtain ⟨h1, h2, h3, h4, h5, h6⟩ := hstep
  have hwf' := matchToken_wf t.scan hsc
  rw [matchTokenT_eq]
  refine ⟨?_, ⟨hwf', ?_, ?_⟩, h1, ?_⟩
  · show (t.queue ++ (matchToken t.scan).2) ++ future (matchToken t.scan).1 =
      t.queue ++ future t.scan
    rw [future_unfold t.scan hsc he, List.append_assoc]
  · intro he' tok htok
    dsimp only at he' htok
    rcases List.mem_append.mp htok with hm | hm
    · exact hq1 he tok hm
    · by_cases hend : t.scan.pos = t.scan.str.length
      · rw [if_pos hend] at h6
        rw [h6.1] at he'
        cases he'
      · rw [if_neg hend] at h6
        exact h6.2.2.2.1 tok hm
  · intro he'
    dsimp only at he' ⊢
    by_cases hend : t.scan.pos = t.scan.str.length
    · rw [if_pos hend] at h6
      obtain ⟨e1, e2, tok, e3, e4⟩ := h6
      exact ⟨t.queue, tok, by rw [e3], hq1 he, e4⟩
    · rw [if_neg hend] at h6
      rw [h6.1] at he'
      cases he'
  · dsimp only
    rw [List.length_append]
    by_cases hend : t.scan.pos = t.scan.str.length
    · rw [if_pos hend] at h6
      obtain ⟨e1, e2, tok, e3, e4⟩ := h6
      rw [e3]
      simp
    · rw [if_neg hend] at h6
      have : (matchToken t.scan).2 ≠ [] := h6.2.2.1
      cases hts : (matchToken t.scan).2 with
      | nil => exact absurd hts this
      | cons a as => simp

/-- The `peek` loop preserves the stream and the invariant and never
shrinks the queue. -/
theorem fill_spec : ∀ (fuel dist : Nat) (t : Tokenizer), TWf t →
    strm (fill fuel dist t) = strm t ∧ TWf (fill fuel dist t) ∧
    (fill fuel dist t).scan.str = t.scan.str ∧
    t.queue.length ≤ (fill fuel dist t).queue.length := by
  intro fuel
  induction fuel with
  | zero =>
    intro dist t hwf
    exact ⟨rfl, hwf, rfl, Nat.le_refl _⟩
  | succ fuel ih =>
    intro dist t hwf
    rw [fill]
    split
    case _ hc =>
      obtain ⟨m1, m2, m3, m4⟩ := matchTokenT_spec t hwf hc.1
      obtain ⟨f1, f2, f3, f4⟩ := ih dist (matchTokenT t) m2
      exact ⟨by rw [f1, m1], f2, by rw [f3, m3], by omega⟩
    case _ hc =>
      exact ⟨rfl, hwf, rfl, Nat.le_refl _⟩

/-- With enough fuel the `peek` loop stops only because the queue is full
enough or the input is exhausted. -/
theorem fill_post : ∀ (fuel dist : Nat) (t : Tokenizer), TWf t →
    dist ≤ t.queue.length + fuel →
    dist ≤ (fill fuel dist t).queue.length ∨
      (fill fuel dist t).scan.eofF = true := by
  intro fuel
  induction fuel with
  | zero =>
    intro dist t hwf hfuel
    left
    simpa using hfuel
  | succ fuel ih =>
    intro dist t hwf hfuel
    rw [fill]
    split
    case _ hc =>
      obtain ⟨m1, m2, m3, m4⟩ := matchTokenT_spec t hwf hc.1
      exact ih dist (matchTokenT t) m2 (by omega)
    case _ hc =>
      rcases Decidable.not_and_iff_or_not.mp hc with hc | hc
      · right
        cases hget : t.scan.eofF with
        | true => rfl
        | false => exact absurd hget hc
      · left
        omega

theorem peek_snd (t : Tokenizer) (dist : Nat) :
    (peek t dist).2 = fill (t.scan.str.length + dist + 2) dist t := by
  unfold peek
  dsimp only
  split <;> rfl

/-- `peek` never changes the observable stream. -/
theorem peek_strm (t : Tokenizer) (dist : Nat) (hwf : TWf t) :
    strm (peek t dist).2 = strm t ∧ TWf (peek t dist).2 ∧
    (peek t dist).2.scan.str = t.scan.str := by
  obtain ⟨f1, f2, f3, f4⟩ := fill_spec (t.scan.str.length + dist + 2) dist t hwf
  rw [peek_snd]
  exact ⟨f1, f2, f3⟩

/-- The value returned by `peek t 1` is the head of the stream, and the
filled queue is non-empty with that head in front. -/
theorem peek1_spec (t : Tokenizer) (hwf : TWf t) :
    (peek t 1).2.queue ≠ [] ∧
    (peek t 1).1 = (strm t).headD defaultToken := by
  obtain ⟨f1, f2, f3, f4⟩ := fill_spec (t.scan.str.length + 1 + 2) 1 t hwf
  have hpost := fill_post (t.scan.str.length + 1 + 2) 1 t hwf (by omega)
  have hqne : (fill (t.scan.str.length + 1 + 2) 1 t).queue ≠ [] := by
    rcases hpost with hp | hp
    · intro hnil
      rw [hnil] at hp
      simp at hp
    · obtain ⟨pre, e, q1, _, _⟩ := f2.2.2 hp
      rw [q1]
      simp
  constructor
  · rw [peek_snd]
    exact hqne
  · have hval : (peek t 1).1 =
        (fill (t.scan.str.length + 1 + 2) 1 t).queue.getD 0 defaultToken := by
      unfold peek
      dsimp only
      split
      case _ hlt =>
        have : (fill (t.scan.str.length + 1 + 2) 1 t).queue.length = 0 := by omega
        rw [List.length_eq_zero] at this
        exact absurd this hqne
      case _ hlt =>
        rfl
    rw [hval, ← f1, strm]
    cases hq : (fill (t.scan.str.length + 1 + 2) 1 t).queue with
    | nil => exact absurd hq hqne
    | cons a as => rfl

theorem next_fst (t : Tokenizer) : (next t).1 = (peek t 1).1 := by
  unfold next
  rcases peek t 1 with ⟨tok, t2⟩
  dsimp only
  split <;> rfl

/-- `next` returns the head of the stream; it drops it from the stream
unless it is the EOF token, and preserves the invariant. -/
theorem next_spec (t : Tokenizer) (hwf : TWf t) :
    (next t).1 = (strm t).headD defaultToken ∧
    TWf (next t).2 ∧
    (next t).2.scan.str = t.scan.str ∧
    strm (next t).2 = (if ((strm t).headD defaultToken).name = .EOF then
      strm t else (strm t).tail) := by
  obtain ⟨hqne, hval⟩ := peek1_spec t hwf
  obtain ⟨p1, p2, p3⟩ := peek_strm t 1 hwf
  have hfst := next_fst t
  rcases hp : peek t 1 with ⟨tok, t2⟩
  rw [hp] at hval p1 p2 p3 hqne
  dsimp only at hval p1 p2 p3 hqne
  have hnext : next t = if tok.name = .EOF then (tok, t2)
      else (tok, { t2 with queue := t2.queue.drop 1 }) := by
    unfold next
    rw [hp]
  by_cases heof : tok.name = .EOF
  · rw [hnext, if_pos heof]
    dsimp only
    rw [← hval]
    exact ⟨rfl, p2, p3, by rw [if_pos (hval ▸ heof), p1]⟩
  · rw [hnext, if_neg heof]
    dsimp only
    rw [← hval]
    have hstrm2 : strm { t2 with queue := t2.queue.drop 1 } = (strm t).tail := by
      rw [strm]
      dsimp only
      rw [← p1, strm, ← List.drop_one, ← List.drop_append_of_le_length (by
        cases hq2 : t2.queue with
        | nil => exact absurd hq2 hqne
        | cons a as => simp), List.drop_one]
    refine ⟨rfl, ?_, p3, by rw [if_neg (hval ▸ heof), hstrm2]⟩
    obtain ⟨w1, w2, w3⟩ := p2
    refine ⟨w1, ?_, ?_⟩
    · intro he tok2 htok2
      dsimp only at he htok2
      exact w2 he tok2 (List.mem_of_mem_drop htok2)
    · intro he
      dsimp only at he ⊢
      obtain ⟨pre, e, q1, q2, q3⟩ := w3 he
      cases hpre : pre with
      | nil =>
        exfalso
        rw [hpre] at q1
        apply heof
        rw [hval, ← p1, strm, q1]
        simp [q3]
      | cons a as =>
        refine ⟨as, e, ?_, ?_, q3⟩
        · rw [q1, hpre]
          simp
        · intro tok2 htok2
          exact q2 tok2 (by rw [hpre]; exact List.mem_cons_of_mem a htok2)

theorem getLast?_cons_ne {α : Type} (a : α) (l : List α) (h : l ≠ []) :
    (a :: l).getLast? = l.getLast? := by
  cases l with
  | nil => exact absurd rfl h
  | cons b bs => rw [List.getLast?_cons_cons]

theorem getD_last_append {α : Type} (pre : List α) (e d : α) :
    (pre ++ [e]).getD ((pre ++ [e]).length - 1) d = e := by
  induction pre with
  | nil => rfl
  | cons a as ih =>
    simp only [List.cons_append, List.length_cons, Nat.add_sub_cancel] at *
    rw [show (as ++ [e]).length = as.length + 1 from by simp, List.getD_cons_succ]
    rw [show (as ++ [e]).length = as.length + 1 from by simp] at ih
    simp only [Nat.add_sub_cancel] at ih
    exact ih

/-- A peek past the remaining tokens answers with the EOF token. -/
theorem peek_big (t : Tokenizer) (k : Nat) (hwf : TWf t)
    (hk : (strm t).length < k) : (peek t k).1.name = .EOF := by
  obtain ⟨f1, f2, f3, f4⟩ := fill_spec (t.scan.str.length + k + 2) k t hwf
  have hpost := fill_post (t.scan.str.length + k + 2) k t hwf (by omega)
  have hqle : (fill (t.scan.str.length + k + 2) k t).queue.length ≤
      (strm t).length := by
    rw [← f1, strm, List.length_append]
    omega
  have heof : (fill (t.scan.str.length + k + 2) k t).scan.eofF = true := by
    rcases hpost with hp | hp
    · omega
    · exact hp
  obtain ⟨pre, e, q1, q2, q3⟩ := f2.2.2 heof
  have hfut : future (fill (t.scan.str.length + k + 2) k t).scan = [] :=
    futureAux_eofF _ _ heof
  have hval : (peek t k).1 =
      (fill (t.scan.str.length + k + 2) k t).queue.getD
        ((fill (t.scan.str.length + k + 2) k t).queue.length - 1)
        defaultToken := by
    unfold peek
    dsimp only
    split
    case _ hlt => rfl
    case _ hlt => omega
  rw [hval, q1, getD_last_append, q3]

/-- `applyOps` emits the same tokens from any two states with the same
observable stream. -/
theorem applyOps_congr : ∀ (ops : List TOp) (t1 t2 : Tokenizer), TWf t1 →
    TWf t2 → strm t1 = strm t2 → (applyOps ops t1).1 = (applyOps ops t2).1 := by
  intro ops
  induction ops with
  | nil => intro t1 t2 _ _ _; rfl
  | cons op ops ih =>
    intro t1 t2 hw1 hw2 hs
    cases op with
    | peekOp k =>
      show (applyOps ops (peek t1 k).2).1 = (applyOps ops (peek t2 k).2).1
      obtain ⟨p1, p2, p3⟩ := peek_strm t1 k hw1
      obtain ⟨q1, q2, q3⟩ := peek_strm t2 k hw2
      exact ih (peek t1 k).2 (peek t2 k).2 p2 q2 (by rw [p1, q1, hs])
    | nextOp =>
      obtain ⟨n1, n2, n3, n4⟩ := next_spec t1 hw1
      obtain ⟨m1, m2, m3, m4⟩ := next_spec t2 hw2
      show ((next t1).1 :: (applyOps ops (next t1).2).1) =
        ((next t2).1 :: (applyOps ops (next t2).2).1)
      rw [n1, m1, hs]
      rw [ih (next t1).2 (next t2).2 n2 m2 (by rw [n4, m4, hs])]

/-- Dropping the peeks from an operation sequence leaves the emitted
tokens unchanged. -/
theorem applyOps_filter : ∀ (ops : List TOp) (t : Tokenizer), TWf t →
    (applyOps ops t).1 = (applyOps (ops.filter isNextOp) t).1 := by
  intro ops
  induction ops with
  | nil => intro t _; rfl
  | cons op ops ih =>
    intro t hwf
    cases op with
    | peekOp k =>
      rw [show List.filter isNextOp (TOp.peekOp k :: ops) =
        List.filter isNextOp ops from by simp [isNextOp]]
      obtain ⟨p1, p2, p3⟩ := peek_strm t k hwf
      show (applyOps ops (peek t k).2).1 = _
      rw [applyOps_congr ops (peek t k).2 t p2 hwf p1]
      exact ih t hwf
    | nextOp =>
      rw [show List.filter isNextOp (TOp.nextOp :: ops) =
        TOp.nextOp :: List.filter isNextOp ops from by simp [isNextOp]]
      obtain ⟨n1, n2, n3, n4⟩ := next_spec t hwf
      show ((next t).1 :: (applyOps ops (next t).2).1) =
        ((next t).1 :: (applyOps (ops.filter isNextOp) (next t).2).1)
      rw [ih (next t).2 n2]

/-- Operations preserve the invariant and never grow the stream. -/
theorem applyOps_inv : ∀ (ops : List TOp) (t : Tokenizer), TWf t →
    TWf (applyOps ops t).2 ∧
    (strm (applyOps ops t).2).length ≤ (strm t).length := by
  intro ops
  induction ops with
  | nil => intro t hwf; exact ⟨hwf, Nat.le_refl _⟩
  | cons op ops ih =>
    intro t hwf
    cases op with
    | peekOp k =>
      obtain ⟨p1, p2, p3⟩ := peek_strm t k hwf
      obtain ⟨i1, i2⟩ := ih (peek t k).2 p2
      exact ⟨i1, by rw [p1] at i2; exact i2⟩
    | nextOp =>
      obtain ⟨n1, n2, n3, n4⟩ := next_spec t hwf
      obtain ⟨i1, i2⟩ := ih (next t).2 n2
      refine ⟨i1, ?_⟩
      refine Nat.le_trans i2 ?_
      rw [n4]
      split
      · exact Nat.le_refl _
      · rw [List.length_tail]
        omega

/-- A fresh tokenizer satisfies the invariant. -/
theorem init_wf (str : List Char) : TWf (initTokenizer str) := by
  refine ⟨⟨Nat.zero_le _, rfl, rfl, fun h => nomatch h⟩, ?_, fun h => nomatch h⟩
  intro _ tok htok
  simp [initTokenizer] at htok

/-- A fresh tokenizer has at most one token per input character, plus the
EOF token. -/
theorem init_strm_len (str : List Char) :
    (strm (initTokenizer str)).length ≤ str.length + 1 := by
  obtain ⟨pre, e, q1, q2, q3, q4⟩ := future_shape str.length
    (initTokenizer str).scan (init_wf str).1 rfl (by simp [initTokenizer])
  have : strm (initTokenizer str) = pre ++ [e] := by
    rw [strm, q1]
    rfl
  rw [this, List.length_append]
  simp only [initTokenizer] at q4
  simp only [List.length_cons, List.length_nil]
  omega

theorem nextN_len : ∀ (n : Nat) (t : Tokenizer), (nextN n t).1.length = n := by
  intro n
  induction n with
  | zero => intro t; rfl
  | succ n ih =>
    intro t
    show ((next t).1 :: (nextN n (next t).2).1).length = n + 1
    rw [List.length_cons, ih]

theorem nextN_succ (n : Nat) (t : Tokenizer) :
    nextN (n + 1) t =
      ((next t).1 :: (nextN n (next t).2).1, (nextN n (next t).2).2) := by
  rw [nextN]

/-- Once at most `n + 1` tokens remain, `n + 1` calls to `next` end on the
EOF token. -/
theorem nextN_eof : ∀ (n : Nat) (t : Tokenizer), TWf t →
    (strm t).length ≤ n + 1 →
    ∃ tok, ((nextN (n + 1) t).1).getLast? = some tok ∧ tok.name = .EOF := by
  intro n
  induction n with
  | zero =>
    intro t hwf hlen
    obtain ⟨n1, n2, n3, n4⟩ := next_spec t hwf
    obtain ⟨pre, e, q1, q2, q3⟩ := strm_shape t hwf
    have hpre : pre = [] := by
      rw [q1, List.length_append] at hlen
      simp only [List.length_cons, List.length_nil] at hlen
      exact List.length_eq_zero.mp (by omega)
    refine ⟨(next t).1, ?_, ?_⟩
    · show ((next t).1 :: (nextN 0 (next t).2).1).getLast? = _
      rfl
    · rw [n1, q1, hpre]
      simp [q3]
  | succ n ih =>
    intro t hwf hlen
    obtain ⟨n1, n2, n3, n4⟩ := next_spec t hwf
    obtain ⟨pre, e, q1, q2, q3⟩ := strm_shape t hwf
    have htail : ((nextN (n + 1) (next t).2).1) ≠ [] := by
      intro hnil
      have := nextN_len (n + 1) (next t).2
      rw [hnil] at this
      simp at this
    by_cases heof : ((strm t).headD defaultToken).name = .EOF
    · have hpre : pre = [] := by
        cases hp : pre with
        | nil => rfl
        | cons a as =>
          exfalso
          rw [q1, hp] at heof
          simp at heof
          exact q2 a (by rw [hp]; simp) heof
      have hone : (strm t).length = 1 := by
        rw [q1, hpre]
        simp
      obtain ⟨tok, w1, w2⟩ := ih (next t).2 n2 (by
        rw [n4, if_pos heof]
        omega)
      refine ⟨tok, ?_, w2⟩
      rw [nextN_succ]
      dsimp only
      rw [getLast?_cons_ne _ _ htail]
      exact w1
    · obtain ⟨tok, w1, w2⟩ := ih (next t).2 n2 (by
        rw [n4, if_neg heof]
        have hlt : (strm t).tail.length = (strm t).length - 1 :=
          List.length_tail _
        omega)
      refine ⟨tok, ?_, w2⟩
      rw [nextN_succ]
      dsimp only
      rw [getLast?_cons_ne _ _ htail]
      exact w1

/-! ## Claim theorems -/

/-- C1: refuted (code bug).  Coverage fails: the input `" <x"` contains no
backslash, yet concatenating the contents of all tokens returned by
`next()` (excluding EOF) yields `"<x"`, not the original input — the held
line-start whitespace is dropped when a `<` fails to parse as a tag or a
comment, because the whitespace-flush branch is skipped on that path. -/
theorem C1_coverage_fails :
    ('\\' ∉ [' ', '<', 'x']) ∧
    ((nextTokens [' ', '<', 'x']).map Token.contents).join = ['<', 'x'] ∧
    ((nextTokens [' ', '<', 'x']).map Token.contents).join ≠ [' ', '<', 'x'] := by
  decide

/-- C6: confirmed.  Interleaving arbitrary `peek(k)` calls with `next()`
calls never changes the tokens the `next()` calls return; `peek(1)` returns
exactly the token the following `next()` returns; and peeking past the end
of the input returns the EOF token rather than failing. -/
theorem C6_peek_transparent (str : List Char) (ops : List TOp) (k : Nat)
    (hk : str.length + 2 ≤ k) :
    (applyOps ops (initTokenizer str)).1 =
      (applyOps (ops.filter isNextOp) (initTokenizer str)).1 ∧
    (peek (initTokenizer str) 1).1 = (next (initTokenizer str)).1 ∧
    (peek (applyOps ops (initTokenizer str)).2 k).1.name = .EOF := by
  refine ⟨applyOps_filter ops _ (init_wf str), (next_fst _).symm, ?_⟩
  obtain ⟨i1, i2⟩ := applyOps_inv ops _ (init_wf str)
  refine peek_big _ k i1 ?_
  have := init_strm_len str
  omega

theorem C6_peek_transparent_witness :
    (['x'].length + 2 ≤ 4) ∧
    ((applyOps [TOp.peekOp 2, TOp.nextOp, TOp.peekOp 1, TOp.nextOp]
        (initTokenizer ['x'])).1 =
      (applyOps ([TOp.peekOp 2, TOp.nextOp, TOp.peekOp 1,
          TOp.nextOp].filter isNextOp) (initTokenizer ['x'])).1 ∧
    (peek (initTokenizer ['x']) 1).1 = (next (initTokenizer ['x'])).1 ∧
    (peek (applyOps [TOp.peekOp 2, TOp.nextOp, TOp.peekOp 1, TOp.nextOp]
        (initTokenizer ['x'])).2 4).1.name = .EOF) :=
  ⟨by decide, C6_peek_transparent ['x']
    [TOp.peekOp 2, TOp.nextOp, TOp.peekOp 1, TOp.nextOp] 4 (by decide)⟩

/-- C8: confirmed.  Tokenization itself never raises: from every
well-formed scanner state, `matchToken` leaves the error flag unset — the
fallback `raise` branch of the generic dispatch is unreachable because
every character is classified by some rule. -/
theorem C8_no_raise (sc : Scan) (hwf : ScanWf sc) :
    (matchToken sc).1.err = false :=
  (matchToken_step sc hwf).2.2.1

theorem C8_no_raise_witness :
    ScanWf ⟨['a', '*'], 0, 1, 1, true, false, [], false⟩ ∧
    (matchToken ⟨['a', '*'], 0, 1, 1, true, false, [], false⟩).1.err = false :=
  ⟨by decide, C8_no_raise ⟨['a', '*'], 0, 1, 1, true, false, [], false⟩ (by decide)⟩

/-- C9: confirmed.  Tokenization terminates on every finite input:
`str.length + 1` calls to `next()` always reach the EOF token (every
non-EOF token consumes at least one character of input). -/
theorem C9_termination (str : List Char) :
    ∃ tok, ((nextN (str.length + 1) (initTokenizer str)).1).getLast? =
      some tok ∧ tok.name = .EOF :=
  nextN_eof str.length (initTokenizer str) (init_wf str) (init_strm_len str)

/-- C3: corrected.  Escape handling follows the source's `isFormat` set,
which contains `<` in addition to the five delimiters named by the claim:
the character after the backslash is always consumed; if it is a format
character (`*`, `_`, backtick, `<`, `|`, `~`) or a backslash it is emitted
alone (backslash dropped); any other character keeps the backslash; a lone
trailing backslash is emitted as itself. -/
theorem C3_escape (sc : Scan) (hpos : sc.str[sc.pos]? = some '\\') :
    (sc.str[sc.pos + 1]? = none →
      scanEscape sc = (['\\'], { sc with pos := sc.pos + 1 })) ∧
    (∀ c, sc.str[sc.pos + 1]? = some c →
      ((isFormat c = true ∨ c = '\\') →
        scanEscape sc = ([c], { sc with pos := sc.pos + 2 })) ∧
      (isFormat c = false → c ≠ '\\' →
        scanEscape sc = (['\\', c], { sc with pos := sc.pos + 2 }))) ∧
    (∀ c : Char, isFormat c = true ↔
      (c = '*' ∨ c = '_' ∨ c = '\x60' ∨ c = '<' ∨ c = '|' ∨ c = '~')) := by
  refine ⟨?_, ?_, ?_⟩
  · intro hnone
    simp [scanEscape, hnone]
  · intro c hc
    constructor
    · intro hfmt
      have hcond : (isFormat c || c == '\\') = true := by
        rcases hfmt with h | h
        · simp [h]
        · simp [h]
      simp [scanEscape, hc, hcond]
    · intro h1 h2
      have hcond : (isFormat c || c == '\\') = false := by simp [h1, h2]
      simp [scanEscape, hc, hcond]
  · intro c
    simp [isFormat]
    tauto

theorem C3_escape_witness :
    ((['\\', '*'] : List Char)[0]? = some '\\') ∧
    ((['\\', '*'] : List Char)[0 + 1]? = some '*' →
      (isFormat '*' = true ∨ '*' = '\\') →
      scanEscape ⟨['\\', '*'], 0, 1, 1, false, false, [], false⟩ =
        (['*'], ⟨['\\', '*'], 2, 1, 1, false, false, [], false⟩)) :=
  ⟨by decide, fun hget hfmt =>
    ((C3_escape ⟨['\\', '*'], 0, 1, 1, false, false, [], false⟩
      (by decide)).2.1 '*' hget).1 hfmt⟩

/-- C3 counterexample to the original wording: `<` is not one of the five
delimiters listed in the claim (nor a backslash), yet `"\<"` scans to a
text token `"<"` with the backslash dropped, not to the claimed
two-character sequence. -/
theorem C3_escape_counterexample :
    ('<' ∉ ['*', '_', '\x60', '|', '~', '\\']) ∧
    (nextTokens ['\\', '<']).map Token.contents = [['<']] := by
  decide

theorem countWhile_exact (p : Char → Bool) (v : List Char) (c : Char)
    (t : List Char) (hv : ∀ x ∈ v, p x = true) (hc : p c = false) :
    countWhile p (v ++ c :: t) = v.length := by
  induction v with
  | nil =>
    simp only [List.nil_append]
    rw [countWhile_cons_neg t hc]
    rfl
  | cons a as ih =>
    simp only [List.cons_append]
    rw [countWhile_cons_pos (as ++ c :: t) (hv a (by simp))]
    rw [ih (fun x hx => hv x (by simp [hx]))]
    rfl

/-- C7: confirmed.  `tryScanId` is atomic: on a match of
`[id="<word-chars-and-hyphens>"] ` it consumes exactly the match and
advances offset and column by the consumed length (line unchanged),
returning the id token with the decoded identifier and exact locations; on
a non-match it returns none and leaves the whole state untouched; and any
text of the stated form does match. -/
theorem C7_tryScanId (sc : Scan) :
    ((tryScanId sc).1 = none → (tryScanId sc).2 = sc) ∧
    (∀ tok, (tryScanId sc).1 = some tok →
      ∃ n v, matchId sc.rest = some (n, v) ∧
        (tryScanId sc).2.str = sc.str ∧
        (tryScanId sc).2.pos = sc.pos + n ∧
        (tryScanId sc).2.line = sc.line ∧
        (tryScanId sc).2.column = sc.column + n ∧
        (tryScanId sc).2.nl = sc.nl ∧
        (tryScanId sc).2.eofF = sc.eofF ∧
        (tryScanId sc).2.lookahead = sc.lookahead ∧
        (tryScanId sc).2.err = sc.err ∧
        tok.value = v ∧
        tok.location.start = ⟨sc.pos, sc.line, sc.column⟩ ∧
        tok.location.stop = ⟨sc.pos + n, sc.line, sc.column + n⟩) ∧
    (∀ v t, sc.rest = '[' :: 'i' :: 'd' :: '=' :: '"' ::
        (v ++ '"' :: ']' :: ' ' :: t) → v ≠ [] → (∀ c ∈ v, idChar c = true) →
      matchId sc.rest = some (5 + v.length + 3, v)) := by
  refine ⟨?_, ?_, ?_⟩
  · intro hnone
    unfold tryScanId at hnone ⊢
    cases hm : matchId sc.rest with
    | none => rfl
    | some nv =>
      rcases nv with ⟨n, v⟩
      rw [hm] at hnone
      simp at hnone
  · intro tok htok
    cases hm : matchId sc.rest with
    | none =>
      unfold tryScanId at htok
      rw [hm] at htok
      simp at htok
    | some nv =>
      rcases nv with ⟨n, v⟩
      have heq : tryScanId sc =
          (some (locateId { sc with pos := sc.pos + n } v (getLocation sc)).1,
           (locateId { sc with pos := sc.pos + n } v (getLocation sc)).2) := by
        unfold tryScanId
        rw [hm]
      rw [heq] at htok ⊢
      dsimp only [locateId, getLocation] at htok ⊢
      simp only [Option.some.injEq] at htok
      refine ⟨n, v, rfl, rfl, rfl, rfl, by omega, rfl, rfl, rfl, rfl,
        ?_, ?_, ?_⟩
      · rw [← htok]
      · rw [← htok]
      · rw [← htok]
        show Position.mk (sc.pos + n) sc.line
          (sc.column + (sc.pos + n - sc.pos)) = _
        have h2 : sc.pos + n - sc.pos = n := by omega
        rw [h2]
  · intro v t hdec hne hall
    rw [hdec]
    have hcw : countWhile idChar (v ++ '"' :: ']' :: ' ' :: t) = v.length :=
      countWhile_exact idChar v '"' (']' :: ' ' :: t) hall (by decide)
    simp only [matchId]
    rw [hcw]
    rw [if_neg (by
      intro h0
      exact hne (List.length_eq_zero.mp h0))]
    rw [List.drop_left, List.take_left]
    rfl

theorem C7_tryScanId_witness :
    (tryScanId ⟨['[', 'i', 'd', '=', '"', 'a', '"', ']', ' ', 'x'],
        0, 1, 1, false, false, [], false⟩).1 =
      some ⟨['a'], ⟨⟨0, 1, 1⟩, ⟨9, 1, 10⟩⟩⟩ ∧
    ∃ n v, matchId (Scan.rest ⟨['[', 'i', 'd', '=', '"', 'a', '"', ']', ' ', 'x'],
        0, 1, 1, false, false, [], false⟩) = some (n, v) ∧
      (tryScanId ⟨['[', 'i', 'd', '=', '"', 'a', '"', ']', ' ', 'x'],
        0, 1, 1, false, false, [], false⟩).2.str =
        (⟨['[', 'i', 'd', '=', '"', 'a', '"', ']', ' ', 'x'],
        0, 1, 1, false, false, [], false⟩ : Scan).str ∧
      (tryScanId ⟨['[', 'i', 'd', '=', '"', 'a', '"', ']', ' ', 'x'],
        0, 1, 1, false, false, [], false⟩).2.pos = 0 + n ∧
      (tryScanId ⟨['[', 'i', 'd', '=', '"', 'a', '"', ']', ' ', 'x'],
        0, 1, 1, false, false, [], false⟩).2.line = 1 ∧
      (tryScanId ⟨['[', 'i', 'd', '=', '"', 'a', '"', ']', ' ', 'x'],
        0, 1, 1, false, false, [], false⟩).2.column = 1 + n ∧
      (tryScanId ⟨['[', 'i', 'd', '=', '"', 'a', '"', ']', ' ', 'x'],
        0, 1, 1, false, false, [], false⟩).2.nl = false ∧
      (tryScanId ⟨['[', 'i', 'd', '=', '"', 'a', '"', ']', ' ', 'x'],
        0, 1, 1, false, false, [], false⟩).2.eofF = false ∧
      (tryScanId ⟨['[', 'i', 'd', '=', '"', 'a', '"', ']', ' ', 'x'],
        0, 1, 1, false, false, [], false⟩).2.lookahead = [] ∧
      (tryScanId ⟨['[', 'i', 'd', '=', '"', 'a', '"', ']', ' ', 'x'],
        0, 1, 1, false, false, [], false⟩).2.err = false ∧
      (⟨['a'], ⟨⟨0, 1, 1⟩, ⟨9, 1, 10⟩⟩⟩ : IdToken).value = v ∧
      (⟨['a'], ⟨⟨0, 1, 1⟩, ⟨9, 1, 10⟩⟩⟩ : IdToken).location.start = ⟨0, 1, 1⟩ ∧
      (⟨['a'], ⟨⟨0, 1, 1⟩, ⟨9, 1, 10⟩⟩⟩ : IdToken).location.stop =
        ⟨0 + n, 1, 1 + n⟩ :=
  ⟨by decide,
    (C7_tryScanId ⟨['[', 'i', 'd', '=', '"', 'a', '"', ']', ' ', 'x'],
      0, 1, 1, false, false, [], false⟩).2.1
      ⟨['a'], ⟨⟨0, 1, 1⟩, ⟨9, 1, 10⟩⟩⟩ (by decide)⟩

/-- The `scanToEndTag` loop stops either at end of input or right after a
matched closing tag with the requested name. -/
theorem scanToEndTagAux_stop (endTag : List Char) : ∀ (fuel : Nat) (sc : Scan),
    sc.pos ≤ sc.str.length → sc.str.length - sc.pos ≤ fuel →
    (scanToEndTagAux endTag fuel sc).pos = sc.str.length ∨
    ∃ p m, p + m.full.length = (scanToEndTagAux endTag fuel sc).pos ∧
      matchTag (sc.str.drop p) = some m ∧ m.tagName = endTag ∧
      m.full[1]? = some '/' := by
  intro fuel
  induction fuel with
  | zero =>
    intro sc hple hfuel
    left
    rw [scanToEndTagAux]
    omega
  | succ fuel ih =>
    intro sc hple hfuel
    rw [scanToEndTagAux]
    split
    case _ hlt =>
      rcases hts : tryScanTag sc with ⟨mq, sc1⟩
      cases mq with
      | some m =>
        obtain ⟨hsc1, hmt, hm0, hmle, hmtake⟩ := tryScanTag_eq_some hts
        dsimp only
        split
        case _ hcl =>
          right
          refine ⟨sc.pos, m, ?_, hmt, hcl.1, hcl.2⟩
          rw [hsc1]
        case _ hcl =>
          have hrec := ih sc1 (by rw [hsc1]; dsimp only; omega)
            (by rw [hsc1]; dsimp only; omega)
          rcases hrec with hrec | hrec
          · left
            rw [hrec, hsc1]
          · right
            obtain ⟨p, m2, q1, q2, q3, q4⟩ := hrec
            refine ⟨p, m2, q1, ?_, q3, q4⟩
            rw [hsc1] at q2
            dsimp only at q2
            exact q2
      | none =>
        have hsc1 : sc1 = sc := tryScanTag_eq_none hts
        subst hsc1
        dsimp only
        have hrec := ih { sc1 with pos := sc1.pos + 1 } (by dsimp only; omega)
          (by dsimp only; omega)
        rcases hrec with hrec | hrec
        · left
          rw [hrec]
        · right
          obtain ⟨p, m2, q1, q2, q3, q4⟩ := hrec
          exact ⟨p, m2, q1, q2, q3, q4⟩
    case _ hlt =>
      left
      omega

theorem scanToEndTag_fst (endTag : List Char) (sc : Scan) :
    (scanToEndTag endTag sc).1 =
      sc.rest.take ((scanToEndTag endTag sc).2.pos - sc.pos) := rfl

theorem scanToEndTag_snd (endTag : List Char) (sc : Scan) :
    (scanToEndTag endTag sc).2 =
      scanToEndTagAux endTag (sc.str.length - sc.pos) sc := rfl

/-- C5: corrected.  An opaque start tag switches to raw capture: a single
opaqueTag token is emitted whose contents are the verbatim input slice from
the opening tag through the scanner's final position — including, contrary
to the claim's "up to the matching end tag", the matching end tag itself —
and the capture stops only at end of input or right after a closing tag of
the same name. -/
theorem C5_opaque (sc : Scan) (m : TagMatch) (hwf : ScanWf sc)
    (hnl : sc.nl = false) (hpos : sc.pos < sc.str.length)
    (htag : tryScanTag sc = (some m, { sc with pos := sc.pos + m.full.length }))
    (hop : oTags.contains m.tagName = true) (hsl : m.attr2 ≠ some ['/']) :
    ∃ tok, (matchToken sc).2 = [tok] ∧ tok.name = .oTag ∧
      tok.contents =
        (sc.str.drop sc.pos).take ((matchToken sc).1.pos - sc.pos) ∧
      sc.pos + m.full.length ≤ (matchToken sc).1.pos ∧
      ((matchToken sc).1.pos = sc.str.length ∨
        ∃ p m2, p + m2.full.length = (matchToken sc).1.pos ∧
          matchTag (sc.str.drop p) = some m2 ∧ m2.tagName = m.tagName ∧
          m2.full[1]? = some '/') := by
  obtain ⟨hple, hla, herr, heof⟩ := hwf
  obtain ⟨hsc1eq, hmt, hm0, hmle, hmtake⟩ := tryScanTag_eq_some htag
  have hlt : sc.str[sc.pos]? = some '<' := by
    obtain ⟨w1, w2, w3, s1, hs1⟩ := matchTag_spec hmt
    have h0 : (sc.str.drop sc.pos)[0]? = some '<' := by
      rw [show sc.str.drop sc.pos = '<' :: s1 from hs1]
      simp
    rw [List.getElem?_drop] at h0
    simpa using h0
  have hng : ¬(sc.str[sc.pos + 1]? = some '!' ∧ sc.str[sc.pos + 2]? = some '-' ∧
      sc.str[sc.pos + 3]? = some '-') := by
    rintro ⟨g1, g2, g3⟩
    have h1 : sc.rest[1]? = some '!' := by
      show (sc.str.drop sc.pos)[1]? = some '!'
      rw [List.getElem?_drop]
      exact g1
    have h2 : sc.rest[2]? = some '-' := by
      show (sc.str.drop sc.pos)[2]? = some '-'
      rw [List.getElem?_drop]
      exact g2
    have hnone := matchTag_none_of_comment_opener h1 h2
    rw [hnone] at hmt
    cases hmt
  have hmteq : matchToken sc = genericDispatch sc := by
    unfold matchToken
    rw [if_neg (by omega), if_neg (by simp [hnl])]
  rw [hmteq]
  unfold genericDispatch
  dsimp only
  split
  case _ hg => rw [hlt] at hg; simp at hg
  case _ hg => rw [hlt] at hg; simp at hg
  case _ hg => rw [hlt] at hg; simp at hg
  case _ hg => rw [hlt] at hg; simp at hg
  case _ hg => rw [hlt] at hg; simp at hg
  case _ hg => rw [hlt] at hg; simp at hg
  case _ hne1 hne2 hne3 hne4 hne5 hne6 =>
    rw [hlt]
    rw [if_neg (by decide), if_neg (by decide), if_pos rfl, if_neg hng, htag]
    dsimp only
    rw [if_pos ⟨hop, hsl⟩]
    rcases hse : scanToEndTag m.tagName { sc with pos := sc.pos + m.full.length }
      with ⟨more, sc2⟩
    have hsp := scanToEndTag_spec m.tagName { sc with pos := sc.pos + m.full.length }
    rw [hse] at hsp
    dsimp only at hsp
    obtain ⟨s1, s2, s3, s4, s5, s6, s7, s8, s9⟩ := hsp
    have hmore : more = (sc.str.drop (sc.pos + m.full.length)).take
        (sc2.pos - (sc.pos + m.full.length)) := by
      have := scanToEndTag_fst m.tagName { sc with pos := sc.pos + m.full.length }
      rw [hse] at this
      dsimp only at this
      rw [this]
      rfl
    have hstop := scanToEndTagAux_stop m.tagName
      (({ sc with pos := sc.pos + m.full.length } : Scan).str.length -
        ({ sc with pos := sc.pos + m.full.length } : Scan).pos)
      { sc with pos := sc.pos + m.full.length }
      (by dsimp only; omega) (by dsimp only; omega)
    have hsc2 : scanToEndTagAux m.tagName
        (({ sc with pos := sc.pos + m.full.length } : Scan).str.length -
          ({ sc with pos := sc.pos + m.full.length } : Scan).pos)
        { sc with pos := sc.pos + m.full.length } = sc2 := by
      have := scanToEndTag_snd m.tagName { sc with pos := sc.pos + m.full.length }
      rw [hse] at this
      exact this.symm
    rw [hsc2] at hstop
    dsimp only at hstop
    obtain ⟨q1, q2, q3, q4, q5, q6, tok, hts, hname, hcont⟩ :=
      enqueue_spec sc2 .oTag (m.full ++ more) (getLocation sc)
    have hlook : sc2.lookahead = [] := by
      rw [s6]
      exact hla
    have hpe : (enqueue sc2 .oTag (m.full ++ more) (getLocation sc)).1.pos =
        sc2.pos := q2
    have hposmono : sc.pos + m.full.length ≤ sc2.pos := s8
    refine ⟨tok, by rw [hts, hlook], hname, ?_, by rw [hpe]; omega, ?_⟩
    · rw [hcont, hpe]
      rw [show sc2.pos - sc.pos =
        m.full.length + (sc2.pos - (sc.pos + m.full.length)) from by omega]
      rw [List.take_add]
      congr 1
      rw [hmore, List.drop_drop]
    · rw [hpe]
      rcases hstop with hstop | hstop
      · left
        exact hstop
      · right
        obtain ⟨p, m2, r1, r2, r3, r4⟩ := hstop
        exact ⟨p, m2, r1, r2, r3, r4⟩

/-- C5 counterexample to the original wording: on `"<pre>a</pre>"` the
single opaqueTag token's contents are the whole input including the closing
`</pre>`, not just the opening tag plus the text before the end tag. -/
theorem C5_opaque_counterexample :
    (nextTokens ['<', 'p', 'r', 'e', '>', 'a', '<', '/', 'p', 'r', 'e', '>']).map
        nameContents =
      [(.oTag, ['<', 'p', 'r', 'e', '>', 'a', '<', '/', 'p', 'r', 'e', '>'])] ∧
    (['<', 'p', 'r', 'e', '>', 'a', '<', '/', 'p', 'r', 'e', '>'] : List Char) ≠
      ['<', 'p', 'r', 'e', '>'] ++ ['a'] := by
  decide

theorem C5_opaque_witness :
    ∃ tok, (matchToken ⟨['<', 'p', 'r', 'e', '>', 'a', '<', '/', 'p', 'r', 'e', '>'],
        0, 1, 1, false, false, [], false⟩).2 = [tok] ∧ tok.name = .oTag ∧
      tok.contents =
        (['<', 'p', 'r', 'e', '>', 'a', '<', '/', 'p', 'r', 'e', '>'].drop 0).take
          ((matchToken ⟨['<', 'p', 'r', 'e', '>', 'a', '<', '/', 'p', 'r', 'e', '>'],
            0, 1, 1, false, false, [], false⟩).1.pos - 0) ∧
      0 + (⟨['<', 'p', 'r', 'e', '>'], ['p', 'r', 'e'], none⟩ : TagMatch).full.length ≤
        (matchToken ⟨['<', 'p', 'r', 'e', '>', 'a', '<', '/', 'p', 'r', 'e', '>'],
          0, 1, 1, false, false, [], false⟩).1.pos ∧
      ((matchToken ⟨['<', 'p', 'r', 'e', '>', 'a', '<', '/', 'p', 'r', 'e', '>'],
          0, 1, 1, false, false, [], false⟩).1.pos =
        (['<', 'p', 'r', 'e', '>', 'a', '<', '/', 'p', 'r', 'e', '>'] : List Char).length ∨
        ∃ p m2, p + m2.full.length =
            (matchToken ⟨['<', 'p', 'r', 'e', '>', 'a', '<', '/', 'p', 'r', 'e', '>'],
              0, 1, 1, false, false, [], false⟩).1.pos ∧
          matchTag (['<', 'p', 'r', 'e', '>', 'a', '<', '/', 'p', 'r', 'e', '>'].drop p) =
            some m2 ∧
          m2.tagName = (⟨['<', 'p', 'r', 'e', '>'], ['p', 'r', 'e'], none⟩ : TagMatch).tagName ∧
          m2.full[1]? = some '/') :=
  C5_opaque ⟨['<', 'p', 'r', 'e', '>', 'a', '<', '/', 'p', 'r', 'e', '>'],
      0, 1, 1, false, false, [], false⟩
    ⟨['<', 'p', 'r', 'e', '>'], ['p', 'r', 'e'], none⟩
    (by decide) rfl (by decide) (by decide) (by decide) (by decide)

theorem locate_line_col (sc : Scan) (name : TokenName) (contents : List Char)
    (p : Position) (h1 : name ≠ .linebreak) (h2 : name ≠ .parabreak) :
    (locate sc name contents p).2.line = sc.line ∧
    (locate sc name contents p).2.column = sc.column + (sc.pos - p.offset) := by
  unfold locate
  rw [if_neg h1, if_neg h2]
  exact ⟨rfl, rfl⟩

theorem enqueue_line_col (sc : Scan) (name : TokenName) (contents : List Char)
    (p : Position) (h1 : name ≠ .linebreak) (h2 : name ≠ .parabreak) :
    (enqueue sc name contents p).1.line = sc.line ∧
    (enqueue sc name contents p).1.column = sc.column + (sc.pos - p.offset) := by
  obtain ⟨l1, l2⟩ := locate_line_col sc name contents p h1 h2
  unfold enqueue
  rcases hloc : locate sc name contents p with ⟨tok, sc1⟩
  rw [hloc] at l1 l2
  exact ⟨l1, l2⟩

theorem enqueueLookahead_column (sc : Scan) (name : TokenName)
    (contents : List Char) (p : Position) (h1 : name ≠ .linebreak)
    (h2 : name ≠ .parabreak) :
    (enqueueLookahead sc name contents p).line = sc.line ∧
    (enqueueLookahead sc name contents p).column =
      sc.column + (sc.pos - p.offset) := by
  obtain ⟨l1, l2⟩ := locate_line_col sc name contents p h1 h2
  unfold enqueueLookahead
  rcases hloc : locate sc name contents p with ⟨tok, sc1⟩
  rw [hloc] at l1 l2
  exact ⟨l1, l2⟩

/-- The text run never moves the column backwards. -/
theorem scanCharsAux_column : ∀ (fuel : Nat) (sc : Scan),
    sc.column ≤ (scanCharsAux fuel sc).2.column := by
  intro fuel
  induction fuel with
  | zero => intro sc; exact Nat.le_refl _
  | succ fuel ih =>
    intro sc
    rw [scanCharsAux]
    cases hg : sc.str[sc.pos]? with
    | none => exact Nat.le_refl _
    | some chr =>
      dsimp only
      split
      case _ hc =>
        have hpos : sc.pos < sc.str.length := by
          by_contra hge
          rw [List.getElem?_eq_none_iff.mpr (by omega)] at hg
          cases hg
        have hesc := (scanEscape_spec sc hpos).2.2.1
        rcases he : scanEscape sc with ⟨e, sc1⟩
        rw [he] at hesc
        dsimp only at hesc
        dsimp only
        have := ih sc1
        omega
      case _ hc =>
        split
        case _ hc2 =>
          dsimp only
          have := ih { sc with pos := sc.pos + 1 }
          dsimp only at this
          omega
        case _ hc2 =>
          split
          case _ hc3 =>
            rcases htt : tryScanTag sc with ⟨mq, sc1⟩
            cases mq with
            | some m =>
              obtain ⟨hsc1, _, _, _, _⟩ := tryScanTag_eq_some htt
              dsimp only
              split
              case _ hop =>
                rcases hse : scanToEndTag m.tagName sc1 with ⟨more, sc2⟩
                have hsp := scanToEndTag_spec m.tagName sc1
                rw [hse] at hsp
                dsimp only at hsp
                have hcl := (enqueueLookahead_column sc2 .oTag (m.full ++ more)
                  (getLocation sc) (by simp) (by simp)).2
                dsimp only
                rw [hcl]
                have h3 := hsp.2.2.1
                rw [hsc1] at h3
                dsimp only at h3
                omega
              case _ hop =>
                have hcl := (enqueueLookahead_column sc1 .tag m.full
                  (getLocation sc) (by simp) (by simp)).2
                dsimp only
                rw [hcl]
                rw [hsc1]
                dsimp only
                omega
            | none =>
              have hsc1 : sc1 = sc := tryScanTag_eq_none htt
              subst hsc1
              dsimp only
              rcases htc : tryScanComment sc1 with ⟨cq, sc2⟩
              cases cq with
              | some cmt =>
                obtain ⟨n, hsc2, _, _, _, _⟩ := tryScanComment_eq_some htc
                have hcl := (enqueueLookahead_column sc2 .comment cmt
                  (getLocation sc1) (by simp) (by simp)).2
                dsimp only
                rw [hcl]
                rw [hsc2]
                dsimp only
                omega
              | none =>
                have hsc2 : sc2 = sc1 := tryScanComment_eq_none htc
                subst hsc2
                dsimp only
                have := ih { sc2 with pos := sc2.pos + 1 }
                dsimp only at this
                omega
          case _ hc3 =>
            exact Nat.le_refl _

/-- An escaped character run starting with a backslash-newline keeps both
characters at the head of the scanned text. -/
theorem scanCharsAux_escape_start (fuel : Nat) (sc : Scan)
    (h1 : sc.str[sc.pos]? = some '\\') (h2 : sc.str[sc.pos + 1]? = some '\n') :
    ∃ rest, (scanCharsAux (fuel + 1) sc).1 = '\\' :: '\n' :: rest := by
  rw [scanCharsAux, h1]
  dsimp only
  rw [if_pos (by decide)]
  have he : scanEscape sc = (['\\', '\n'], { sc with pos := sc.pos + 1 + 1 }) := by
    unfold scanEscape
    dsimp only
    rw [h2]
    dsimp only
    rw [if_neg (by decide)]
  rw [he]
  exact ⟨(scanCharsAux fuel { sc with pos := sc.pos + 1 + 1 }).1, rfl⟩

/-- C10: confirmed.  A backslash immediately followed by a newline during
plain-text scanning absorbs the newline into the text token: the token's
contents start with the backslash and the newline, no linebreak or
parabreak token is emitted, the line counter does not change, the column is
not reset, and the newline flag stays clear — so the following line is not
a line start and a list marker there is not recognized (as on
`"a\\\n1. b"`). -/
theorem C10_escaped_newline (sc : Scan) (hwf : ScanWf sc) (hnl : sc.nl = false)
    (h1 : sc.str[sc.pos]? = some '\\') (h2 : sc.str[sc.pos + 1]? = some '\n') :
    ∃ tok δ, (matchToken sc).2 = tok :: δ ∧ tok.name = .text ∧
      tok.contents.take 2 = ['\\', '\n'] ∧
      (∀ t2 ∈ (matchToken sc).2, t2.name ≠ .linebreak ∧ t2.name ≠ .parabreak) ∧
      (matchToken sc).1.line = sc.line ∧
      (matchToken sc).1.nl = false ∧
      sc.column ≤ (matchToken sc).1.column ∧
      (nextTokens ['a', '\\', '\n', '1', '.', ' ', 'b']).all
        (fun t2 => t2.name ≠ .ol) = true := by
  obtain ⟨hple, hla, herr, heof⟩ := hwf
  have hpos : sc.pos < sc.str.length := by
    by_contra hge
    rw [List.getElem?_eq_none_iff.mpr (by omega)] at h1
    cases h1
  have hmteq : matchToken sc = genericDispatch sc := by
    unfold matchToken
    rw [if_neg (by omega), if_neg (by simp [hnl])]
  rw [hmteq]
  unfold genericDispatch
  dsimp only
  split
  case _ hg => rw [h1] at hg; simp at hg
  case _ hg => rw [h1] at hg; simp at hg
  case _ hg => rw [h1] at hg; simp at hg
  case _ hg => rw [h1] at hg; simp at hg
  case _ hg => rw [h1] at hg; simp at hg
  case _ hg => rw [h1] at hg; simp at hg
  case _ hne1 hne2 hne3 hne4 hne5 hne6 =>
    rw [h1]
    rw [if_neg (by decide), if_pos (by decide)]
    rcases hcs : scanChars sc with ⟨out, sc1⟩
    dsimp only
    have hspec := scanCharsAux_spec (sc.str.length - sc.pos + 1) sc
    rw [show scanCharsAux (sc.str.length - sc.pos + 1) sc = (out, sc1) from hcs]
      at hspec
    dsimp only at hspec
    obtain ⟨r1, r2, r3, r4, r5, r6, r7, δ0, rδ, rδ1, rδn, rδlen⟩ := hspec
    have hcol := scanCharsAux_column (sc.str.length - sc.pos + 1) sc
    rw [show scanCharsAux (sc.str.length - sc.pos + 1) sc = (out, sc1) from hcs]
      at hcol
    dsimp only at hcol
    obtain ⟨rest, hout⟩ := scanCharsAux_escape_start (sc.str.length - sc.pos)
      sc h1 h2
    rw [show scanCharsAux (sc.str.length - sc.pos + 1) sc = (out, sc1) from hcs]
      at hout
    dsimp only at hout
    obtain ⟨q1, q2, q3, q4, q5, q6, tok, hts, hname, hcont⟩ :=
      enqueue_spec sc1 .text out (getLocation sc)
    obtain ⟨hline, hcol2⟩ := enqueue_line_col sc1 .text out (getLocation sc)
      (by decide) (by decide)
    refine ⟨tok, sc1.lookahead, hts, hname, ?_, ?_, ?_, ?_, ?_, by decide⟩
    · rw [hcont, hout]
      rfl
    · intro t2 ht2
      rw [hts] at ht2
      rcases List.mem_cons.mp ht2 with rfl | hmem
      · simp [hname]
      · rw [rδ, hla] at hmem
        simp only [List.nil_append] at hmem
        rcases rδn t2 hmem with h | h | h <;> simp [h]
    · rw [hline, r2]
    · rw [q3, r3, hnl]
    · rw [hcol2]
      omega

theorem C10_escaped_newline_witness :
    ∃ tok δ, (matchToken ⟨['\\', '\n', 'x'], 0, 1, 1, false, false, [], false⟩).2 =
        tok :: δ ∧ tok.name = .text ∧
      tok.contents.take 2 = ['\\', '\n'] ∧
      (∀ t2 ∈ (matchToken ⟨['\\', '\n', 'x'], 0, 1, 1, false, false, [],
          false⟩).2, t2.name ≠ .linebreak ∧ t2.name ≠ .parabreak) ∧
      (matchToken ⟨['\\', '\n', 'x'], 0, 1, 1, false, false, [], false⟩).1.line =
        1 ∧
      (matchToken ⟨['\\', '\n', 'x'], 0, 1, 1, false, false, [], false⟩).1.nl =
        false ∧
      1 ≤ (matchToken ⟨['\\', '\n', 'x'], 0, 1, 1, false, false, [],
        false⟩).1.column ∧
      (nextTokens ['a', '\\', '\n', '1', '.', ' ', 'b']).all
        (fun t2 => t2.name ≠ .ol) = true :=
  C10_escaped_newline ⟨['\\', '\n', 'x'], 0, 1, 1, false, false, [], false⟩
    (by decide) rfl (by decide) (by decide)

/-- The generic dispatch never emits a list-marker token. -/
theorem genericDispatch_no_markers (sc : Scan) (hla : sc.lookahead = []) :
    ∀ tok ∈ (genericDispatch sc).2, tok.name ≠ .ol ∧ tok.name ≠ .ul := by
  have hsub : ∀ (sc1 : Scan) (name : TokenName) (contents : List Char)
      (p : Position) (δ : List Token), sc1.lookahead = δ →
      name ≠ .ol → name ≠ .ul →
      (∀ tok ∈ δ, tok.name = .tag ∨ tok.name = .comment ∨ tok.name = .oTag) →
      ∀ tok ∈ (enqueue sc1 name contents p).2,
        tok.name ≠ .ol ∧ tok.name ≠ .ul := by
    intro sc1 name contents p δ hδ hn1 hn2 hδn tok htok
    obtain ⟨q1, q2, q3, q4, q5, q6, tok2, hts, hname, hcont⟩ :=
      enqueue_spec sc1 name contents p
    rw [hts, hδ] at htok
    rcases List.mem_cons.mp htok with rfl | hmem
    · rw [hname]
      exact ⟨hn1, hn2⟩
    · rcases hδn tok hmem with h | h | h <;> simp [h]
  unfold genericDispatch
  dsimp only
  split
  case _ hg => exact hsub _ _ _ _ [] hla (by decide) (by decide) (by simp)
  case _ hg => exact hsub _ _ _ _ [] hla (by decide) (by decide) (by simp)
  case _ hg => exact hsub _ _ _ _ [] hla (by decide) (by decide) (by simp)
  case _ hg => exact hsub _ _ _ _ [] hla (by decide) (by decide) (by simp)
  case _ hg => exact hsub _ _ _ _ [] hla (by decide) (by decide) (by simp)
  case _ hg =>
    split
    case _ hone =>
      exact hsub _ _ _ _ [] (by dsimp only; exact hla)
        (by decide) (by decide) (by simp)
    case _ hone =>
      exact hsub _ _ _ _ [] (by dsimp only; exact hla)
        (by decide) (by decide) (by simp)
  case _ hne1 hne2 hne3 hne4 hne5 hne6 =>
    split
    case _ hws =>
      rw [scanWhitespace_eq]
      dsimp only
      exact hsub _ _ _ _ [] (by dsimp only; exact hla)
        (by decide) (by decide) (by simp)
    case _ hws =>
      split
      case _ hch =>
        rcases hcs : scanChars sc with ⟨out, sc1⟩
        dsimp only
        have hspec := scanCharsAux_spec (sc.str.length - sc.pos + 1) sc
        rw [show scanCharsAux (sc.str.length - sc.pos + 1) sc = (out, sc1)
          from hcs] at hspec
        dsimp only at hspec
        obtain ⟨r1, r2, r3, r4, r5, r6, r7, δ0, rδ, rδ1, rδn, rδlen⟩ := hspec
        exact hsub _ _ _ _ δ0 (by rw [rδ, hla]; simp) (by decide) (by decide) rδn
      case _ hch =>
        split
        case _ hlt =>
          split
          case _ hcg =>
            rcases htc : tryScanComment sc with ⟨cq, sc1⟩
            cases cq with
            | some cmt =>
              obtain ⟨n, hsc1, _, _, _, _⟩ := tryScanComment_eq_some htc
              dsimp only
              refine hsub _ _ _ _ [] ?_ (by decide) (by decide) (by simp)
              rw [hsc1]
              dsimp only
              exact hla
            | none =>
              have hsc1 : sc1 = sc := tryScanComment_eq_none htc
              subst hsc1
              dsimp only
              rcases hcs : scanChars sc1 with ⟨out, sc2⟩
              dsimp only
              have hspec := scanCharsAux_spec (sc1.str.length - sc1.pos + 1) sc1
              rw [show scanCharsAux (sc1.str.length - sc1.pos + 1) sc1 =
                (out, sc2) from hcs] at hspec
              dsimp only at hspec
              obtain ⟨r1, r2, r3, r4, r5, r6, r7, δ0, rδ, rδ1, rδn, rδlen⟩ :=
                hspec
              exact hsub _ _ _ _ δ0 (by rw [rδ, hla]; simp)
                (by decide) (by decide) rδn
          case _ hcg =>
            rcases htt : tryScanTag sc with ⟨mq, sc1⟩
            cases mq with
            | some m =>
              obtain ⟨hsc1, _, _, _, _⟩ := tryScanTag_eq_some htt
              dsimp only
              split
              case _ hop =>
                rcases hse : scanToEndTag m.tagName sc1 with ⟨more, sc2⟩
                have hsp := scanToEndTag_spec m.tagName sc1
                rw [hse] at hsp
                dsimp only at hsp
                refine hsub _ _ _ _ [] ?_ (by decide) (by decide) (by simp)
                rw [hsp.2.2.2.2.2.1, hsc1]
                dsimp only
                exact hla
              case _ hop =>
                refine hsub _ _ _ _ [] ?_ (by decide) (by decide) (by simp)
                rw [hsc1]
                dsimp only
                exact hla
            | none =>
              have hsc1 : sc1 = sc := tryScanTag_eq_none htt
              subst hsc1
              dsimp only
              rcases hcs : scanChars sc1 with ⟨out, sc2⟩
              dsimp only
              have hspec := scanCharsAux_spec (sc1.str.length - sc1.pos + 1) sc1
              rw [show scanCharsAux (sc1.str.length - sc1.pos + 1) sc1 =
                (out, sc2) from hcs] at hspec
              dsimp only at hspec
              obtain ⟨r1, r2, r3, r4, r5, r6, r7, δ0, rδ, rδ1, rδn, rδlen⟩ :=
                hspec
              exact hsub _ _ _ _ δ0 (by rw [rδ, hla]; simp)
                (by decide) (by decide) rδn
        case _ hlt =>
          intro tok htok
          simp at htok

/-- With the newline flag clear, `matchToken` never emits a list marker. -/
theorem matchToken_no_markers (sc : Scan) (hwf : ScanWf sc)
    (hnl : sc.nl = false) :
    ∀ tok ∈ (matchToken sc).2, tok.name ≠ .ol ∧ tok.name ≠ .ul := by
  obtain ⟨hple, hla, herr, heof⟩ := hwf
  unfold matchToken
  split
  case _ hend =>
    intro tok htok
    obtain ⟨q1, q2, q3, q4, q5, q6, tok2, hts, hname, hcont⟩ :=
      enqueue_spec { sc with eofF := true } .EOF []
        (getLocation { sc with eofF := true })
    rw [hts] at htok
    rcases List.mem_cons.mp htok with rfl | hmem
    · simp [hname]
    · dsimp only at hmem
      rw [hla] at hmem
      simp at hmem
  case _ hend =>
    split
    case _ ht =>
      rw [hnl] at ht
      cases ht
    case _ ht =>
      exact genericDispatch_no_markers sc hla

theorem drop_take_two {l : List Char} {i : Nat} {a b : Char}
    (h1 : l[i]? = some a) (h2 : l[i + 1]? = some b) :
    (l.drop i).take 2 = [a, b] := by
  have hi : i < l.length := by
    by_contra hge
    rw [List.getElem?_eq_none_iff.mpr (by omega)] at h1
    cases h1
  have hi2 : i + 1 < l.length := by
    by_contra hge
    rw [List.getElem?_eq_none_iff.mpr (by omega)] at h2
    cases h2
  have e1 : l[i] = a := by
    have hx := List.getElem?_eq_getElem hi
    rw [h1] at hx
    exact (Option.some.injEq _ _ ▸ hx).symm
  have e2 : l[i + 1] = b := by
    have hx := List.getElem?_eq_getElem hi2
    rw [h2] at hx
    exact (Option.some.injEq _ _ ▸ hx).symm
  rw [List.drop_eq_getElem_cons hi,
    show l.drop (i + 1) = l[i + 1] :: l.drop (i + 1 + 1) from
      List.drop_eq_getElem_cons hi2, e1, e2]
  rfl

theorem rest_nl (sc : Scan) (b : Bool) :
    ({ sc with nl := b } : Scan).rest = sc.rest := rfl

theorem rest_mk (str : List Char) (pos line col : Nat) (nl eofF : Bool)
    (la : List Token) (err : Bool) :
    (Scan.mk str pos line col nl eofF la err).rest = str.drop pos := rfl

/-- C4: confirmed.  At a line start, digits immediately followed by
dot-space are emitted (with the held whitespace) as a single ordered-list
marker covering exactly the consumed slice; without the dot-space no
marker appears — held whitespace is flushed as its own token and the
digits begin a text token; with the newline flag clear no marker is ever
produced; and `"1. foo"`, `"1 foo"`, `"1.foo"` tokenize as the claim
states. -/
theorem C4_list_marker (sc : Scan) (hwf : ScanWf sc) (hnl : sc.nl = true)
    (hpos : sc.pos < sc.str.length) :
    (((sc.str[sc.pos + countWhile isWhitespace sc.rest]?.map
        Char.isDigit).getD false = true) →
     (sc.str[sc.pos + countWhile isWhitespace sc.rest +
        countWhile Char.isDigit (sc.str.drop
          (sc.pos + countWhile isWhitespace sc.rest))]? = some '.' ∧
      sc.str[sc.pos + countWhile isWhitespace sc.rest +
        countWhile Char.isDigit (sc.str.drop
          (sc.pos + countWhile isWhitespace sc.rest)) + 1]? = some ' ') →
      ∃ tok, (matchToken sc).2 = [tok] ∧ tok.name = .ol ∧
        tok.contents = (sc.str.drop sc.pos).take
          (countWhile isWhitespace sc.rest +
           countWhile Char.isDigit (sc.str.drop
             (sc.pos + countWhile isWhitespace sc.rest)) + 2) ∧
        (matchToken sc).1.pos = sc.pos + countWhile isWhitespace sc.rest +
          countWhile Char.isDigit (sc.str.drop
            (sc.pos + countWhile isWhitespace sc.rest)) + 2) ∧
    (((sc.str[sc.pos + countWhile isWhitespace sc.rest]?.map
        Char.isDigit).getD false = true) →
     ¬(sc.str[sc.pos + countWhile isWhitespace sc.rest +
        countWhile Char.isDigit (sc.str.drop
          (sc.pos + countWhile isWhitespace sc.rest))]? = some '.' ∧
      sc.str[sc.pos + countWhile isWhitespace sc.rest +
        countWhile Char.isDigit (sc.str.drop
          (sc.pos + countWhile isWhitespace sc.rest)) + 1]? = some ' ') →
      (∀ tok ∈ (matchToken sc).2, tok.name ≠ .ol ∧ tok.name ≠ .ul) ∧
      ∃ t2 δ2, t2.name = .text ∧
        t2.contents.take (countWhile Char.isDigit (sc.str.drop
          (sc.pos + countWhile isWhitespace sc.rest))) =
          (sc.str.drop (sc.pos + countWhile isWhitespace sc.rest)).take
            (countWhile Char.isDigit (sc.str.drop
              (sc.pos + countWhile isWhitespace sc.rest))) ∧
        ((countWhile isWhitespace sc.rest = 0 ∧
            (matchToken sc).2 = t2 :: δ2) ∨
         (0 < countWhile isWhitespace sc.rest ∧ ∃ t1,
            (matchToken sc).2 = t1 :: t2 :: δ2 ∧ t1.name = .whitespace ∧
            t1.contents = (sc.str.drop sc.pos).take
              (countWhile isWhitespace sc.rest)))) ∧
    (∀ sc2 : Scan, ScanWf sc2 → sc2.nl = false →
      ∀ tok ∈ (matchToken sc2).2, tok.name ≠ .ol ∧ tok.name ≠ .ul) ∧
    ((nextTokens ['1', '.', ' ', 'f', 'o', 'o']).map nameContents =
      [(.ol, ['1', '.', ' ']), (.text, ['f', 'o', 'o'])] ∧
     (nextTokens ['1', ' ', 'f', 'o', 'o']).map nameContents =
      [(.text, ['1']), (.whitespace, [' ']), (.text, ['f', 'o', 'o'])] ∧
     (nextTokens ['1', '.', 'f', 'o', 'o']).map nameContents =
      [(.text, ['1', '.', 'f', 'o', 'o'])]) := by
  obtain ⟨hple, hla, herr, heof⟩ := hwf
  have hnb : matchToken sc = newlineBranch { sc with nl := false } := by
    unfold matchToken
    rw [if_neg (by omega), if_pos hnl]
  refine ⟨?_, ?_, ?_, by decide⟩
  · -- ordered-list marker
    intro hd hdot
    have hlt2 : sc.pos + countWhile isWhitespace sc.rest < sc.str.length := by
      by_contra hge
      rw [List.getElem?_eq_none_iff.mpr (by omega)] at hd
      simp at hd
    rw [hnb]
    unfold newlineBranch
    rw [scanWhitespace_eq]
    dsimp only
    simp only [rest_nl]
    rw [if_neg (by omega), if_pos hd]
    rw [scanDigits_eq]
    dsimp only
    simp only [rest_mk]
    rw [if_pos hdot]
    obtain ⟨q1, q2, q3, q4, q5, q6, tok, hts, hname, hcont⟩ :=
      enqueue_spec { sc with
          nl := false, pos := (sc.pos + countWhile isWhitespace sc.rest +
            countWhile Char.isDigit (sc.str.drop
              (sc.pos + countWhile isWhitespace sc.rest)) + 2) }
        .ol
        (sc.rest.takeWhile isWhitespace ++
          (sc.str.drop (sc.pos + countWhile isWhitespace sc.rest)).takeWhile
            Char.isDigit ++ ['.', ' '])
        (getLocation { sc with nl := false })
    refine ⟨tok, by rw [hts]; dsimp only; rw [hla], hname, ?_, by rw [q2]⟩
    rw [hcont]
    rw [show countWhile isWhitespace sc.rest +
        countWhile Char.isDigit (sc.str.drop
          (sc.pos + countWhile isWhitespace sc.rest)) + 2 =
      countWhile isWhitespace sc.rest +
        (countWhile Char.isDigit (sc.str.drop
          (sc.pos + countWhile isWhitespace sc.rest)) + 2) from by omega]
    rw [List.take_add]
    rw [List.append_assoc]
    congr 1
    · rw [takeWhile_eq_take]
      rfl
    · rw [List.drop_drop, List.take_add]
      congr 1
      · rw [takeWhile_eq_take]
      · rw [List.drop_drop]
        exact (drop_take_two hdot.1 hdot.2).symm
  · -- digits without dot-space
    intro hd hdot
    have hlt2 : sc.pos + countWhile isWhitespace sc.rest < sc.str.length := by
      by_contra hge
      rw [List.getElem?_eq_none_iff.mpr (by omega)] at hd
      simp at hd
    rw [hnb]
    unfold newlineBranch
    rw [scanWhitespace_eq]
    dsimp only
    simp only [rest_nl]
    rw [if_neg (by omega), if_pos hd]
    rw [scanDigits_eq]
    dsimp only
    simp only [rest_mk]
    rw [if_neg hdot]
    have hdl : countWhile Char.isDigit
        (sc.str.drop (sc.pos + countWhile isWhitespace sc.rest)) =
        ((sc.str.drop (sc.pos + countWhile isWhitespace sc.rest)).takeWhile
          Char.isDigit).length := rfl
    split
    case _ hwsne =>
      have hw1 : 1 ≤ countWhile isWhitespace sc.rest := by
        have hne : sc.rest.takeWhile isWhitespace ≠ [] := hwsne
        rw [countWhile]
        cases hq : sc.rest.takeWhile isWhitespace with
        | nil => exact absurd hq hne
        | cons a as => simp
      obtain ⟨q1, q2, q3, q4, q5, q6, tok1, hts1, hname1, hcont1⟩ :=
        enqueue_spec { sc with nl := false, pos := (sc.pos + countWhile isWhitespace sc.rest +
            countWhile Char.isDigit
              (sc.str.drop (sc.pos + countWhile isWhitespace sc.rest))) }
          .whitespace (sc.rest.takeWhile isWhitespace) (getLocation { sc with nl := false })
      rcases hq1 : enqueue { sc with nl := false, pos := (sc.pos + countWhile isWhitespace sc.rest +
            countWhile Char.isDigit
              (sc.str.drop (sc.pos + countWhile isWhitespace sc.rest))) }
          .whitespace (sc.rest.takeWhile isWhitespace) (getLocation { sc with nl := false }) with ⟨sc4, e1⟩
      rw [hq1] at q1 q2 q3 q4 q5 q6 hts1
      dsimp only at q1 q2 q3 q4 q5 q6 hts1
      rcases hcs : scanChars sc4 with ⟨out, sc5⟩
      have hspec := scanCharsAux_spec (sc4.str.length - sc4.pos + 1) sc4
      rw [show scanCharsAux (sc4.str.length - sc4.pos + 1) sc4 = (out, sc5)
        from hcs] at hspec
      dsimp only at hspec
      obtain ⟨r1, r2, r3, r4, r5, r6, r7, δ, rδ, rδ1, rδn, rδlen⟩ := hspec
      rw [q6] at rδ
      simp only [List.nil_append] at rδ
      obtain ⟨p1, p2, p3, p4, p5, p6, tok2, hts2, hname2, hcont2⟩ :=
        enqueue_spec sc5 .text
          ((sc.str.drop (sc.pos + countWhile isWhitespace sc.rest)).takeWhile
            Char.isDigit ++ out) (getLocation { sc with nl := false })
      dsimp only
      have htake : tok2.contents.take (countWhile Char.isDigit
          (sc.str.drop (sc.pos + countWhile isWhitespace sc.rest))) =
          (sc.str.drop (sc.pos + countWhile isWhitespace sc.rest)).take
            (countWhile Char.isDigit
              (sc.str.drop (sc.pos + countWhile isWhitespace sc.rest))) := by
        rw [hcont2, hdl, List.take_left, ← hdl]
        exact takeWhile_eq_take _ _
      constructor
      · intro tok htok
        simp only [List.mem_append] at htok
        rcases htok with htok | htok
        · rw [hts1, hla] at htok
          simp at htok
          subst htok
          simp [hname1]
        · rw [hts2, rδ] at htok
          rcases List.mem_cons.mp htok with rfl | hmem
          · simp [hname2]
          · rcases rδn tok hmem with h | h | h <;> simp [h]
      · refine ⟨tok2, δ, hname2, htake, Or.inr ⟨by omega, tok1, ?_, hname1, ?_⟩⟩
        · rw [hts1, hts2, rδ, hla]
          simp
        · rw [hcont1, takeWhile_eq_take]
          rfl
    case _ hwsne =>
      have hws0 : countWhile isWhitespace sc.rest = 0 := by
        have hws : sc.rest.takeWhile isWhitespace = [] := by
          by_contra hne
          exact hwsne hne
        rw [countWhile, hws]
        rfl
      rcases hcs : scanChars { sc with
          nl := false, pos := (sc.pos + countWhile isWhitespace sc.rest +
            countWhile Char.isDigit
              (sc.str.drop (sc.pos + countWhile isWhitespace sc.rest))) }
        with ⟨out, sc5⟩
      have hspec := scanCharsAux_spec
        (({ sc with nl := false, pos := (sc.pos + countWhile isWhitespace sc.rest +
            countWhile Char.isDigit
              (sc.str.drop (sc.pos + countWhile isWhitespace sc.rest))) } : Scan).str.length -
          ({ sc with nl := false, pos := (sc.pos + countWhile isWhitespace sc.rest +
            countWhile Char.isDigit
              (sc.str.drop (sc.pos + countWhile isWhitespace sc.rest))) } : Scan).pos + 1)
        { sc with nl := false, pos := (sc.pos + countWhile isWhitespace sc.rest +
          countWhile Char.isDigit
            (sc.str.drop (sc.pos + countWhile isWhitespace sc.rest))) }
      have hcs2 : scanCharsAux
          (({ sc with nl := false, pos := (sc.pos + countWhile isWhitespace sc.rest +
              countWhile Char.isDigit
                (sc.str.drop (sc.pos + countWhile isWhitespace sc.rest))) } : Scan).str.length -
            ({ sc with nl := false, pos := (sc.pos + countWhile isWhitespace sc.rest +
              countWhile Char.isDigit
                (sc.str.drop (sc.pos + countWhile isWhitespace sc.rest))) } : Scan).pos + 1)
          { sc with nl := false, pos := (sc.pos + countWhile isWhitespace sc.rest +
            countWhile Char.isDigit
              (sc.str.drop (sc.pos + countWhile isWhitespace sc.rest))) } = (out, sc5) := hcs
      rw [hcs2] at hspec
      dsimp only at hspec
      obtain ⟨r1, r2, r3, r4, r5, r6, r7, δ, rδ, rδ1, rδn, rδlen⟩ := hspec
      rw [hla] at rδ
      simp only [List.nil_append] at rδ
      obtain ⟨p1, p2, p3, p4, p5, p6, tok2, hts2, hname2, hcont2⟩ :=
        enqueue_spec sc5 .text
          ((sc.str.drop (sc.pos + countWhile isWhitespace sc.rest)).takeWhile
            Char.isDigit ++ out) (getLocation { sc with nl := false })
      dsimp only
      have htake : tok2.contents.take (countWhile Char.isDigit
          (sc.str.drop (sc.pos + countWhile isWhitespace sc.rest))) =
          (sc.str.drop (sc.pos + countWhile isWhitespace sc.rest)).take
            (countWhile Char.isDigit
              (sc.str.drop (sc.pos + countWhile isWhitespace sc.rest))) := by
        rw [hcont2, hdl, List.take_left, ← hdl]
        exact takeWhile_eq_take _ _
      constructor
      · intro tok htok
        simp only [List.nil_append] at htok
        rw [hts2, rδ] at htok
        rcases List.mem_cons.mp htok with rfl | hmem
        · simp [hname2]
        · rcases rδn tok hmem with h | h | h <;> simp [h]
      · refine ⟨tok2, δ, hname2, htake, Or.inl ⟨hws0, ?_⟩⟩
        rw [hts2, rδ]
        simp
  · -- mid-line: no markers with the newline flag clear
    intro sc2 hwf2 hnl2
    exact matchToken_no_markers sc2 hwf2 hnl2

theorem C4_list_marker_witness :
    ∃ tok, (matchToken ⟨['1', '.', ' ', 'f', 'o', 'o'],
        0, 1, 1, true, false, [], false⟩).2 = [tok] ∧ tok.name = .ol ∧
      tok.contents = ((['1', '.', ' ', 'f', 'o', 'o'] : List Char).drop 0).take 3 ∧
      (matchToken ⟨['1', '.', ' ', 'f', 'o', 'o'],
        0, 1, 1, true, false, [], false⟩).1.pos = 3 :=
  (C4_list_marker ⟨['1', '.', ' ', 'f', 'o', 'o'], 0, 1, 1, true, false, [], false⟩
    (by decide) rfl (by decide)).1 (by decide) (by decide)

theorem chain_append {a b c : Nat} {l l2 : List Token}
    (h1 : ChainFrom a l b) (h2 : ChainFrom b l2 c) :
    ChainFrom a (l ++ l2) c := by
  induction l generalizing a with
  | nil =>
    rw [show a = b from h1]
    exact h2
  | cons tok ts ih =>
    obtain ⟨w1, w2, w3⟩ := h1
    exact ⟨w1, w2, ih w3⟩

theorem locate_location (sc : Scan) (name : TokenName) (contents : List Char)
    (p : Position) :
    (locate sc name contents p).1.location.start = p ∧
    (locate sc name contents p).1.location.stop.offset = sc.pos := by
  unfold locate
  split
  · exact ⟨rfl, rfl⟩
  · split
    · exact ⟨rfl, rfl⟩
    · exact ⟨rfl, rfl⟩

/-- `enqueue` with full location accounting: the emitted token starts at
the supplied start position and stops at the current scan position. -/
theorem enqueue_loc (sc : Scan) (name : TokenName) (contents : List Char)
    (p : Position) :
    ∃ tok, (enqueue sc name contents p).2 = tok :: sc.lookahead ∧
      tok.name = name ∧ tok.contents = contents ∧
      tok.location.start.offset = p.offset ∧
      tok.location.stop.offset = sc.pos := by
  obtain ⟨l1, l2⟩ := locate_location sc name contents p
  have hl := locate_spec sc name contents p
  obtain ⟨s1, s2, s3, s4, s5, s6, s7, s8⟩ := hl
  unfold enqueue
  rcases hloc : locate sc name contents p with ⟨tok, sc1⟩
  rw [hloc] at l1 l2 s5 s7 s8
  dsimp only at l1 l2 s5 s7 s8 ⊢
  exact ⟨tok, by rw [s5], s7, s8, by rw [l1], l2⟩

/-- On inputs without backslashes or `<`, the text run consumes exactly one
character per output character and queues no lookahead token. -/
theorem scanCharsAux_clean : ∀ (fuel : Nat) (sc : Scan),
    (∀ c ∈ sc.str, c ≠ '\\' ∧ c ≠ '<') →
    (scanCharsAux fuel sc).2.lookahead = sc.lookahead ∧
    (scanCharsAux fuel sc).1.length = (scanCharsAux fuel sc).2.pos - sc.pos ∧
    sc.pos ≤ (scanCharsAux fuel sc).2.pos := by
  intro fuel
  induction fuel with
  | zero =>
    intro sc hclean
    exact ⟨rfl, by simp [scanCharsAux], Nat.le_refl _⟩
  | succ fuel ih =>
    intro sc hclean
    rw [scanCharsAux]
    cases hg : sc.str[sc.pos]? with
    | none =>
      exact ⟨rfl, by simp, Nat.le_refl _⟩
    | some chr =>
      have hmem : chr ∈ sc.str := by
        have hlt : sc.pos < sc.str.length := by
          by_contra hge
          rw [List.getElem?_eq_none_iff.mpr (by omega)] at hg
          cases hg
        have hx := List.getElem?_eq_getElem hlt
        rw [hg] at hx
        have : chr = sc.str[sc.pos] := Option.some.injEq _ _ ▸ hx
        rw [this]
        exact List.getElem_mem hlt
      obtain ⟨hc1, hc2⟩ := hclean chr hmem
      dsimp only
      rw [if_neg (by simp [hc1])]
      split
      case _ hch =>
        obtain ⟨i1, i2, i3⟩ := ih { sc with pos := sc.pos + 1 } hclean
        dsimp only at i1 i2 i3 ⊢
        refine ⟨i1, ?_, by omega⟩
        rw [List.length_cons, i2]
        omega
      case _ hch =>
        rw [if_neg (by simp [hc2])]
        exact ⟨rfl, by simp, Nat.le_refl _⟩

theorem enqueue_chain (sc : Scan) (name : TokenName) (contents : List Char)
    (p : Position) (hla : sc.lookahead = [])
    (hoff : p.offset + contents.length = sc.pos) :
    ChainFrom p.offset (enqueue sc name contents p).2
      (enqueue sc name contents p).1.pos := by
  obtain ⟨tok, hts, hname, hcont, hstart, hstop⟩ := enqueue_loc sc name contents p
  obtain ⟨q1, q2, q3, q4, q5, q6, tok2, hts2, _, _⟩ := enqueue_spec sc name contents p
  rw [hts, hla]
  refine ⟨hstart, ?_, ?_⟩
  · rw [hstop, hcont]
    omega
  · show p.offset + tok.contents.length = (enqueue sc name contents p).1.pos
    rw [q2, hcont]
    omega

/-- With no backslash and no `<` in the input, the generic dispatch emits
tokens whose locations exactly tile the consumed slice. -/
theorem genericDispatch_chain (sc : Scan) (hla : sc.lookahead = [])
    (hpos : sc.pos < sc.str.length)
    (hclean : ∀ c ∈ sc.str, c ≠ '\\' ∧ c ≠ '<') :
    ChainFrom sc.pos (genericDispatch sc).2 (genericDispatch sc).1.pos := by
  unfold genericDispatch
  dsimp only
  split
  case _ hg =>
    exact enqueue_chain _ .star ['*'] (getLocation sc)
      (by dsimp only; exact hla) (by simp [getLocation])
  case _ hg =>
    exact enqueue_chain _ .underscore ['_'] (getLocation sc)
      (by dsimp only; exact hla) (by simp [getLocation])
  case _ hg =>
    exact enqueue_chain _ .tick ['\x60'] (getLocation sc)
      (by dsimp only; exact hla) (by simp [getLocation])
  case _ hg =>
    exact enqueue_chain _ .pipe ['|'] (getLocation sc)
      (by dsimp only; exact hla) (by simp [getLocation])
  case _ hg =>
    exact enqueue_chain _ .tilde ['~'] (getLocation sc)
      (by dsimp only; exact hla) (by simp [getLocation])
  case _ hg =>
    -- the newline branch
    have hdrop : sc.str.drop sc.pos = '\n' :: sc.str.drop (sc.pos + 1) := by
      rw [List.drop_eq_getElem_cons hpos]
      congr 1
      have h2 := List.getElem?_eq_getElem hpos
      rw [hg] at h2
      exact (Option.some.injEq _ _ ▸ h2).symm
    have hn1 : 1 ≤ countWhile (fun c => c == '\n') (sc.str.drop sc.pos) := by
      rw [hdrop]
      exact countWhile_pos _ (by simp)
    have hnle : countWhile (fun c => c == '\n') (sc.str.drop sc.pos) ≤
        sc.str.length - sc.pos := by
      have h2 := countWhile_le (fun c => c == '\n') (sc.str.drop sc.pos)
      rw [List.length_drop] at h2
      exact h2
    split
    case _ hone =>
      refine enqueue_chain _ .linebreak ['\n'] (getLocation sc)
        (by dsimp only; exact hla) ?_
      dsimp only [getLocation]
      simp only [List.length_cons, List.length_nil, Scan.rest] at hone ⊢
      omega
    case _ hone =>
      refine enqueue_chain _ .parabreak _ (getLocation sc)
        (by dsimp only; exact hla) ?_
      dsimp only [getLocation]
      simp only [Scan.rest] at hone ⊢
      rw [List.length_take, List.length_drop]
      omega
  case _ chr hne1 hne2 hne3 hne4 hne5 hne6 =>
    split
    case _ hws =>
      have hwle : countWhile isWhitespace sc.rest ≤ sc.str.length - sc.pos := by
        have h2 := countWhile_le isWhitespace sc.rest
        rw [rest_length] at h2
        exact h2
      rw [scanWhitespace_eq]
      dsimp only
      refine enqueue_chain _ .whitespace _ (getLocation sc)
        (by dsimp only; exact hla) ?_
      dsimp only [getLocation]
      rw [takeWhile_eq_take, List.length_take, rest_length]
      omega
    case _ hws =>
      split
      case _ hic =>
        rcases hsc : scanChars sc with ⟨out, sc1⟩
        have hcln := scanCharsAux_clean (sc.str.length - sc.pos + 1) sc hclean
        rw [show scanCharsAux (sc.str.length - sc.pos + 1) sc = (out, sc1)
          from hsc] at hcln
        dsimp only at hcln
        obtain ⟨i1, i2, i3⟩ := hcln
        dsimp only
        refine enqueue_chain sc1 .text out (getLocation sc)
          (by rw [i1]; exact hla) ?_
        dsimp only [getLocation]
        omega
      case _ hic =>
        split
        case _ hlt =>
          exfalso
          cases hgc : sc.str[sc.pos]? with
          | none =>
            rw [List.getElem?_eq_none_iff] at hgc
            omega
          | some c =>
            rw [hgc] at hlt
            simp only [Option.some.injEq] at hlt
            have hmem : c ∈ sc.str := by
              have hx := List.getElem?_eq_getElem hpos
              rw [hgc] at hx
              have : c = sc.str[sc.pos] := Option.some.injEq _ _ ▸ hx
              rw [this]
              exact List.getElem_mem hpos
            exact (hclean c hmem).2 hlt
        case _ hlt =>
          exfalso
          cases hgc : sc.str[sc.pos]? with
          | none =>
            rw [hgc] at hic
            simp at hic
          | some c =>
            rw [hgc] at hws hic hlt
            simp only [Option.map_some', Option.getD_some] at hws hic
            have hcl := char_classified c (by
              cases h : isWhitespace c
              · rfl
              · exact absurd h hws) (by
              cases h : isChars c
              · rfl
              · exact absurd h hic) (by
              intro hceq
              exact hlt (by rw [hceq]))
            rcases hcl with h | h | h | h | h | h <;> subst h
            · exact hne1 hgc
            · exact hne2 hgc
            · exact hne3 hgc
            · exact hne4 hgc
            · exact hne5 hgc
            · exact hne6 hgc

/-- On inputs without backslashes, `<`, or digits, every `matchToken` call
emits tokens whose locations exactly tile the consumed slice. -/
theorem matchToken_chain (sc : Scan) (hwf : ScanWf sc)
    (hclean : ∀ c ∈ sc.str, c ≠ '\\' ∧ c ≠ '<' ∧ c.isDigit = false) :
    ChainFrom sc.pos (matchToken sc).2 (matchToken sc).1.pos := by
  obtain ⟨hple, hla, herr, heof⟩ := hwf
  have hclean2 : ∀ c ∈ sc.str, c ≠ '\\' ∧ c ≠ '<' :=
    fun c hc => ⟨(hclean c hc).1, (hclean c hc).2.1⟩
  unfold matchToken
  split
  case _ hend =>
    have := enqueue_chain { sc with eofF := true } .EOF []
      (getLocation { sc with eofF := true }) (by dsimp only; exact hla)
      (by simp [getLocation])
    exact this
  case _ hend =>
    have hpos : sc.pos < sc.str.length := by omega
    split
    case _ hnl =>
      -- the line-start branch on a clean input
      unfold newlineBranch
      rw [scanWhitespace_eq]
      dsimp only
      simp only [rest_nl, rest_mk]
      have hwle : countWhile isWhitespace (sc.str.drop sc.pos) ≤
          sc.str.length - sc.pos := by
        have h2 := countWhile_le isWhitespace (sc.str.drop sc.pos)
        rw [List.length_drop] at h2
        exact h2
      have hwlen : (List.takeWhile isWhitespace (sc.str.drop sc.pos)).length =
          countWhile isWhitespace (sc.str.drop sc.pos) := rfl
      split
      case _ hroom =>
        split
        case _ hwsne =>
          refine enqueue_chain _ .whitespace _ (getLocation _)
            (by dsimp only; exact hla) ?_
          dsimp only [getLocation]
          rw [hwlen]
        case _ hwsne =>
          exfalso
          have hws0 : countWhile isWhitespace (sc.str.drop sc.pos) = 0 := by
            have hws : List.takeWhile isWhitespace (sc.str.drop sc.pos) = [] := by
              by_contra hne
              exact hwsne hne
            rw [countWhile, hws]
            rfl
          omega
      case _ hroom =>
        have hdig : ¬((sc.str[sc.pos + countWhile isWhitespace
              (sc.str.drop sc.pos)]?.map
            Char.isDigit).getD false = true) := by
          cases hgc : sc.str[sc.pos + countWhile isWhitespace
              (sc.str.drop sc.pos)]? with
          | none => simp
          | some c =>
            have hlt2 : sc.pos + countWhile isWhitespace (sc.str.drop sc.pos) <
                sc.str.length := by
              by_contra hge
              rw [List.getElem?_eq_none_iff.mpr (by omega)] at hgc
              cases hgc
            have hmem : c ∈ sc.str := by
              have hx := List.getElem?_eq_getElem hlt2
              rw [hgc] at hx
              have : c = sc.str[sc.pos + countWhile isWhitespace
                  (sc.str.drop sc.pos)] :=
                Option.some.injEq _ _ ▸ hx
              rw [this]
              exact List.getElem_mem hlt2
            simp [(hclean c hmem).2.2]
        rw [if_neg hdig]
        split
        case _ hstar =>
          refine enqueue_chain _ .ul _ (getLocation _)
            (by dsimp only; exact hla) ?_
          dsimp only [getLocation]
          rw [List.length_append, hwlen]
          simp only [List.length_cons, List.length_nil]
          omega
        case _ hstar =>
          have hltch : ¬(sc.str[sc.pos + countWhile isWhitespace
              (sc.str.drop sc.pos)]? = some '<') := by
            intro hgc
            have hlt2 : sc.pos + countWhile isWhitespace (sc.str.drop sc.pos) <
                sc.str.length := by
              by_contra hge
              rw [List.getElem?_eq_none_iff.mpr (by omega)] at hgc
              cases hgc
            have hmem : '<' ∈ sc.str := by
              have hx := List.getElem?_eq_getElem hlt2
              rw [hgc] at hx
              have : '<' = sc.str[sc.pos + countWhile isWhitespace
                  (sc.str.drop sc.pos)] :=
                Option.some.injEq _ _ ▸ hx
              rw [this]
              exact List.getElem_mem hlt2
            exact (hclean '<' hmem).2.1 rfl
          rw [if_neg hltch]
          split
          case _ hwsne =>
            refine enqueue_chain _ .whitespace _ (getLocation _)
              (by dsimp only; exact hla) ?_
            dsimp only [getLocation]
            rw [hwlen]
          case _ hwsne =>
            have hws0 : countWhile isWhitespace (sc.str.drop sc.pos) = 0 := by
              have hws : List.takeWhile isWhitespace (sc.str.drop sc.pos) = [] := by
                by_contra hne
                exact hwsne hne
              rw [countWhile, hws]
              rfl
            rw [show sc.pos + countWhile isWhitespace (sc.str.drop sc.pos) =
              sc.pos from by omega]
            exact genericDispatch_chain { sc with nl := false, pos := sc.pos }
              (by dsimp only; exact hla) (by dsimp only; omega)
              (by dsimp only; exact hclean2)
    case _ hnl =>
      exact genericDispatch_chain sc hla hpos hclean2

/-- On clean inputs the whole remaining stream tiles the remaining input
exactly, with a single empty EOF token at the end. -/
theorem future_chain : ∀ (n : Nat) (sc : Scan), ScanWf sc → sc.eofF = false →
    (∀ c ∈ sc.str, c ≠ '\\' ∧ c ≠ '<' ∧ c.isDigit = false) →
    sc.str.length - sc.pos ≤ n →
    ∃ pre e, future sc = pre ++ [e] ∧ e.name = .EOF ∧
      (∀ tok ∈ pre, tok.name ≠ .EOF) ∧
      ChainFrom sc.pos pre sc.str.length ∧
      pre.length ≤ sc.str.length - sc.pos := by
  intro n
  induction n with
  | zero =>
    intro sc hwf he hclean hn
    have hend : sc.pos = sc.str.length := by have := hwf.1; omega
    have hstep := matchToken_step sc hwf
    obtain ⟨h1, h2, h3, h4, h5, h6⟩ := hstep
    rw [if_pos hend] at h6
    obtain ⟨e1, e2, tok, e3, e4⟩ := h6
    refine ⟨[], tok, ?_, e4, by simp, hend, by simp⟩
    rw [future_unfold sc hwf he, e3,
      show future (matchToken sc).1 = [] from futureAux_eofF _ _ e1]
    simp
  | succ n ih =>
    intro sc hwf he hclean hn
    by_cases hend : sc.pos = sc.str.length
    · have hstep := matchToken_step sc hwf
      obtain ⟨h1, h2, h3, h4, h5, h6⟩ := hstep
      rw [if_pos hend] at h6
      obtain ⟨e1, e2, tok, e3, e4⟩ := h6
      refine ⟨[], tok, ?_, e4, by simp, hend, by simp⟩
      rw [future_unfold sc hwf he, e3,
        show future (matchToken sc).1 = [] from futureAux_eofF _ _ e1]
      simp
    · have hple := hwf.1
      have hstep := matchToken_step sc hwf
      obtain ⟨h1, h2, h3, h4, h5, h6⟩ := hstep
      rw [if_neg hend] at h6
      obtain ⟨e1, e2, e3, e4, e5⟩ := h6
      have hwf' := matchToken_wf sc hwf
      have hchain := matchToken_chain sc hwf hclean
      obtain ⟨pre, e, q1, q2, q3, q4, q5⟩ := ih (matchToken sc).1 hwf' e1
        (by rw [h1]; exact hclean) (by rw [h1]; omega)
      refine ⟨(matchToken sc).2 ++ pre, e, ?_, q2, ?_, ?_, ?_⟩
      · rw [future_unfold sc hwf he, q1, List.append_assoc]
      · intro tok htok
        rcases List.mem_append.mp htok with hmem | hmem
        · exact e4 tok hmem
        · exact q3 tok hmem
      · refine chain_append hchain ?_
        rw [← h1]
        exact q4
      · rw [List.length_append]
        rw [h1] at q5
        omega

/-- With enough calls, `next()` returns the stream's tokens in order and
then repeats the EOF token. -/
theorem nextN_outputs : ∀ (n : Nat) (t : Tokenizer) (pre : List Token)
    (e : Token), TWf t → strm t = pre ++ [e] →
    (∀ tok ∈ pre, tok.name ≠ .EOF) → e.name = .EOF → pre.length ≤ n →
    (nextN (n + 1) t).1 = pre ++ List.replicate (n + 1 - pre.length) e := by
  intro n
  induction n with
  | zero =>
    intro t pre e hwf hs hpre he hlen
    have hpre0 : pre = [] := List.length_eq_zero.mp (by omega)
    subst hpre0
    obtain ⟨n1, n2, n3, n4⟩ := next_spec t hwf
    rw [nextN_succ]
    dsimp only
    rw [n1, hs]
    simp
    rfl
  | succ n ih =>
    intro t pre e hwf hs hpre he hlen
    obtain ⟨n1, n2, n3, n4⟩ := next_spec t hwf
    rw [nextN_succ]
    dsimp only
    cases hp : pre with
    | nil =>
      subst hp
      simp only [List.nil_append] at hs
      have hhead : (strm t).headD defaultToken = e := by
        rw [hs]
        rfl
      have hifpos : strm (next t).2 = strm t := by
        rw [n4, if_pos (by rw [hhead]; exact he)]
      have hrec := ih (next t).2 [] e n2 (by rw [hifpos, hs]; simp) (by simp) he
        (by simp)
      rw [show (nextN (n + 1) (next t).2).1 = (nextN (n + 1) (next t).2).1
        from rfl, hrec, n1, hhead]
      simp [List.replicate_succ]
    | cons tok pre2 =>
      subst hp
      have hhead : (strm t).headD defaultToken = tok := by
        rw [hs]
        rfl
      have htokne : tok.name ≠ .EOF := hpre tok (by simp)
      have hifneg : strm (next t).2 = pre2 ++ [e] := by
        rw [n4, if_neg (by rw [hhead]; exact htokne), hs]
        rfl
      have hrec := ih (next t).2 pre2 e n2 hifneg
        (fun tok2 h2 => hpre tok2 (List.mem_cons_of_mem tok h2)) he
        (by simp at hlen; omega)
      rw [hrec, n1, hhead]
      simp only [List.length_cons, List.cons_append, List.append_cancel_left_eq]
      rw [show n + 1 + 1 - (pre2.length + 1) = n + 1 - pre2.length from by omega]

/-- C2: corrected.  On inputs containing no backslash, no `<`, and no
digits, every token's location starts where the previous one stopped,
spans exactly its contents, and the tokens tile the whole input from
offset 0 to the input length — which yields `start.offset ≤ end.offset`,
span = contents length, and ordered non-overlapping locations.  (On general
inputs the span and adjacency parts fail; see the counterexample.) -/
theorem C2_locations (str : List Char)
    (hclean : ∀ c ∈ str, c ≠ '\\' ∧ c ≠ '<' ∧ c.isDigit = false) :
    ChainFrom 0 (nextTokens str) str.length := by
  obtain ⟨pre, e, hfut, hename, hprene, hchain, hlen⟩ := future_chain str.length
    (initTokenizer str).scan (init_wf str).1 rfl hclean (by simp [initTokenizer])
  have hstrm : strm (initTokenizer str) = pre ++ [e] := by
    show [] ++ future (initTokenizer str).scan = pre ++ [e]
    rw [hfut]
    simp
  have houts := nextN_outputs str.length (initTokenizer str) pre e (init_wf str)
    hstrm hprene hename hlen
  have hnt : nextTokens str = pre := by
    unfold nextTokens
    rw [houts, List.filter_append]
    have h1 : pre.filter (fun tok => decide (tok.name ≠ TokenName.EOF)) = pre := by
      rw [List.filter_eq_self]
      intro a ha
      simpa using hprene a ha
    have h2 : (List.replicate (str.length + 1 - pre.length) e).filter
        (fun tok => decide (tok.name ≠ TokenName.EOF)) = [] := by
      rw [List.filter_eq_nil]
      intro a ha
      rw [List.eq_of_mem_replicate ha]
      simp [hename]
    rw [h1, h2, List.append_nil]
  rw [hnt]
  exact hchain

theorem C2_locations_witness :
    (∀ c ∈ ['*', ' ', 'a', '\n', 'b'], c ≠ '\\' ∧ c ≠ '<' ∧
      c.isDigit = false) ∧
    ChainFrom 0 (nextTokens ['*', ' ', 'a', '\n', 'b'])
      (['*', ' ', 'a', '\n', 'b'] : List Char).length :=
  ⟨by decide, C2_locations ['*', ' ', 'a', '\n', 'b'] (by decide)⟩

/-- C2 counterexample to the original wording: on `" 1x"` the whitespace
token spans offsets 0–2 although its contents are the single space, and the
text token starts at offset 0 again — so span ≠ contents length and
consecutive locations overlap. -/
theorem C2_locations_counterexample :
    (nextTokens [' ', '1', 'x']).map (fun t =>
      (t.location.start.offset, t.location.stop.offset, t.contents.length)) =
      [(0, 2, 1), (0, 3, 2)] ∧
    ¬(2 - 0 = 1) ∧ ¬(0 = 2) := by
  decide

end Emd
